import Mathlib

/-!
# Radial dendrogram controller (`d3_dendrogram.js`)

A shallow embedding of the expand/collapse state machine of the dendrogram:
the parsed dataset, the d3 hierarchy built from it, the two child slots
(`children`, `_children`) of every hierarchy node, the elements that
`updateDendrogram` keeps under `gNode` and `gLink`, the viewport, and the
operations `buildDendrogram`, `clickNode`, `jumpToNode`, `updateNodeColors`,
`filterNodes`, `panSVG`, `resizeSVG` and the click listener installed on
rendered nodes.

Conventions of the embedding.

* A dataset object is a value of `Data`.  Its `children` list is `[]` when the
  JavaScript property is absent, `null`, `undefined` or an empty array: the
  program only tests the property for truthiness before iterating it, and
  d3.hierarchy gives a node no `children` in all four cases.
* A hierarchy node is referred to by its `Path`: the child indices that lead
  from the hierarchy root to it.  d3 never restructures a hierarchy, so a path
  names the same node object for the whole session.  Parent pointers are not
  stored; the ancestors of a node are the nodes at the prefixes of its path.
* d3.hierarchy allocates one child array per node that has children.  The
  properties `children` and `_children` of a node either hold a reference to
  that array or hold no array (`undefined`/`null`); this is a `Slot`.
* Layout coordinates (`x`, `y`, `x0`, `y0`) and the timing of transitions are
  not part of the state.  A transition is represented by its end value; an
  element whose exit transition is scheduled stays in the document, flagged,
  until `transitionsEnd`.  Of the styling, the state keeps the `display` style
  of node and link elements and the fill of the node circles.  The radial
  distance of a node element and of the endpoints of a link element is a
  function of the datum of the element and of `branchDistance`.

The map pieces of `d3_map.js` and the column chart of `d3_charts.js` are
modelled in the namespaces `MapView` and `Charts` further down.
-/

namespace Dendrogram

/-- An uncaught JavaScript exception. -/
inductive JsError where
  | typeError (what : String)
deriving DecidableEq, Repr

/-- Outcome of a call that may throw part-way: the state it leaves behind and
the exception, if one was raised. -/
structure Outcome (σ : Type) where
  state : σ
  thrown : Option JsError

/-- The dataset object of the file data template: `id`, `name`, `trueDepth`,
the boolean flags, and the nested `children`. -/
inductive Data where
  | mk (id : String) (name : String) (trueDepth : Int) (flags : List (String × Bool))
      (children : List Data)

/-- The fields of a dataset object other than `children`; the program never
assigns them. -/
structure NodeData where
  id : String
  name : String
  trueDepth : Int
  flags : List (String × Bool)
deriving DecidableEq, Repr

def Data.id : Data → String
  | .mk i _ _ _ _ => i

def Data.children : Data → List Data
  | .mk _ _ _ _ cs => cs

def Data.fields : Data → NodeData
  | .mk i n t f _ => { id := i, name := n, trueDepth := t, flags := f }

/-- Child indices leading from a root to a node. -/
abbrev Path := List Nat

/-- The dataset object reached from `d` along a path, if there is one. -/
def Data.get? : Data → Path → Option Data
  | d, [] => some d
  | .mk _ _ _ _ cs, i :: r =>
    match cs[i]? with
    | none => none
    | some c => Data.get? c r

/-- Assignment `obj.children = v` with a falsy `v` on the dataset object at a
path; an object that is no longer reachable from the root leaves it as is. -/
def Data.dropChildrenAt : Data → Path → Data
  | .mk i n t f _, [] => .mk i n t f []
  | .mk i n t f cs, j :: r =>
    match cs[j]? with
    | none => .mk i n t f cs
    | some c => .mk i n t f (cs.set j (Data.dropChildrenAt c r))

mutual
/-- Body of the `for` loop of `getDataset` for one element of the bucket:
`some` is a `return`, `none` lets the loop continue. -/
def getDatasetNode (id : String) : Data → Option Data
  | .mk i n t f cs => if i = id then some (.mk i n t f cs) else getDataset id cs
/-- The function `getDataset(id, bucket)`: the first object in pre-order whose
id is strictly equal to `id`; `none` is `undefined`. -/
def getDataset (id : String) : List Data → Option Data
  | [] => none
  | node :: rest =>
    match getDatasetNode id node with
    | some r => some r
    | none => getDataset id rest
end

/-- Shift the leading index of a path inside a bucket by one. -/
def bumpHead : Path → Path
  | [] => []
  | j :: q => (j + 1) :: q

mutual
/-- Where the object returned by `getDatasetNode` sits below the given object
(`getDataset` returns the object itself, not a copy). -/
def locateNode (id : String) : Data → Option Path
  | .mk i _ _ _ cs => if i = id then some [] else locate id cs
/-- Where the object returned by `getDataset` sits in the bucket: index in the
bucket, then child indices. -/
def locate (id : String) : List Data → Option Path
  | [] => none
  | node :: rest =>
    match locateNode id node with
    | some p => some (0 :: p)
    | none => (locate id rest).map bumpHead
end

/-- What a `children` or `_children` property of a hierarchy node holds: no
array (`undefined` or `null`, both falsy), or the node's child array. -/
inductive Slot where
  | empty
  | array
deriving DecidableEq, Repr

/-- A node of a d3 hierarchy: `data`, `depth`, the property `children`, the
property `_children` added by `buildDendrogram`, and the child array that
d3.hierarchy allocated for it (`[]` for a node without children). -/
inductive HNode where
  | mk (data : NodeData) (depth : Nat) (children : Slot) (hidden : Slot) (kids : List HNode)

def HNode.data : HNode → NodeData
  | .mk d _ _ _ _ => d

def HNode.depth : HNode → Nat
  | .mk _ k _ _ _ => k

def HNode.children : HNode → Slot
  | .mk _ _ c _ _ => c

def HNode.hidden : HNode → Slot
  | .mk _ _ _ h _ => h

def HNode.kids : HNode → List HNode
  | .mk _ _ _ _ ks => ks

/-- Assignment `d.children = v`. -/
def HNode.setChildren (v : Slot) : HNode → HNode
  | .mk d k _ h ks => .mk d k v h ks

/-- Assignment `d._children = v`. -/
def HNode.setHidden (v : Slot) : HNode → HNode
  | .mk d k c _ ks => .mk d k c v ks

/-- The nodes that `node.children` yields when iterated: the child array if the
property holds it, nothing otherwise. -/
def HNode.live (n : HNode) : List HNode :=
  if n.children = Slot.array then n.kids else []

mutual
/-- The function d3.hierarchy: one node per dataset object; `children` is set
only for an object with a non-empty `children` array; `_children` is absent. -/
def hierarchy : Data → Nat → HNode
  | .mk i n t f cs, depth =>
    .mk { id := i, name := n, trueDepth := t, flags := f } depth
      (if cs.isEmpty then Slot.empty else Slot.array) Slot.empty
      (hierarchyList cs (depth + 1))
/-- The child nodes d3.hierarchy creates for a `children` array. -/
def hierarchyList : List Data → Nat → List HNode
  | [], _ => []
  | c :: cs, depth => hierarchy c depth :: hierarchyList cs depth
end

mutual
/-- Number of links on the longest downward chain of child arrays. -/
def HNode.height : HNode → Nat
  | .mk _ _ _ _ ks => heightList ks
/-- One more than the largest height in a child array, `0` for none. -/
def heightList : List HNode → Nat
  | [] => 0
  | k :: ks => max (HNode.height k + 1) (heightList ks)
end

/-- The node reached from `n` along a path through the child arrays. -/
def HNode.get? : HNode → Path → Option HNode
  | n, [] => some n
  | .mk _ _ _ _ ks, i :: r =>
    match ks[i]? with
    | none => none
    | some c => HNode.get? c r

/-- Apply an update to the node object at a path; a path that names no node
leaves the hierarchy as it is. -/
def HNode.modify (f : HNode → HNode) : HNode → Path → HNode
  | n, [] => f n
  | .mk d k c h ks, i :: r =>
    match ks[i]? with
    | none => .mk d k c h ks
    | some child => .mk d k c h (ks.set i (HNode.modify f child r))

/-- The `children` property of the node at a path. -/
def childrenAt (root : HNode) (p : Path) : Option Slot :=
  (root.get? p).map HNode.children

/-- The `_children` property of the node at a path. -/
def hiddenAt (root : HNode) (p : Path) : Option Slot :=
  (root.get? p).map HNode.hidden

/-- The `data` of the node at a path. -/
def dataAt (root : HNode) (p : Path) : Option NodeData :=
  (root.get? p).map HNode.data

/-- The ids of the node's full child list, in order. -/
def childIdsAt (root : HNode) (p : Path) : Option (List String) :=
  (root.get? p).map (fun n => n.kids.map (fun c => c.data.id))

/-- The `data.id` of the node at a path. -/
def idAt (root : HNode) (p : Path) : Option String :=
  (root.get? p).map (fun n => n.data.id)

/-- One round of the d3 node iterator: the nodes pushed on `next` while the
current level is consumed in order, each with its path. -/
def nextLevel (level : List (Path × HNode)) : List (Path × HNode) :=
  level.flatMap (fun pn => pn.2.live.enum.map (fun ic => (pn.1 ++ [ic.1], ic.2)))

/-- The d3 node iterator (breadth-first): yield the current level in order,
then continue with the children collected from it, until a level is empty. -/
def bfs : Nat → List (Path × HNode) → List (Path × HNode)
  | 0, _ => []
  | _ + 1, [] => []
  | fuel + 1, n :: level => (n :: level) ++ bfs fuel (nextLevel (n :: level))

/-- The method `root.descendants()`: the node and everything reachable through
`children`, in breadth-first order. -/
def descendants (root : HNode) : List Path :=
  (bfs (root.height + 1) [([], root)]).map Prod.fst

/-- The method `root.find(test)` for a test on the id: the first node
of the iteration whose `data.id` equals the given id. -/
def findId (root : HNode) (id : String) : Option Path :=
  (descendants root).find? (fun p => idAt root p == some id)

/-- A `g` element under `gNode`: its `id` attribute, the hierarchy node bound
to it as datum, whether an exit transition ending in `remove()` is scheduled
on it, its `display` style (`none` when never set), and the `fill` attribute
and `fill` style of its circle. -/
structure GElem where
  id : String
  datum : Path
  exiting : Bool
  display : Option String := none
  fill : String := "#E1E1E1"
  fillStyle : Option String := none
deriving DecidableEq, Repr

/-- A `path` element under `gLink`: the link bound to it as datum (source and
target node), whether its exit transition is scheduled, and its `display`
style. -/
structure LElem where
  source : Path
  target : Path
  exiting : Bool
  display : Option String := none
deriving DecidableEq, Repr

/-- The handlers of `options.events`: whether each entry holds a function. -/
structure Events where
  click : Bool := false
  dblclick : Bool := false
  mouseover : Bool := false
  mouseout : Bool := false
deriving DecidableEq, Repr

/-- Number of own keys of the events object. -/
def Events.keys (ev : Events) : Nat :=
  (if ev.click then 1 else 0) + (if ev.dblclick then 1 else 0)
    + (if ev.mouseover then 1 else 0) + (if ev.mouseout then 1 else 0)

/-- The options read by the modelled part of `buildDendrogram`; `none` is an
absent entry. -/
structure Options where
  center : Option String := none
  events : Option Events := none
  colorFlag : Option String := none
  duration : Option Int := none
  width : Option ℚ := none
  height : Option ℚ := none
  branchColor : Option String := none
  leafColor : Option String := none
  margin : Option ℚ := none
  marginTop : Option ℚ := none
  marginBottom : Option ℚ := none
  marginLeft : Option ℚ := none
  marginRight : Option ℚ := none
  branchDistance : Option ℚ := none
deriving DecidableEq, Repr

/-- The module-level state after `buildDendrogram`: `fullData`, where the
object `dataset` sits inside it, the hierarchy `root`, `nodeEvents`
(`none` is `undefined`), the `g` elements under `gNode` and the `path`
elements under `gLink` in document order, `colorFlag`, `duration`, the two
colours, the `width` and `height` attributes of the svg, `panX`, `panY`, the
translation in the `transform` of the content group, the four margins and
`branchDistance`.  The svg is taken to be mounted as the first svg of the
document, so that `d3.select("svg")` and `d3.select("svg g")` reach it and its
content group. -/
structure Session where
  fullData : Data
  datasetAt : Path
  root : HNode
  nodeEvents : Option Events
  gNode : List GElem
  gLink : List LElem := []
  colorFlag : Option String := none
  duration : Int := 350
  branchColor : String := "#FFD966"
  leafColor : String := "#FD9500"
  svgWidth : ℚ := 500
  svgHeight : ℚ := 500
  panX : ℚ := 500 / 2
  panY : ℚ := 500 / 2
  transform : ℚ × ℚ := (500 / 2, 500 / 2)
  marginTop : ℚ := 10
  marginBottom : ℚ := 10
  marginLeft : ℚ := 10
  marginRight : ℚ := 10
  branchDistance : ℚ := 75

/-- The value `options.marginTop ? options.marginTop : options.margin ?
options.margin : 10`, and the same expression for the three other sides:
`side` is the entry of the side, `margin` is `options.margin`, `none` is an
absent entry, and the number 0 is falsy. -/
def marginOf (side margin : Option ℚ) : ℚ :=
  let general : ℚ :=
    match margin with
    | some g => if g ≠ 0 then g else 10
    | none => 10
  match side with
  | some m => if m ≠ 0 then m else general
  | none => general

/-- The value `d.data[key]` tested for truthiness, for a key of one of the
boolean pairs of the data template; an absent key is `undefined`. -/
def NodeData.flag (d : NodeData) (key : String) : Bool :=
  (d.flags.lookup key).getD false

/-- The value `d.data[key]` for the hierarchy node at a path. -/
def flagAt (root : HNode) (p : Path) (key : String) : Bool :=
  match dataAt root p with
  | some d => d.flag key
  | none => false

/-- Key function of the node join, `d => d.id`, turned into a string by the
join.  A hierarchy node has the properties `data`, `depth`, `height`,
`parent`, `children` (and here `_children`), and no `id`. -/
def nodeKey (_d : Path) : String := "undefined"

/-- Key function of the link join, `d => d.target.id`: the target is a
hierarchy node, which has no `id`. -/
def linkKey (_d : Path × Path) : String := "undefined"

/-- Keyed data join, matching pass: a datum takes the first element with its
key unless an earlier datum took that key; otherwise it enters. -/
def joinRoles {δ ε : Type} (key : δ → String) (datum : ε → δ) (group : List ε) :
    List δ → List String → List (δ × Option Nat)
  | [], _ => []
  | d :: ds, used =>
    if used.contains (key d) then (d, none) :: joinRoles key datum group ds used
    else
      match group.findIdx? (fun e => key (datum e) == key d) with
      | some j => (d, some j) :: joinRoles key datum group ds (key d :: used)
      | none => (d, none) :: joinRoles key datum group ds used

/-- For every updated element: the entering data placed right before it. -/
def entersBefore {δ : Type} :
    List (δ × Option Nat) → List δ → List (Nat × (List δ × δ))
  | [], _ => []
  | (d, none) :: rs, pend => entersBefore rs (pend ++ [d])
  | (d, some j) :: rs, pend => (j, (pend, d)) :: entersBefore rs []

/-- The entering data that follow the last updated element. -/
def entersLast {δ : Type} : List (δ × Option Nat) → List δ → List δ
  | [], pend => pend
  | (d, none) :: rs, pend => entersLast rs (pend ++ [d])
  | (_, some _) :: rs, _ => entersLast rs []

/-- The `fill` attribute given to the circle of an entering node:
`colorFlag && d.data[colorFlag] ? d._children ? branchColor : leafColor : "#E1E1E1"`. -/
def enterFill (colorFlag : Option String) (branchColor leafColor : String) (d : HNode) :
    String :=
  match colorFlag with
  | none => "#E1E1E1"
  | some flag =>
    if flag ≠ "" ∧ d.data.flag flag = true then
      (if d.hidden = Slot.array then branchColor else leafColor)
    else "#E1E1E1"

/-- The element appended for an entering node: `id` is `d.data.id`, the circle
is filled by `fill`. -/
def enterElem (root : HNode) (fill : HNode → String) (d : Path) : GElem :=
  { id := (idAt root d).getD "", datum := d, exiting := false
    fill := match root.get? d with
      | some n => fill n
      | none => "#E1E1E1" }

/-- The node join of `updateDendrogram` on the elements under `gNode`:
updated elements are re-bound, entering elements are inserted before the next
updated element or appended, all other elements start their exit. -/
def joinNodes (root : HNode) (fill : HNode → String) (group : List GElem)
    (nodes : List Path) : List GElem :=
  let roles := joinRoles nodeKey GElem.datum group nodes []
  let upd := entersBefore roles []
  (group.enum.flatMap (fun je =>
      match upd.lookup je.1 with
      | some (ents, d) =>
        ents.map (enterElem root fill) ++ [{ je.2 with datum := d, exiting := false }]
      | none => [{ je.2 with exiting := true }]))
    ++ (entersLast roles []).map (enterElem root fill)

/-- The method `root.links()`: one link per node of the iteration other than
the root, from its parent to it. -/
def links (root : HNode) : List (Path × Path) :=
  (descendants root).filterMap (fun p => if p = [] then none else some (p.dropLast, p))

/-- The `path` element appended for an entering link. -/
def enterLink (d : Path × Path) : LElem :=
  { source := d.1, target := d.2, exiting := false }

/-- The link join of `updateDendrogram` on the elements under `gLink`. -/
def joinLinks (group : List LElem) (ls : List (Path × Path)) : List LElem :=
  let roles := joinRoles linkKey (fun l : LElem => (l.source, l.target)) group ls []
  let upd := entersBefore roles []
  (group.enum.flatMap (fun je =>
      match upd.lookup je.1 with
      | some (ents, d) =>
        ents.map enterLink ++ [{ je.2 with source := d.1, target := d.2, exiting := false }]
      | none => [{ je.2 with exiting := true }]))
    ++ (entersLast roles []).map enterLink

/-- The function `updateDendrogram(root)`: joins `root.descendants()` with the
elements under `gNode` and `root.links()` with the elements under `gLink`.  It
assigns no `children` or `_children`. -/
def updateDendrogram (s : Session) : Session :=
  { s with
    gNode := joinNodes s.root (enterFill s.colorFlag s.branchColor s.leafColor) s.gNode
      (descendants s.root)
    gLink := joinLinks s.gLink (links s.root) }

/-- End of the running transitions: elements on an exit transition are
removed from the document. -/
def transitionsEnd (s : Session) : Session :=
  { s with
    gNode := s.gNode.filter (fun e => !e.exiting)
    gLink := s.gLink.filter (fun l => !l.exiting) }

/-- The colour applied by `updateNodeColors` to the circle of a node:
`colorFlag && d.data[colorFlag] ? d._children ? branchColor : leafColor : "#E1E1E1"`. -/
def updateFill (colorFlag : Option String) (branchColor leafColor : String) (d : HNode) :
    String :=
  match colorFlag with
  | none => "#E1E1E1"
  | some flag =>
    if flag ≠ "" ∧ d.data.flag flag = true then
      (if d.hidden = Slot.array then branchColor else leafColor)
    else "#E1E1E1"

/-- The function `updateNodeColors(newColorFlag)`: stores the flag, then
starts a transition on every `g.node` element, which pre-empts a scheduled
exit, and sets the `fill` style of its circle. -/
def updateNodeColors (s : Session) (newColorFlag : Option String) : Session :=
  { s with
    colorFlag := newColorFlag
    gNode := s.gNode.map (fun e =>
      match s.root.get? e.datum with
      | some n =>
        { e with
          exiting := false
          fillStyle := some (updateFill newColorFlag s.branchColor s.leafColor n) }
      | none => e) }

/-- The transition duration of `filterNodes`:
`(duration - 100) > 0 ? duration - 100 : 25`. -/
def shortenedDuration (duration : Int) : Int :=
  if duration - 100 > 0 then duration - 100 else 25

/-- The function `filterNodes(filter, display)`: the `g.node` elements whose
`d.data[filter]` is falsy and the `.link` elements whose
`d.target.data[filter]` is falsy get a transition, which pre-empts a scheduled
exit, and the `display` style `"inline"` or `"none"`. -/
def filterNodes (s : Session) (filter : String) (display : Bool) : Session :=
  { s with
    gNode := s.gNode.map (fun e =>
      if !(flagAt s.root e.datum filter) then
        { e with display := some (if display then "inline" else "none"), exiting := false }
      else e)
    gLink := s.gLink.map (fun l =>
      if !(flagAt s.root l.target filter) then
        { l with display := some (if display then "inline" else "none"), exiting := false }
      else l) }

/-- The function `panSVG(x, y)`: the content group is translated by
`(-(x) + panX, -(y) + panY)`. -/
def panSVG (s : Session) (x y : ℚ) : Session :=
  { s with transform := (-x + s.panX, -y + s.panY) }

/-- The function `resizeSVG(width, height)`: sets the size attributes of the
svg, `panX` and `panY`, and translates the content group by `(panX, panY)`. -/
def resizeSVG (s : Session) (width height : ℚ) : Session :=
  { s with
    svgWidth := width
    svgHeight := height
    panX := width / 2
    panY := height / 2
    transform := (width / 2, height / 2) }

/-- The radial distance in the transform that the update transition of
`updateDendrogram` ends with on the element of a node,
`"rotate(" + d.x + ") translate(" + (d.data.trueDepth * branchDistance) + ",0)"`. -/
def nodeRadius (branchDistance : ℚ) (d : HNode) : ℚ :=
  d.data.trueDepth * branchDistance

/-- What `diagonal` receives as an endpoint of a link: a hierarchy node, or the
plain object `o` with only `x` and `y` that stands for both endpoints of an
entering or exiting link. -/
inductive Endpoint where
  | node (d : HNode)
  | plain

/-- The radius accessor of `diagonal`,
`d => d.data ? d.data.trueDepth * branchDistance : d.depth * branchDistance`.
The `data` of a hierarchy node is an object, hence truthy; a plain endpoint has
neither `data` nor `depth`, and the product is `NaN`, here `none`. -/
def diagonalRadius (branchDistance : ℚ) : Endpoint → Option ℚ
  | .node d => some (d.data.trueDepth * branchDistance)
  | .plain => none

/-- The radial distance in the target transform of a node element: the
update transition evaluates the transform on the datum of the element. -/
def GElem.targetRadius (s : Session) (e : GElem) : Option ℚ :=
  (s.root.get? e.datum).map (nodeRadius s.branchDistance)

/-- The radii of the source and target endpoints in the target `d` of a link
element: the update transition evaluates `diagonal` on the datum of the
element, whose `source` and `target` are hierarchy nodes. -/
def LElem.targetRadii (s : Session) (l : LElem) : Option ℚ × Option ℚ :=
  ((s.root.get? l.source).bind (fun d => diagonalRadius s.branchDistance (Endpoint.node d)),
    (s.root.get? l.target).bind (fun d => diagonalRadius s.branchDistance (Endpoint.node d)))

/-- Body of the `forEach` of `buildDendrogram` for one node:
`d._children = d.children; if (d.depth && d.depth >= root.depth + 1) d.children = null`. -/
def collapseInit (rootDepth : Nat) (d : HNode) : HNode :=
  let d1 := d.setHidden d.children
  if d1.depth ≠ 0 ∧ d1.depth ≥ rootDepth + 1 then d1.setChildren Slot.empty else d1

/-- The loop `root.descendants().forEach(...)` of `buildDendrogram`: the node
list is computed first, then every node in it is updated in turn. -/
def collapseAll (root : HNode) : HNode :=
  (descendants root).foldl (fun r p => r.modify (collapseInit r.depth) p) root

/-- The function `buildDendrogram(data, options)` on parsed data.  With a
truthy `center` that `getDataset` does not find, d3.hierarchy reads a property
of `undefined`. -/
def buildDendrogram (data : Data) (options : Options) : Except JsError Session :=
  let nodeEvents :=
    match options.events with
    | some ev => if ev.keys > 0 then some ev else none
    | none => none
  let picked : Option (Data × Path) :=
    match options.center with
    | some c =>
      if c ≠ "" then
        match getDataset c [data] with
        | some ds => some (ds, (locateNode c data).getD [])
        | none => none
      else some (data, [])
    | none => some (data, [])
  let duration : Int :=
    match options.duration with
    | some d => if d ≠ 0 then d else 350
    | none => 350
  let width : ℚ :=
    match options.width with
    | some w => if w ≠ 0 then w else 500
    | none => 500
  let height : ℚ :=
    match options.height with
    | some h => if h ≠ 0 then h else 500
    | none => 500
  let branchColor :=
    match options.branchColor with
    | some c => if c ≠ "" then c else "#FFD966"
    | none => "#FFD966"
  let leafColor :=
    match options.leafColor with
    | some c => if c ≠ "" then c else "#FD9500"
    | none => "#FD9500"
  let colorFlag :=
    match options.colorFlag with
    | some f => if f ≠ "" then some f else none
    | none => none
  let branchDistance : ℚ :=
    match options.branchDistance with
    | some b => if b ≠ 0 then b else 75
    | none => 75
  match picked with
  | none => .error (.typeError "Cannot read properties of undefined (reading 'children')")
  | some (dataset, at_) =>
    .ok (updateDendrogram
      { fullData := data, datasetAt := at_, root := collapseAll (hierarchy dataset 0),
        nodeEvents := nodeEvents, gNode := [], gLink := [], colorFlag := colorFlag,
        duration := duration, branchColor := branchColor, leafColor := leafColor,
        svgWidth := width, svgHeight := height, panX := width / 2, panY := height / 2,
        transform := (width / 2, height / 2),
        marginTop := marginOf options.marginTop options.margin,
        marginBottom := marginOf options.marginBottom options.margin,
        marginLeft := marginOf options.marginLeft options.margin,
        marginRight := marginOf options.marginRight options.margin,
        branchDistance := branchDistance })

/-- The branches of `clickNode` on an object with `children` and `_children`
properties: `if (d.children) d.children = null; else d.children = d._children`. -/
def toggle (d : HNode) : HNode :=
  if d.children = Slot.array then d.setChildren Slot.empty else d.setChildren d.hidden

/-- What `clickNode` can be called with: an id string, a hierarchy node, or
(from the click listener) the dataset object of a hierarchy node. -/
inductive ClickArg where
  | id (id : String)
  | node (p : Path)
  | data (p : Path)

/-- The function `getNode(id)`: the datum of the first element in the svg
whose id attribute matches; `none` is `undefined`. -/
def getNode (s : Session) (id : String) : Option Path :=
  (s.gNode.find? (fun e => e.id == id)).map GElem.datum

/-- The function `clickNode(d)`.  A string is first resolved with `getNode`;
an `undefined` result skips both branches.  On a dataset object the truthy
branch assigns `null` to its `children` and the other branch assigns its
absent `_children`: either way the object is left without children, and no
hierarchy node is touched. -/
def clickNode (s : Session) : ClickArg → Session
  | .node p => updateDendrogram { s with root := s.root.modify toggle p }
  | .id id =>
    match getNode s id with
    | some p => updateDendrogram { s with root := s.root.modify toggle p }
    | none => updateDendrogram s
  | .data p =>
    updateDendrogram { s with fullData := s.fullData.dropChildrenAt (s.datasetAt ++ p) }

/-- The listener installed on every entered node,
`nodeEvents.click ? nodeEvents.click(d.data) : clickNode(d.data)`, for the
element whose datum is `d`; `host` is the function supplied by the page. -/
def nodeClick (host : Session → Path → Outcome Session) (s : Session) (e : GElem) :
    Outcome Session :=
  match s.nodeEvents with
  | none =>
    { state := s
      thrown := some (.typeError "Cannot read properties of undefined (reading 'click')") }
  | some ev =>
    if ev.click then host s e.datum
    else { state := clickNode s (.data e.datum), thrown := none }

/-- The paths of `d.ancestors()` visited by the loop of `jumpToNode`,
`path[path.length - 1]` down to `path[1]`: the root first, the parent last. -/
def ancestorPaths (p : Path) : List Path :=
  p.inits.dropLast

/-- The `for` loop of `jumpToNode` over the ids of the ancestors:
`node = root.find(...)`, then `node.children = node._children`, which throws
when `find` returned `undefined`. -/
def expandAll (root : HNode) : List String → Outcome HNode
  | [] => { state := root, thrown := none }
  | a :: rest =>
    match findId root a with
    | none =>
      { state := root
        thrown := some (.typeError "node is undefined") }
    | some q => expandAll (root.modify (fun n => n.setChildren n.hidden) q) rest

/-- The `forEach` of `jumpToNode` over the nodes of the fresh hierarchy whose
id matches. -/
def forEachHit (nodes : HNode) (root : HNode) : List Path → Outcome HNode
  | [] => { state := root, thrown := none }
  | p :: ps =>
    match expandAll root ((ancestorPaths p).filterMap (idAt nodes)) with
    | { state := r, thrown := none } => forEachHit nodes r ps
    | { state := r, thrown := some e } => { state := r, thrown := some e }

/-- The synchronous part of `jumpToNode(id)`: expansion along the ancestors
found in a fresh hierarchy of `fullData`, then `updateDendrogram(root)`. -/
def jumpToNode (s : Session) (id : String) : Outcome Session :=
  let nodes := hierarchy s.fullData 0
  let hits := (descendants nodes).filter (fun p => idAt nodes p == some id)
  match forEachHit nodes s.root hits with
  | { state := r, thrown := none } =>
    { state := updateDendrogram { s with root := r }, thrown := none }
  | { state := r, thrown := some e } => { state := { s with root := r }, thrown := some e }

/-- First statement of the delayed callback of `jumpToNode`,
`svg.select("#" + id).attr("transform")`: reading an attribute of an empty
selection dereferences `null`.  The callback goes on to parse the attribute and
to call `panSVG`; those steps are reached only when this one returns. -/
def jumpToNodeTimer (s : Session) (id : String) : Except JsError GElem :=
  match s.gNode.find? (fun e => e.id == id) with
  | none => .error (.typeError "Cannot read properties of null (reading 'getAttribute')")
  | some e => .ok e

mutual
/-- The objects of a dataset in pre-order, each with its path: the object
itself, then the objects below its children, child by child. -/
def Data.preorder : Data → List (Path × Data)
  | .mk i n t f cs => ([], .mk i n t f cs) :: preorderList cs 0
/-- The objects below the elements of a bucket in pre-order; `k` is the index
of the first element. -/
def preorderList : List Data → Nat → List (Path × Data)
  | [], _ => []
  | c :: cs, k =>
    (Data.preorder c).map (fun pe => (k :: pe.1, pe.2)) ++ preorderList cs (k + 1)
end

/-- An example dataset with the boolean pair `key`: A (true) with children B
(false) and C (true), B with child D (false). -/
def flaggedTree : Data :=
  .mk "A" "a" 0 [("key", true)]
    [.mk "B" "b" 1 [("key", false)] [.mk "D" "d" 2 [("key", false)] []],
     .mk "C" "c" 1 [("key", true)] []]

/-- The session `buildDendrogram` sets up for the flagged example dataset with
no options. -/
def flaggedSession : Session :=
  updateDendrogram
    { fullData := flaggedTree, datasetAt := [], root := collapseAll (hierarchy flaggedTree 0),
      nodeEvents := none, gNode := [] }

/-- Replace the child array contents of a node, keeping its own properties. -/
def HNode.setKids (ks : List HNode) : HNode → HNode
  | .mk d k c h _ => .mk d k c h ks

/-- The own properties of a hierarchy node: data, depth, `children`,
`_children`, and the length of its child array. -/
structure Label where
  data : NodeData
  depth : Nat
  children : Slot
  hidden : Slot
  arity : Nat
deriving DecidableEq, Repr

def HNode.label (n : HNode) : Label :=
  { data := n.data, depth := n.depth, children := n.children, hidden := n.hidden,
    arity := n.kids.length }

/-- The own properties of the node at a path. -/
def labelAt (root : HNode) (p : Path) : Option Label :=
  (root.get? p).map HNode.label

/-- An update that leaves the child array of a node in place. -/
def KeepsKids (f : HNode → HNode) : Prop :=
  ∀ n, (f n).kids = n.kids

/-- An update that assigns only `children` and `_children`. -/
def SlotOnly (f : HNode → HNode) : Prop :=
  ∀ n, (f n).kids = n.kids ∧ (f n).data = n.data ∧ (f n).depth = n.depth

/-- A node is reachable when it is the root, or a child, through a `children`
property that holds the child array, of a reachable node. -/
inductive Reachable (root : HNode) : Path → Prop where
  | root : Reachable root []
  | child {p : Path} {n : HNode} {i : Nat} :
      Reachable root p → root.get? p = some n → n.children = Slot.array →
      i < n.kids.length → Reachable root (p ++ [i])

/-- The nodes of level `k` of the iteration from the given first level. -/
def levelAt (first : List (Path × HNode)) : Nat → List (Path × HNode)
  | 0 => first
  | k + 1 => nextLevel (levelAt first k)

/-- What `collapseInit` does to the own properties of a node. -/
def collapseLabel (rootDepth : Nat) (l : Label) : Label :=
  { l with
    hidden := l.children
    children := if l.depth ≠ 0 ∧ l.depth ≥ rootDepth + 1 then Slot.empty else l.children }

/-- The own properties d3.hierarchy gives the node of a dataset object. -/
def freshLabel (d : Data) (depth : Nat) : Label :=
  { data := d.fields, depth := depth
    children := if d.children.isEmpty then Slot.empty else Slot.array
    hidden := Slot.empty, arity := d.children.length }

/-- No re-rooting is requested: `options.center` is absent or falsy. -/
def Options.noCenter (o : Options) : Prop :=
  o.center = none ∨ o.center = some ""

instance (o : Options) : Decidable o.noCenter := by
  unfold Options.noCenter
  infer_instance

/-- The session states reached from `buildDendrogram` by calls of `clickNode`
(on a node or on an id), `jumpToNode`, `updateNodeColors`, `filterNodes`,
`panSVG` and `resizeSVG`, and by the end of the running transitions. -/
inductive Reach (data : Data) (options : Options) : Session → Prop where
  | build {s : Session} : buildDendrogram data options = Except.ok s → Reach data options s
  | clickNode {s : Session} (p : Path) :
      Reach data options s → Reach data options (clickNode s (ClickArg.node p))
  | clickId {s : Session} (id : String) :
      Reach data options s → Reach data options (clickNode s (ClickArg.id id))
  | jump {s : Session} (id : String) :
      Reach data options s → Reach data options (jumpToNode s id).state
  | colors {s : Session} (flag : Option String) :
      Reach data options s → Reach data options (updateNodeColors s flag)
  | filter {s : Session} (flag : String) (display : Bool) :
      Reach data options s → Reach data options (filterNodes s flag display)
  | pan {s : Session} (x y : ℚ) :
      Reach data options s → Reach data options (panSVG s x y)
  | resize {s : Session} (w h : ℚ) :
      Reach data options s → Reach data options (resizeSVG s w h)
  | settle {s : Session} :
      Reach data options s → Reach data options (transitionsEnd s)

/-- The hierarchy has one node per object of the dataset, with its data,
at the same path and depth. -/
def Mirrors (dataset : Data) (root : HNode) : Prop :=
  ∀ p, (labelAt root p).map (fun l => (l.data, l.depth, l.arity)) =
    (dataset.get? p).map (fun e => (e.fields, p.length, e.children.length))

/-- Every node keeps its child array in `_children`, and `children` holds
either nothing or that same array. -/
def SlotsOK (root : HNode) : Prop :=
  ∀ p l, labelAt root p = some l →
    l.hidden = (if l.arity = 0 then Slot.empty else Slot.array) ∧
      (l.children = Slot.array → l.arity ≠ 0)

/-- An update that assigns only `children`, and assigns it nothing or the
value of `_children`. -/
def Tame (f : HNode → HNode) : Prop :=
  ∀ n, (f n).kids = n.kids ∧ (f n).data = n.data ∧ (f n).depth = n.depth ∧
    (f n).hidden = n.hidden ∧ ((f n).children = Slot.empty ∨ (f n).children = n.hidden)

/-- The ids of the dataset are unique: listed node by node, no id occurs
twice. -/
def UniqueIds (data : Data) : Prop :=
  ((descendants (hierarchy data 0)).map (idAt (hierarchy data 0))).Nodup

instance (data : Data) : Decidable (UniqueIds data) := by
  unfold UniqueIds
  infer_instance

/-- Example dataset: A with children B and C, B with child D. -/
def sampleTree : Data :=
  .mk "A" "a" 0 [] [.mk "B" "b" 1 [] [.mk "D" "d" 2 [] []], .mk "C" "c" 1 [] []]

/-- The session `buildDendrogram` sets up for the example dataset with no
options. -/
def sampleSession : Session :=
  updateDendrogram
    { fullData := sampleTree, datasetAt := [], root := collapseAll (hierarchy sampleTree 0),
      nodeEvents := none, gNode := [] }

/-- A deeper example dataset: A with children B and C, B with child D, D with
child E. -/
def deepTree : Data :=
  .mk "A" "a" 0 []
    [.mk "B" "b" 1 [] [.mk "D" "d" 2 [] [.mk "E" "e" 3 [] []]], .mk "C" "c" 1 [] []]

/-- The session `buildDendrogram` sets up for the deeper example dataset
re-rooted at B (`options.center = "B"`). -/
def sampleRerooted : Session :=
  updateDendrogram
    { fullData := deepTree, datasetAt := [0]
      root := collapseAll
        (hierarchy (Data.mk "B" "b" 1 [] [Data.mk "D" "d" 2 [] [Data.mk "E" "e" 3 [] []]]) 0)
      nodeEvents := none, gNode := [] }

/-- The session `buildDendrogram` sets up for the example dataset when
`options.events` holds a `dblclick` function and no `click` entry. -/
def sampleDblclick : Session :=
  updateDendrogram
    { fullData := sampleTree, datasetAt := [], root := collapseAll (hierarchy sampleTree 0)
      nodeEvents := some { dblclick := true }, gNode := [] }

end Dendrogram

/-!
# Map pieces (`d3_map.js`)

The metadata of a map piece, the lookup of the entry of `scaleValues` that
`buildMap` and `attachPaths` use, and the position `attachHandles` gives the
handle of a piece.  Loading of the topo-json files, the projection and the
drawing are d3 calls and are not modelled: a feature comes with its projected
centroid.
-/

namespace MapView

open Dendrogram (JsError)

/-- An entry of `scaleValues`.  The file data template gives an entry the
properties `key`, `value` and `label`; `name` is the property the program
reads.  `none` is an absent property. -/
structure ScaleEntry where
  key : Option String := none
  name : Option String := none
  value : ℚ
  label : String
deriving DecidableEq, Repr

/-- An element of an `adjustCenter` array as the program reads it. -/
structure AdjustEntry where
  rotation : Int
  cx : ℚ
  cy : ℚ
deriving DecidableEq, Repr

/-- The `adjustCenter` property of a file object: the object of the file data
template, with one property `"rotate-{integer}"` holding `[cx, cy]` per
rotation, or an array of objects with `rotation`, `cx` and `cy`. -/
inductive Adjust where
  | template (entries : List (String × ℚ × ℚ))
  | array (entries : List AdjustEntry)
deriving DecidableEq, Repr

/-- A file object of `filedata`; the optional properties are `none` when
omitted. -/
structure FileMeta where
  mrgid : String
  label : String := ""
  color : Option String := none
  stroke : Option String := none
  adjustCenter : Option Adjust := none
  scaleValues : Option (List ScaleEntry) := none
deriving DecidableEq, Repr

/-- The options read by the modelled part of `buildMap`. -/
structure MapOptions where
  width : Option ℚ := none
  height : Option ℚ := none
  rotate : Option Int := none
  handles : Bool := false
  useColorScale : Bool := false
  scaleValue : Option String := none
deriving DecidableEq, Repr

/-- The value of `options.width` after `if(!options.width) options.width = 500`. -/
def MapOptions.canvasWidth (o : MapOptions) : ℚ :=
  match o.width with
  | some w => if w ≠ 0 then w else 500
  | none => 500

/-- The value of `options.height` after
`if(!options.height) options.height = 1/2 * options.width`. -/
def MapOptions.canvasHeight (o : MapOptions) : ℚ :=
  match o.height with
  | some h => if h ≠ 0 then h else 1 / 2 * o.canvasWidth
  | none => 1 / 2 * o.canvasWidth

/-- The value of `options.rotate` after `if(!options.rotate) options.rotate = 0`. -/
def MapOptions.rotation (o : MapOptions) : Int :=
  o.rotate.getD 0

/-- The two statements
`scale = file.scaleValues.find(el => el.name == options.scaleValue)` and the
first read of a property of `scale`: calling `find` on an absent
`scaleValues` throws, and so does reading a property of the `undefined` that
`find` returns when no element passes the test. -/
def scaleOf (options : MapOptions) (file : FileMeta) : Except JsError ScaleEntry :=
  match file.scaleValues with
  | none => .error (.typeError "Cannot read properties of undefined (reading 'find')")
  | some entries =>
    match entries.find? (fun el => el.name == options.scaleValue) with
    | none => .error (.typeError "Cannot read properties of undefined (reading 'value')")
    | some scale => .ok scale

/-- The loop of `buildMap` over `filedata` that computes `maxValue`; the
state is `maxValue` and the variable `scale`, which keeps the entry of the
last file after the loop. -/
def maxValueLoop (options : MapOptions) :
    List FileMeta → ℚ × Option ScaleEntry → Except JsError (ℚ × Option ScaleEntry)
  | [], acc => .ok acc
  | file :: rest, (maxValue, last) =>
    if options.useColorScale then
      match scaleOf options file with
      | .error e => .error e
      | .ok scale =>
        maxValueLoop options rest (if scale.value > maxValue then scale.value else maxValue,
          some scale)
    else maxValueLoop options rest (maxValue, last)

/-- What `buildMap` hands to the colour scale and to the legend when
`options.useColorScale` is set: `maxValue` and the title `scale.label`. -/
def scaleSetup (options : MapOptions) (filedata : List FileMeta) :
    Except JsError (ℚ × String) :=
  match maxValueLoop options filedata (0, none) with
  | .error e => .error e
  | .ok (maxValue, some scale) => .ok (maxValue, scale.label)
  | .ok (_, none) => .error (.typeError "Cannot read properties of undefined (reading 'label')")

/-- The fill of a map piece: a colour, or the colour scale applied to a value. -/
inductive Fill where
  | plain (color : String)
  | scaled (value : ℚ)
deriving DecidableEq, Repr

/-- The fill `attachPaths` computes for the piece with the given metadata. A
`value` that is a number never takes the `isNaN` branch. -/
def pieceFill (options : MapOptions) (metadata : FileMeta) : Except JsError Fill :=
  if options.useColorScale then
    match scaleOf options metadata with
    | .error e => .error e
    | .ok scale => .ok (Fill.scaled scale.value)
  else
    .ok (Fill.plain
      (match metadata.color with
        | some c => if c ≠ "" then c else "#FFFFFF"
        | none => "#FFFFFF"))

/-- A feature bound to a path of the map: the `mrgid` of its properties and
its centroid under the projection, `path.centroid(p)`. -/
structure Feature where
  mrgid : String
  centroid : ℚ × ℚ
deriving DecidableEq, Repr

/-- The position `attachHandles` computes in the `cx` callback for the handle
of the file object `d`: `d.x` and `d.y`, which become the `cx` and `cy`
attributes.  With no path for the piece the callback returns `undefined`,
here `none`. -/
def handlePosition (options : MapOptions) (pathData : List Feature) (d : FileMeta) :
    Except JsError (Option (ℚ × ℚ)) :=
  match pathData.find? (fun p => p.mrgid == d.mrgid) with
  | none => .ok none
  | some p =>
    match d.adjustCenter with
    | none => .error (.typeError "Cannot read properties of undefined (reading 'find')")
    | some (.template _) => .error (.typeError "d.adjustCenter.find is not a function")
    | some (.array entries) =>
      match entries.find? (fun el => el.rotation == options.rotation) with
      | none => .error (.typeError "Cannot read properties of undefined (reading 'cx')")
      | some adjust =>
        .ok (some (p.centroid.1 + adjust.cx * options.canvasWidth / 100,
          p.centroid.2 + adjust.cy * options.canvasHeight / 100))

/-- A file object written as the file data template describes: its scale
entries have `key`, `value` and `label`, and its `adjustCenter`, when present,
is the object keyed by rotation. -/
def FileMeta.Conforms (f : FileMeta) : Prop :=
  (∀ entries, f.scaleValues = some entries →
      ∀ el ∈ entries, el.key.isSome = true ∧ el.name = none) ∧
    ∀ a, f.adjustCenter = some a → ∃ entries, a = Adjust.template entries

/-- Example file object following the template, with one scale entry and an
adjustment for rotation 0. -/
def sampleFile : FileMeta :=
  { mrgid := "8364", label := "Area", adjustCenter := some (.template [("rotate-0", 10, -4)])
    scaleValues := some [{ key := some "count", value := 12, label := "Count" }] }

end MapView

/-!
# Column chart (`d3_charts.js`)

The binning and sorting of the rows of `chartData` for the chart type
`"column"`, and the choice of colours from a colour scale.  A row is a record
of JavaScript values; numbers are exact rationals, so `NaN` and the
infinities do not occur.  The conversion of a string to a number is a
parameter `numeric` of the comparisons (`none` is `NaN`).  The property names
`contents`, `sort` and `color` of a bin are taken to differ from
`params.primaryKey`.
-/

namespace Charts

/-- A value of a property of a row: `undefined` (also for an absent
property), a number, or a string. -/
inductive JsVal where
  | undef
  | num (q : ℚ)
  | str (s : String)
deriving DecidableEq, Repr

/-- A row of `chartData`: its properties in order. -/
abbrev Row := List (String × JsVal)

/-- The property access `d[key]`. -/
def field (d : Row) (key : String) : JsVal :=
  (List.lookup key d).getD JsVal.undef

/-- The UTF-16 code units of a character. -/
def utf16 (c : Char) : List Nat :=
  if c.toNat < 65536 then [c.toNat]
  else [55296 + (c.toNat - 65536) / 1024, 56320 + (c.toNat - 65536) % 1024]

/-- The code units of a string, which the comparison of two strings goes by. -/
def codeUnits (s : String) : List Nat :=
  s.toList.flatMap utf16

/-- The conversion ToNumber on a value; `none` is `NaN`. -/
def toNumber (numeric : String → Option ℚ) : JsVal → Option ℚ
  | .undef => none
  | .num q => some q
  | .str s => numeric s

/-- The operator `a < b`: two strings are compared by code units, any other
pair as numbers, and a comparison with `NaN` is false. -/
def jsLt (numeric : String → Option ℚ) (a b : JsVal) : Bool :=
  match a, b with
  | .str s, .str t => decide (codeUnits s < codeUnits t)
  | _, _ =>
    match toNumber numeric a, toNumber numeric b with
    | some x, some y => decide (x < y)
    | _, _ => false

/-- The operator `a > b`. -/
def jsGt (numeric : String → Option ℚ) (a b : JsVal) : Bool :=
  jsLt numeric b a

/-- The operator `a == b`: values of one type are compared as they are, a
number and a string after conversion of the string. -/
def looseEq (numeric : String → Option ℚ) (a b : JsVal) : Bool :=
  match a, b with
  | .undef, .undef => true
  | .num x, .num y => decide (x = y)
  | .str s, .str t => decide (s = t)
  | .num x, .str s => decide (numeric s = some x)
  | .str s, .num x => decide (numeric s = some x)
  | _, _ => false

/-- The conversion of a string of decimal digits to a number; strings of
another form are outside this table and get `none`. -/
def digits (s : String) : Option ℚ :=
  if s.toList ≠ [] ∧ s.toList.all Char.isDigit = true then
    some ((s.toList.foldl (fun n c => 10 * n + (c.toNat - 48)) 0 : Nat) : ℚ)
  else none

/-- The parameters read by the modelled part of `buildChart`. -/
structure Params where
  primaryKey : String
  sortKey : Option String := none
  colorKey : Option String := none
  colorScale : Option String := none
deriving DecidableEq, Repr

/-- A key parameter tested for truthiness: absent and `""` are falsy. -/
def truthyKey : Option String → Option String
  | some k => if k ≠ "" then some k else none
  | none => none

/-- The array `keys` of the column chart: the values of the primary key in
order of first occurrence, `keys.includes` comparing without conversion. -/
def columnKeys (chartData : List Row) (primaryKey : String) : List JsVal :=
  chartData.foldl
    (fun keys d => if field d primaryKey ∈ keys then keys else keys ++ [field d primaryKey]) []

/-- An object of `bins`: the value of the primary key, `sort`, `color` and
the rows pushed to `contents`. -/
structure Bin where
  key : JsVal
  sort : JsVal := JsVal.undef
  color : JsVal := JsVal.undef
  contents : List Row := []
deriving DecidableEq, Repr

/-- The body of the inner loop over `chartData` for one key: a row whose
primary key `==` the key sets `sort` and `color` (when the parameters are
given) and is pushed to `contents`. -/
def binStep (numeric : String → Option ℚ) (params : Params) (key : JsVal) (obj : Bin)
    (d : Row) : Bin :=
  if looseEq numeric (field d params.primaryKey) key = true then
    { key := obj.key
      sort :=
        match truthyKey params.sortKey with
        | some k => field d k
        | none => obj.sort
      color :=
        match truthyKey params.colorKey with
        | some k => field d k
        | none => obj.color
      contents := obj.contents ++ [d] }
  else obj

/-- The object pushed to `bins` for one key: `{contents: []}` with the key
stored under the primary key, after the inner loop over `chartData`. -/
def fillBin (numeric : String → Option ℚ) (params : Params) (chartData : List Row)
    (key : JsVal) : Bin :=
  chartData.foldl (binStep numeric params key) { key := key }

/-- The array `bins` before sorting: one object per element of `keys`. -/
def columnBins (numeric : String → Option ℚ) (params : Params) (chartData : List Row) :
    List Bin :=
  (columnKeys chartData params.primaryKey).map (fillBin numeric params chartData)

/-- The comparison function given to `bins.sort`: by `sort` when
`params.sortKey` is given and by descending number of rows otherwise, then by
the value of the primary key. -/
def compareBins (numeric : String → Option ℚ) (params : Params) (a b : Bin) : Int :=
  match truthyKey params.sortKey with
  | some _ =>
    if jsGt numeric a.sort b.sort = true then 1
    else if jsLt numeric a.sort b.sort = true then -1
    else if jsGt numeric a.key b.key = true then 1
    else if jsLt numeric a.key b.key = true then -1
    else 0
  | none =>
    if a.contents.length < b.contents.length then 1
    else if a.contents.length > b.contents.length then -1
    else if jsGt numeric a.key b.key = true then 1
    else if jsLt numeric a.key b.key = true then -1
    else 0

/-- The method `Array.prototype.sort` with a comparison function: a stable
sort, here by insertion, `a` staying before `b` when the function returns at
most 0 on them. -/
def sortWith {α : Type} (compare : α → α → Int) (xs : List α) : List α :=
  xs.insertionSort (fun a b => compare a b ≤ 0)

/-- The array `bins` after `bins.sort`, in the order the columns are drawn
from left to right. -/
def sortedBins (numeric : String → Option ℚ) (params : Params) (chartData : List Row) :
    List Bin :=
  sortWith (compareBins numeric params) (columnBins numeric params chartData)

/-- The colour scales of `buildChart`. -/
def colorScales : List (String × List String) :=
  [("BYR", ["#2a4969", "#4575b4", "#74add1", "#abd9e9", "#e0f3f8", "#fee090", "#fdae61",
      "#f46d43", "#d73027", "#a50026"]),
    ("multi", ["#1f77b4", "#ff7f0e", "#2ca02c", "#d62728", "#9467bd", "#8c564b", "#e377c2",
      "#7f7f7f", "#bcbd22", "#17becf"]),
    ("greys", ["#000000", "#333333", "#474747", "#686868", "#878787", "#a7a7a7", "#c6c6c6",
      "#d3d3d3", "#dfdfdf", "#ededed"]),
    ("viridis", ["#440154", "#482878", "#3e4989", "#31688e", "#26828e", "#1f9e89", "#35b779",
      "#6ece58", "#b5de2b", "#fde725"])]

/-- The constant `colorScale`:
`params.colorScale ? colorScales[params.colorScale] : colorScales["BYR"]`;
`none` is `undefined`. -/
def chosenScale (params : Params) : Option (List String) :=
  match truthyKey params.colorScale with
  | some name => colorScales.lookup name
  | none => colorScales.lookup "BYR"

/-- The index `Math.floor((colorScale.length / colorKeys.length) * i)`. -/
def colorIndex (length keys i : Nat) : Int :=
  Int.floor (((length : ℚ) / (keys : ℚ)) * (i : ℚ))

/-- The element access `colorScale[index]`; `none` is `undefined`. -/
def colorAt (colorScale : List String) (index : Int) : Option String :=
  if index < 0 then none else colorScale[index.toNat]?

/-- The array `range` built for `keys` colour keys. -/
def colorRange (colorScale : List String) (keys : Nat) : List (Option String) :=
  (List.range keys).map (fun i => colorAt colorScale (colorIndex colorScale.length keys i))

/-- A number is a number, a string is not. -/
def JsVal.isNum : JsVal → Bool
  | .num _ => true
  | _ => false

/-- A string is a string. -/
def JsVal.isStr : JsVal → Bool
  | .str _ => true
  | _ => false

/-- The values are all numbers or all strings. -/
def Uniform (vs : List JsVal) : Prop :=
  vs.all JsVal.isNum = true ∨ vs.all JsVal.isStr = true

instance (vs : List JsVal) : Decidable (Uniform vs) := by
  unfold Uniform
  infer_instance

/-- A position for a value in a linear order that agrees with `<` on numbers
and on strings. -/
def rank : JsVal → ℚ ×ₗ List ℕ
  | .undef => toLex (0, [])
  | .num q => toLex (q, [])
  | .str s => toLex (0, codeUnits s)

/-- Example rows with the string keys b, a, b, c under `"k"`. -/
def sampleRows : List Row :=
  [[("k", .str "b")], [("k", .str "a")], [("k", .str "b")], [("k", .str "c")]]

/-- Example rows with a numeric sort value under `"n"`: b and a with 2, c
with 1. -/
def rankedRows : List Row :=
  [[("k", .str "b"), ("n", .num 2)], [("k", .str "a"), ("n", .num 2)],
    [("k", .str "c"), ("n", .num 1)]]

/-- Example rows where the second row has no property `"n"`: x with 3, y
without, z with 1. -/
def gapRows : List Row :=
  [[("k", .str "x"), ("n", .num 3)], [("k", .str "y")], [("k", .str "z"), ("n", .num 1)]]

/-- Example rows where the second row has no property `"k"`: b, none, a. -/
def keylessRows : List Row :=
  [[("k", .str "b")], [("v", .num 7)], [("k", .str "a")]]

/-- Example rows whose key under `"k"` is the number 1 in the first row and the
string `"1"` in the second. -/
def mixedRows : List Row :=
  [[("k", .num 1), ("n", .str "first")], [("k", .str "1"), ("n", .str "second")]]

end Charts

namespace Dendrogram

/-! ## Paths, lookups and updates -/

theorem HNode.get?_nil (n : HNode) : n.get? [] = some n := by
  cases n; rfl

theorem HNode.get?_cons (n : HNode) (i : Nat) (r : Path) :
    n.get? (i :: r) = (n.kids[i]?).bind (fun c => c.get? r) := by
  cases n with
  | mk d k c h ks =>
    simp only [HNode.get?, HNode.kids]
    cases ks[i]? <;> rfl

theorem HNode.get?_append (n : HNode) (p q : Path) :
    n.get? (p ++ q) = (n.get? p).bind (fun m => m.get? q) := by
  induction p generalizing n with
  | nil => simp [HNode.get?_nil]
  | cons i r ih =>
    rw [List.cons_append, HNode.get?_cons, HNode.get?_cons]
    cases n.kids[i]? with
    | none => rfl
    | some c => simpa using ih c

theorem HNode.modify_nil (f : HNode → HNode) (n : HNode) : n.modify f [] = f n := by
  cases n; rfl

theorem HNode.modify_cons (f : HNode → HNode) (n : HNode) (i : Nat) (r : Path) :
    n.modify f (i :: r) =
      match n.kids[i]? with
      | none => n
      | some c => n.setKids (n.kids.set i (c.modify f r)) := by
  cases n with
  | mk d k c h ks =>
    simp only [HNode.modify, HNode.kids]
    cases ks[i]? <;> rfl

theorem HNode.label_setKids (n : HNode) (ks : List HNode) (h : ks.length = n.kids.length) :
    (n.setKids ks).label = n.label := by
  cases n
  simp [HNode.setKids, HNode.label, HNode.data, HNode.depth, HNode.children, HNode.hidden,
    HNode.kids, h]

theorem HNode.kids_setKids (n : HNode) (ks : List HNode) : (n.setKids ks).kids = ks := by
  cases n; rfl

/-- The node at the updated path is the updated node. -/
theorem HNode.get?_modify_self (f : HNode → HNode) (root : HNode) (q : Path) :
    (root.modify f q).get? q = (root.get? q).map f := by
  induction q generalizing root with
  | nil => simp [HNode.modify_nil, HNode.get?_nil]
  | cons j q ih =>
    rw [HNode.modify_cons, HNode.get?_cons root]
    cases hj : root.kids[j]? with
    | none => simp [HNode.get?_cons, hj]
    | some c =>
      have hlt : j < root.kids.length := by
        rcases List.getElem?_eq_some_iff.1 hj with ⟨h, _⟩
        exact h
      simp [HNode.get?_cons, HNode.kids_setKids, List.getElem?_set_self, hlt, ih]

/-- An update that keeps child arrays changes the own properties of the
updated node only. -/
theorem labelAt_modify (f : HNode → HNode) (hf : KeepsKids f) (root : HNode) (q p : Path) :
    labelAt (root.modify f q) p =
      if p = q then (root.get? q).map (fun n => (f n).label) else labelAt root p := by
  induction q generalizing root p with
  | nil =>
    cases p with
    | nil => simp [labelAt, HNode.modify_nil, HNode.get?_nil]
    | cons i r => simp [labelAt, HNode.modify_nil, HNode.get?_cons, hf root]
  | cons j q ih =>
    rw [HNode.modify_cons]
    cases hj : root.kids[j]? with
    | none =>
      by_cases hp : p = j :: q
      · subst hp
        simp [labelAt, HNode.get?_cons, hj]
      · simp [hp]
    | some c =>
      have hlt : j < root.kids.length := by
        rcases List.getElem?_eq_some_iff.1 hj with ⟨h, _⟩
        exact h
      cases p with
      | nil =>
        simp [labelAt, HNode.get?_nil, HNode.label_setKids]
      | cons i r =>
        by_cases hij : i = j
        · subst hij
          have := ih c r
          simp only [labelAt] at this
          simp [labelAt, HNode.get?_cons, HNode.kids_setKids, List.getElem?_set_self, hlt, hj, this]
        · have hne : ¬ (i :: r = j :: q) := by
            intro h; exact hij (List.cons.inj h).1
          have hji : j ≠ i := fun h => hij h.symm
          simp [labelAt, HNode.get?_cons, HNode.kids_setKids, List.getElem?_set_ne hji, hne]

theorem isSome_get?_modify (f : HNode → HNode) (hf : KeepsKids f) (root : HNode) (q p : Path) :
    ((root.modify f q).get? p).isSome = (root.get? p).isSome := by
  have h := labelAt_modify f hf root q p
  by_cases hp : p = q
  · subst hp
    rw [HNode.get?_modify_self]
    cases root.get? p <;> rfl
  · rw [if_neg hp] at h
    simp only [labelAt] at h
    cases h1 : (root.modify f q).get? p <;> cases h2 : root.get? p <;> simp [h1, h2] at h ⊢

theorem labelAt_modify_ne (f : HNode → HNode) (hf : KeepsKids f) (root : HNode) {q p : Path}
    (h : p ≠ q) : labelAt (root.modify f q) p = labelAt root p := by
  rw [labelAt_modify f hf, if_neg h]

theorem childrenAt_eq_label (root : HNode) (p : Path) :
    childrenAt root p = (labelAt root p).map Label.children := by
  simp [childrenAt, labelAt, HNode.label, Function.comp_def]

theorem hiddenAt_eq_label (root : HNode) (p : Path) :
    hiddenAt root p = (labelAt root p).map Label.hidden := by
  simp [hiddenAt, labelAt, HNode.label, Function.comp_def]

theorem dataAt_eq_label (root : HNode) (p : Path) :
    dataAt root p = (labelAt root p).map Label.data := by
  simp [dataAt, labelAt, HNode.label, Function.comp_def]

theorem dataAt_modify (f : HNode → HNode) (hf : SlotOnly f) (root : HNode) (q p : Path) :
    dataAt (root.modify f q) p = dataAt root p := by
  have hk : KeepsKids f := fun n => (hf n).1
  rw [dataAt_eq_label, dataAt_eq_label, labelAt_modify f hk]
  by_cases hp : p = q
  · subst hp
    simp only [if_true, labelAt]
    cases root.get? p with
    | none => rfl
    | some n => simp [HNode.label, (hf n).2.1]
  · rw [if_neg hp]

theorem childIdsAt_modify (f : HNode → HNode) (hf : SlotOnly f) (root : HNode) (q p : Path) :
    childIdsAt (root.modify f q) p = childIdsAt root p := by
  have hk : KeepsKids f := fun n => (hf n).1
  cases hget : root.get? p with
  | none =>
    have h := isSome_get?_modify f hk root q p
    rw [hget] at h
    cases h1 : (root.modify f q).get? p with
    | none => simp [childIdsAt, h1, hget]
    | some m => simp [h1] at h
  | some n =>
    have hk0 : ∀ i, dataAt (root.modify f q) (p ++ [i]) = dataAt root (p ++ [i]) :=
      fun i => dataAt_modify f hf root q (p ++ [i])
    have h := isSome_get?_modify f hk root q p
    rw [hget] at h
    cases h1 : (root.modify f q).get? p with
    | none => simp [h1] at h
    | some m =>
      have hlen : m.kids.length = n.kids.length := by
        have hl := labelAt_modify f hk root q p
        simp only [labelAt, h1, hget] at hl
        by_cases hp : p = q
        · subst hp
          simp [hget, HNode.label] at hl
          rw [hl.2.2.2.2, (hf n).1]
        · simp [hp, HNode.label] at hl
          exact hl.2.2.2.2
      simp only [childIdsAt, h1, hget, Option.map_some', Option.some.injEq]
      apply List.ext_getElem?
      intro i
      have := hk0 i
      simp only [dataAt, HNode.get?_append, h1, hget, Option.some_bind, HNode.get?_cons,
        HNode.get?_nil] at this
      simp only [List.getElem?_map]
      cases hm : m.kids[i]? with
      | none =>
        have h3 := List.getElem?_eq_none_iff.1 hm
        rw [hlen] at h3
        simp [List.getElem?_eq_none_iff.2 h3]
      | some a =>
        have h3 := (List.getElem?_eq_some_iff.1 hm).1
        rw [hlen] at h3
        have hn : n.kids[i]? = some (n.kids[i]) := List.getElem?_eq_getElem h3
        simp only [hm, hn, Option.some_bind, Option.map_some', Option.some.injEq] at this
        simp [hn, this]

/-! ## Height bounds the length of every path -/

theorem height_lt_heightList {c : HNode} {ks : List HNode} (h : c ∈ ks) :
    c.height + 1 ≤ heightList ks := by
  induction ks with
  | nil => cases h
  | cons k ks ih =>
    rw [heightList]
    rcases List.mem_cons.1 h with h | h
    · subst h; exact le_max_left _ _
    · exact le_trans (ih h) (le_max_right _ _)

theorem HNode.height_eq (n : HNode) : n.height = heightList n.kids := by
  cases n; simp [HNode.height, HNode.kids]

theorem length_le_height {n m : HNode} {p : Path} (h : n.get? p = some m) :
    p.length ≤ n.height := by
  induction p generalizing n with
  | nil => simp
  | cons i r ih =>
    rw [HNode.get?_cons] at h
    cases hi : n.kids[i]? with
    | none => simp [hi] at h
    | some c =>
      simp [hi] at h
      have h1 := ih h
      have h2 : c ∈ n.kids := List.getElem?_mem hi
      have h3 := height_lt_heightList h2
      rw [HNode.height_eq n]
      simp only [List.length_cons]
      omega

/-! ## The breadth-first iteration -/

theorem nextLevel_nil : nextLevel [] = [] := rfl

theorem levelAt_nil (k : Nat) : levelAt [] k = [] := by
  induction k with
  | zero => rfl
  | succ k ih => simp [levelAt, ih, nextLevel_nil]

theorem levelAt_nextLevel (first : List (Path × HNode)) (k : Nat) :
    levelAt (nextLevel first) k = levelAt first (k + 1) := by
  induction k with
  | zero => rfl
  | succ k ih => simp only [levelAt] at ih ⊢; rw [ih]

theorem bfs_nil (fuel : Nat) : bfs fuel [] = [] := by
  cases fuel <;> rfl

theorem bfs_cons (fuel : Nat) (level : List (Path × HNode)) :
    bfs (fuel + 1) level = level ++ bfs fuel (nextLevel level) := by
  cases level with
  | nil => simp [bfs_nil, nextLevel_nil, bfs]
  | cons n l => rfl

/-- The iteration yields the levels one after the other. -/
theorem bfs_eq_levels (fuel : Nat) (first : List (Path × HNode)) :
    bfs fuel first = (List.range fuel).flatMap (fun j => levelAt first j) := by
  induction fuel generalizing first with
  | zero => simp [bfs]
  | succ f ih =>
    rw [bfs_cons, ih, List.range_succ_eq_map, List.flatMap_cons, List.flatMap_map]
    simp [levelAt, levelAt_nextLevel]

theorem mem_nextLevel {level : List (Path × HNode)} {p : Path} {c : HNode} :
    (p, c) ∈ nextLevel level ↔
      ∃ p0 n0 i, (p0, n0) ∈ level ∧ n0.children = Slot.array ∧ n0.kids[i]? = some c ∧
        p = p0 ++ [i] := by
  simp only [nextLevel, List.mem_flatMap, List.mem_map, Prod.exists, Prod.mk.injEq]
  constructor
  · rintro ⟨p0, n0, hmem, i, c0, hic, hp, hc⟩
    subst hc
    have hlive := List.mem_enum_iff_getElem?.1 hic
    simp only [HNode.live] at hlive
    by_cases hch : n0.children = Slot.array
    · rw [if_pos hch] at hlive
      exact ⟨p0, n0, i, hmem, hch, hlive, hp.symm⟩
    · rw [if_neg hch] at hlive
      simp at hlive
  · rintro ⟨p0, n0, i, hmem, hch, hk, hp⟩
    refine ⟨p0, n0, hmem, i, c, ?_, hp.symm, rfl⟩
    apply List.mem_enum_iff_getElem?.2
    simp [HNode.live, hch, hk]

theorem Reachable.isSome {root : HNode} {p : Path} (h : Reachable root p) :
    (root.get? p).isSome := by
  induction h with
  | root => simp [HNode.get?_nil]
  | child _ hget _ hi _ =>
    rw [HNode.get?_append, hget]
    simp [HNode.get?_cons, HNode.get?_nil, List.getElem?_eq_getElem hi]

/-- Level `k` of the iteration holds the reachable nodes at distance `k`. -/
theorem mem_levelAt (root : HNode) (k : Nat) (p : Path) (n : HNode) :
    (p, n) ∈ levelAt [([], root)] k ↔
      p.length = k ∧ Reachable root p ∧ root.get? p = some n := by
  induction k generalizing p n with
  | zero =>
    simp only [levelAt, List.mem_singleton, Prod.mk.injEq, List.length_eq_zero]
    constructor
    · rintro ⟨hp, hn⟩
      subst hp; subst hn
      exact ⟨rfl, Reachable.root, HNode.get?_nil _⟩
    · rintro ⟨hp, _, hget⟩
      subst hp
      rw [HNode.get?_nil] at hget
      exact ⟨rfl, (Option.some.inj hget).symm⟩
  | succ k ih =>
    rw [levelAt, mem_nextLevel]
    constructor
    · rintro ⟨p0, n0, i, hmem, hch, hk, hp⟩
      obtain ⟨hlen, hR, hget⟩ := (ih p0 n0).1 hmem
      subst hp
      have hi : i < n0.kids.length := (List.getElem?_eq_some_iff.1 hk).1
      refine ⟨by simp [hlen], Reachable.child hR hget hch hi, ?_⟩
      rw [HNode.get?_append, hget]
      simp [HNode.get?_cons, HNode.get?_nil, hk]
    · rintro ⟨hlen, hR, hget⟩
      cases hR with
      | root => simp at hlen
      | child hR0 hget0 hch hi =>
        rename_i p0 n0 i
        have hl0 : p0.length = k := by simpa using hlen
        refine ⟨p0, n0, i, (ih p0 n0).2 ⟨hl0, hR0, hget0⟩, hch, ?_, rfl⟩
        rw [HNode.get?_append, hget0] at hget
        simpa [HNode.get?_cons, HNode.get?_nil, List.getElem?_eq_getElem hi] using hget

theorem descendants_eq (root : HNode) :
    descendants root =
      (List.range (root.height + 1)).flatMap (fun j => (levelAt [([], root)] j).map Prod.fst) := by
  rw [descendants, bfs_eq_levels, List.map_flatMap]

/-- The iteration visits exactly the reachable nodes. -/
theorem mem_descendants (root : HNode) (p : Path) :
    p ∈ descendants root ↔ Reachable root p := by
  rw [descendants_eq]
  simp only [List.mem_flatMap, List.mem_range, List.mem_map, Prod.exists, exists_and_right,
    exists_eq_right]
  constructor
  · rintro ⟨j, _, n, hmem⟩
    exact ((mem_levelAt root j p n).1 hmem).2.1
  · intro hR
    have hs := hR.isSome
    cases hget : root.get? p with
    | none => simp [hget] at hs
    | some n =>
      have hlen := length_le_height hget
      exact ⟨p.length, by omega, n, (mem_levelAt root p.length p n).2 ⟨rfl, hR, hget⟩⟩

theorem nodup_level_paths (root : HNode) (k : Nat) :
    ((levelAt [([], root)] k).map Prod.fst).Nodup := by
  induction k with
  | zero => simp [levelAt]
  | succ k ih =>
    rw [levelAt, nextLevel, List.map_flatMap]
    rw [List.nodup_flatMap]
    constructor
    · rintro ⟨p0, n0⟩ _
      have hfun : (List.map (fun ic : Nat × HNode => (p0 ++ [ic.1], ic.2)) n0.live.enum).map
          Prod.fst = (n0.live.enum.map Prod.fst).map (fun i => p0 ++ [i]) := by
        rw [List.map_map, List.map_map]
        rfl
      rw [hfun, List.enum_map_fst]
      refine List.Nodup.map ?_ (List.nodup_range _)
      intro i j hij
      simpa using hij
    · have hp := List.pairwise_map.1 ih
      refine hp.imp ?_
      rintro ⟨p0, n0⟩ ⟨p1, n1⟩ hne
      simp only [Function.onFun, List.map_map]
      intro x hx0 hx1
      simp only [List.mem_map, Function.comp_apply, Prod.exists] at hx0 hx1
      obtain ⟨i, c, _, hxi⟩ := hx0
      obtain ⟨j, d, _, hxj⟩ := hx1
      rw [← hxj] at hxi
      have := List.append_inj_left' hxi (by simp)
      exact hne this

/-- The iteration yields no node twice. -/
theorem nodup_descendants (root : HNode) : (descendants root).Nodup := by
  rw [descendants_eq, List.nodup_flatMap]
  constructor
  · intro j _
    exact nodup_level_paths root j
  · refine (List.nodup_range _).imp ?_
    intro a b hab
    simp only [Function.onFun]
    intro x hxa hxb
    simp only [List.mem_map, Prod.exists, exists_and_right, exists_eq_right] at hxa hxb
    obtain ⟨n, hn⟩ := hxa
    obtain ⟨m, hm⟩ := hxb
    have h1 := ((mem_levelAt root a x n).1 hn).1
    have h2 := ((mem_levelAt root b x m).1 hm).1
    exact hab (h1.symm.trans h2)

theorem levelAt_eq_nil_of_height_lt (root : HNode) {k : Nat} (h : root.height < k) :
    levelAt [([], root)] k = [] := by
  rw [List.eq_nil_iff_forall_not_mem]
  rintro ⟨p, n⟩ hmem
  obtain ⟨hlen, _, hget⟩ := (mem_levelAt root k p n).1 hmem
  have := length_le_height hget
  omega

theorem flatMap_range_stable {α : Type} (f : Nat → List α) {M N : Nat} (hMN : M ≤ N)
    (h : ∀ j, M ≤ j → f j = []) :
    (List.range N).flatMap f = (List.range M).flatMap f := by
  induction N, hMN using Nat.le_induction with
  | base => rfl
  | succ n hn ih =>
    rw [List.range_succ, List.flatMap_append, ih]
    simp [h n hn]

/-- More fuel than the height does not change the result of the iteration. -/
theorem descendants_eq_of_le (root : HNode) {N : Nat} (hN : root.height + 1 ≤ N) :
    descendants root =
      (List.range N).flatMap (fun j => (levelAt [([], root)] j).map Prod.fst) := by
  rw [descendants_eq]
  symm
  apply flatMap_range_stable _ hN
  intro j hj
  rw [levelAt_eq_nil_of_height_lt root (by omega)]
  rfl

/-! ## The hierarchy built by d3.hierarchy -/

theorem hierarchyList_eq_map (cs : List Data) (k : Nat) :
    hierarchyList cs k = cs.map (fun c => hierarchy c k) := by
  induction cs with
  | nil => rfl
  | cons c cs ih => simp [hierarchyList, ih]

theorem Data.get?_root (d : Data) : d.get? [] = some d := by
  cases d; rfl

theorem Data.get?_child (d : Data) (i : Nat) (r : Path) :
    d.get? (i :: r) = (d.children[i]?).bind (fun c => c.get? r) := by
  cases d with
  | mk i0 n t f cs =>
    simp only [Data.get?, Data.children]
    cases cs[i]? <;> rfl

theorem label_hierarchy (d : Data) (k : Nat) : (hierarchy d k).label = freshLabel d k := by
  cases d with
  | mk i n t f cs =>
    simp [hierarchy, HNode.label, freshLabel, HNode.data, HNode.depth, HNode.children,
      HNode.hidden, HNode.kids, Data.fields, Data.children, hierarchyList_eq_map]

theorem kids_hierarchy (d : Data) (k : Nat) :
    (hierarchy d k).kids = d.children.map (fun c => hierarchy c (k + 1)) := by
  cases d with
  | mk i n t f cs => simp [hierarchy, HNode.kids, Data.children, hierarchyList_eq_map]

/-- The hierarchy has one node per dataset object, at the same path. -/
theorem get?_hierarchy (d : Data) (k : Nat) (p : Path) :
    (hierarchy d k).get? p = (d.get? p).map (fun e => hierarchy e (k + p.length)) := by
  induction p generalizing d k with
  | nil => simp [HNode.get?_nil, Data.get?_root]
  | cons i r ih =>
    rw [HNode.get?_cons, Data.get?_child, kids_hierarchy, List.getElem?_map]
    cases d.children[i]? with
    | none => rfl
    | some c =>
      simp only [Option.map_some', Option.some_bind, ih, List.length_cons]
      congr 1
      funext e
      congr 1
      omega

theorem labelAt_hierarchy (d : Data) (k : Nat) (p : Path) :
    labelAt (hierarchy d k) p = (d.get? p).map (fun e => freshLabel e (k + p.length)) := by
  rw [labelAt, get?_hierarchy, Option.map_map]
  congr 1
  funext e
  exact label_hierarchy e _

/-- Reachability spelled out along the path: the node exists and every proper
ancestor holds its child array in `children`. -/
theorem reachable_iff (root : HNode) (p : Path) :
    Reachable root p ↔
      (root.get? p).isSome ∧ ∀ q, q <+: p → q ≠ p → childrenAt root q = some Slot.array := by
  constructor
  · intro h
    refine ⟨h.isSome, ?_⟩
    induction h with
    | root =>
      intro q hq hne
      exact absurd (List.prefix_nil.1 hq) hne
    | child hR hget hch hi ih =>
      rename_i p0 n0 i
      intro q hq hne
      rcases List.prefix_concat_iff.1 hq with h1 | h1
      · exact absurd h1 hne
      · by_cases hqp : q = p0
        · subst hqp
          simp [childrenAt, hget, hch]
        · exact ih q h1 hqp
  · rintro ⟨hs, hall⟩
    induction p using List.reverseRecOn with
    | nil => exact Reachable.root
    | append_singleton p0 i ih =>
      rw [HNode.get?_append] at hs
      cases hget : root.get? p0 with
      | none => simp [hget] at hs
      | some n0 =>
        have hch := hall p0 (List.prefix_append _ _) (by simp)
        simp only [childrenAt, hget, Option.map_some', Option.some.injEq] at hch
        have hi : i < n0.kids.length := by
          simp only [hget, Option.some_bind, HNode.get?_cons, HNode.get?_nil] at hs
          cases hk : n0.kids[i]? with
          | none => simp [hk] at hs
          | some c => exact (List.getElem?_eq_some_iff.1 hk).1
        refine Reachable.child (ih (by simp [hget]) ?_) hget hch hi
        intro q hq hne
        refine hall q (hq.trans (List.prefix_append _ _)) ?_
        intro h
        have := hq.length_le
        rw [h] at this
        simp at this

/-! ## The initial collapse of `buildDendrogram` -/

theorem keepsKids_setChildren (g : HNode → Slot) : KeepsKids (fun n => n.setChildren (g n)) := by
  intro n; cases n; rfl

theorem slotOnly_setChildren (g : HNode → Slot) : SlotOnly (fun n => n.setChildren (g n)) := by
  intro n; cases n; exact ⟨rfl, rfl, rfl⟩

theorem slotOnly_collapseInit (k : Nat) : SlotOnly (collapseInit k) := by
  intro n
  cases n with
  | mk d dep c h ks =>
    simp only [collapseInit, HNode.setHidden, HNode.depth, HNode.children]
    split <;> exact ⟨rfl, rfl, rfl⟩

theorem slotOnly_toggle : SlotOnly toggle := by
  intro n
  cases n with
  | mk d dep c h ks =>
    simp only [toggle, HNode.children, HNode.hidden]
    split <;> exact ⟨rfl, rfl, rfl⟩

theorem SlotOnly.keepsKids {f : HNode → HNode} (hf : SlotOnly f) : KeepsKids f :=
  fun n => (hf n).1

theorem label_collapseInit (k : Nat) (n : HNode) :
    (collapseInit k n).label = collapseLabel k n.label := by
  cases n with
  | mk d dep c h ks =>
    simp only [collapseInit, HNode.setHidden, HNode.depth, HNode.children, collapseLabel,
      HNode.label]
    by_cases hc : dep ≠ 0 ∧ dep ≥ k + 1
    · rw [if_pos hc, if_pos hc]; rfl
    · rw [if_neg hc, if_neg hc]; rfl

theorem depth_modify (f : HNode → HNode) (hf : SlotOnly f) (root : HNode) (q : Path) :
    (root.modify f q).depth = root.depth := by
  cases q with
  | nil => rw [HNode.modify_nil]; exact (hf root).2.2
  | cons i r =>
    rw [HNode.modify_cons]
    cases root.kids[i]? with
    | none => rfl
    | some c => cases root; rfl

/-- An update whose effect on the own properties is the function `g`. -/
theorem labelAt_modify_fn (f : HNode → HNode) (g : Label → Label) (hf : KeepsKids f)
    (hg : ∀ n, (f n).label = g n.label) (root : HNode) (q p : Path) :
    labelAt (root.modify f q) p = if p = q then (labelAt root p).map g else labelAt root p := by
  rw [labelAt_modify f hf]
  by_cases hp : p = q
  · subst hp
    simp only [if_true, labelAt, Option.map_map]
    congr 1
    funext n
    exact hg n
  · simp [hp]

/-- Updating the nodes of a duplicate-free list one after the other updates
each of them once and no other node. -/
theorem labelAt_foldl_modify (f : HNode → HNode) (g : Label → Label) (hf : KeepsKids f)
    (hg : ∀ n, (f n).label = g n.label) (l : List Path) (hl : l.Nodup) (root : HNode)
    (p : Path) :
    labelAt (l.foldl (fun r q => r.modify f q) root) p =
      if p ∈ l then (labelAt root p).map g else labelAt root p := by
  induction l generalizing root with
  | nil => simp
  | cons q l ih =>
    rw [List.foldl_cons, ih (List.nodup_cons.1 hl).2, labelAt_modify_fn f g hf hg]
    by_cases hpq : p = q
    · subst hpq
      simp [(List.nodup_cons.1 hl).1]
    · simp [hpq]

theorem foldl_collapse_depth (l : List Path) (root : HNode) :
    l.foldl (fun r p => r.modify (collapseInit r.depth) p) root =
      l.foldl (fun r p => r.modify (collapseInit root.depth) p) root := by
  induction l generalizing root with
  | nil => rfl
  | cons q l ih =>
    rw [List.foldl_cons, List.foldl_cons, ih,
      depth_modify _ (slotOnly_collapseInit _)]

theorem depth_hierarchy (d : Data) (k : Nat) : (hierarchy d k).depth = k := by
  cases d; rfl

/-- In a fresh hierarchy every node is reachable. -/
theorem reachable_hierarchy (d : Data) (k : Nat) (p : Path)
    (h : ((hierarchy d k).get? p).isSome) : Reachable (hierarchy d k) p := by
  rw [reachable_iff]
  refine ⟨h, ?_⟩
  rintro q ⟨t, rfl⟩ hne
  cases t with
  | nil => simp at hne
  | cons i t =>
    rw [HNode.get?_append] at h
    rw [childrenAt_eq_label, labelAt_hierarchy]
    rw [get?_hierarchy] at h
    cases hq : d.get? q with
    | none => simp [hq] at h
    | some e =>
      simp only [hq, Option.map_some', Option.some_bind, HNode.get?_cons, kids_hierarchy,
        List.getElem?_map] at h
      cases hi : e.children[i]? with
      | none => simp [hi] at h
      | some c =>
        have hne2 : e.children ≠ [] := by
          intro h0
          rw [h0] at hi
          simp at hi
        simp [freshLabel, hne2]

/-- The own properties of every node right after the initial collapse. -/
theorem labelAt_collapseAll (d : Data) (p : Path) :
    labelAt (collapseAll (hierarchy d 0)) p =
      (d.get? p).map (fun e => collapseLabel 0 (freshLabel e p.length)) := by
  rw [collapseAll, foldl_collapse_depth, depth_hierarchy,
    labelAt_foldl_modify (collapseInit 0) (collapseLabel 0) (slotOnly_collapseInit 0).keepsKids
      (label_collapseInit 0) _ (nodup_descendants _), labelAt_hierarchy]
  by_cases hmem : p ∈ descendants (hierarchy d 0)
  · simp [hmem, Option.map_map, Function.comp_def]
  · rw [if_neg hmem]
    rw [mem_descendants] at hmem
    cases hget : d.get? p with
    | none => rfl
    | some e =>
      exfalso
      apply hmem
      apply reachable_hierarchy
      rw [get?_hierarchy, hget]
      rfl

theorem heightList_pos {ks : List HNode} (h : ks ≠ []) : 0 < heightList ks := by
  cases ks with
  | nil => exact absurd rfl h
  | cons k ks =>
    rw [heightList]
    exact lt_of_lt_of_le (Nat.succ_pos _) (le_max_left _ _)

/-- A root whose children are all collapsed: the iteration yields the root and
then its children, in order. -/
theorem descendants_of_collapsed (root : HNode)
    (hroot : root.kids ≠ [] → root.children = Slot.array)
    (hkids : ∀ c ∈ root.kids, c.children = Slot.empty) :
    descendants root = [] :: (List.range root.kids.length).map (fun i => [i]) := by
  have hlive : root.live = root.kids := by
    unfold HNode.live
    by_cases hk : root.kids = []
    · rw [hk]; simp
    · rw [if_pos (hroot hk)]
  have hL1 : nextLevel [([], root)]
      = root.kids.enum.map (fun ic => ([ic.1], ic.2)) := by
    simp [nextLevel, hlive]
  have hL2 : nextLevel (root.kids.enum.map (fun ic : Nat × HNode => (([ic.1] : Path), ic.2)))
      = [] := by
    rw [List.eq_nil_iff_forall_not_mem]
    rintro ⟨p, c⟩ hmem
    obtain ⟨p0, n0, i, hin, hch, _, _⟩ := mem_nextLevel.1 hmem
    simp only [List.mem_map, Prod.mk.injEq, Prod.exists] at hin
    obtain ⟨j, c0, hjc, _, hc0⟩ := hin
    subst hc0
    have := hkids c0 (List.getElem?_mem (List.mem_enum_iff_getElem?.1 hjc))
    rw [this] at hch
    cases hch
  have hpaths : (root.kids.enum.map (fun ic : Nat × HNode => (([ic.1] : Path), ic.2))).map
      Prod.fst = (List.range root.kids.length).map (fun i => [i]) := by
    rw [← List.enum_map_fst, List.map_map, List.map_map]
    rfl
  rw [descendants, bfs_cons, hL1]
  by_cases hk : root.kids = []
  · simp [hk, bfs_nil]
  · have hpos := heightList_pos hk
    rw [← HNode.height_eq] at hpos
    obtain ⟨h0, hh⟩ : ∃ h0, root.height = h0 + 1 := ⟨root.height - 1, by omega⟩
    rw [hh, bfs_cons, hL2, bfs_nil, List.append_nil, List.map_append, hpaths]
    rfl

theorem updateDendrogram_root (s : Session) : (updateDendrogram s).root = s.root := rfl

theorem updateDendrogram_fullData (s : Session) :
    (updateDendrogram s).fullData = s.fullData := rfl

/-- What a successful `buildDendrogram` sets up. -/
theorem build_ok {data : Data} {options : Options} {s : Session}
    (h : buildDendrogram data options = Except.ok s) :
    ∃ dataset, s.root = collapseAll (hierarchy dataset 0) ∧ s.fullData = data ∧
      (options.noCenter → dataset = data) := by
  unfold buildDendrogram at h
  simp only at h
  split at h
  · cases h
  · rename_i dataset at_ hpick
    injection h with h
    subst h
    refine ⟨dataset, rfl, rfl, ?_⟩
    intro hno
    rcases hno with hno | hno <;> rw [hno] at hpick <;> simp at hpick <;> exact hpick.1.symm

theorem label_of_get? {root : HNode} {p : Path} {n : HNode} (h : root.get? p = some n) :
    labelAt root p = some n.label := by
  simp [labelAt, h]

/-! ## Invariants of the session -/

theorem Tame.slotOnly {f : HNode → HNode} (hf : Tame f) : SlotOnly f :=
  fun n => ⟨(hf n).1, (hf n).2.1, (hf n).2.2.1⟩

theorem tame_toggle : Tame toggle := by
  intro n
  cases n with
  | mk d dep c h ks =>
    simp only [toggle, HNode.children, HNode.hidden]
    split
    · exact ⟨rfl, rfl, rfl, rfl, Or.inl rfl⟩
    · exact ⟨rfl, rfl, rfl, rfl, Or.inr rfl⟩

theorem tame_expand : Tame (fun n => n.setChildren n.hidden) := by
  intro n
  cases n with
  | mk d dep c h ks => exact ⟨rfl, rfl, rfl, rfl, Or.inr rfl⟩

theorem Mirrors.modify_slots {dataset : Data} {root : HNode} (h : Mirrors dataset root)
    {f : HNode → HNode} (hf : SlotOnly f) (q : Path) : Mirrors dataset (root.modify f q) := by
  intro p
  rw [← h p, labelAt_modify f hf.keepsKids]
  by_cases hp : p = q
  · subst hp
    simp only [if_true, labelAt, Option.map_map]
    cases root.get? p with
    | none => rfl
    | some n => simp [HNode.label, (hf n).1, (hf n).2.1, (hf n).2.2]
  · rw [if_neg hp]

theorem SlotsOK.modify_tame {root : HNode} (h : SlotsOK root) {f : HNode → HNode} (hf : Tame f)
    (q : Path) : SlotsOK (root.modify f q) := by
  intro p l hl
  rw [labelAt_modify f hf.slotOnly.keepsKids] at hl
  by_cases hp : p = q
  · subst hp
    simp only [if_true] at hl
    cases hget : root.get? p with
    | none => simp [hget] at hl
    | some n =>
      simp only [hget, Option.map_some', Option.some.injEq] at hl
      subst hl
      obtain ⟨h1, h2⟩ := h p n.label (label_of_get? hget)
      obtain ⟨hk, _, _, hh, hc⟩ := hf n
      simp only [HNode.label, hk, hh] at h1 h2 ⊢
      refine ⟨h1, ?_⟩
      intro hca
      rcases hc with hc | hc
      · rw [hc] at hca; cases hca
      · rw [hc, h1] at hca
        intro h0
        rw [if_pos h0] at hca
        cases hca
  · rw [if_neg hp] at hl
    exact h p l hl

theorem mirrors_collapseAll (d : Data) : Mirrors d (collapseAll (hierarchy d 0)) := by
  intro p
  rw [labelAt_collapseAll]
  cases d.get? p <;> simp [collapseLabel, freshLabel]

theorem slotsOK_collapseAll (d : Data) : SlotsOK (collapseAll (hierarchy d 0)) := by
  intro p l hl
  rw [labelAt_collapseAll] at hl
  cases hget : d.get? p with
  | none => simp [hget] at hl
  | some e =>
    simp only [hget, Option.map_some', Option.some.injEq] at hl
    subst hl
    simp only [collapseLabel, freshLabel]
    constructor
    · by_cases h0 : e.children = [] <;> simp [h0]
    · intro hc h0
      have h00 : e.children = [] := List.length_eq_zero.1 h0
      rw [h00] at hc
      simp at hc

theorem expandAll_invariant (dataset : Data) (ids : List String) (root : HNode)
    (h1 : Mirrors dataset root) (h2 : SlotsOK root) :
    Mirrors dataset (expandAll root ids).state ∧ SlotsOK (expandAll root ids).state := by
  induction ids generalizing root with
  | nil => exact ⟨h1, h2⟩
  | cons a rest ih =>
    rw [expandAll]
    cases findId root a with
    | none => exact ⟨h1, h2⟩
    | some q => exact ih _ (h1.modify_slots tame_expand.slotOnly q) (h2.modify_tame tame_expand q)

theorem forEachHit_invariant (dataset : Data) (nodes : HNode) (hits : List Path) (root : HNode)
    (h1 : Mirrors dataset root) (h2 : SlotsOK root) :
    Mirrors dataset (forEachHit nodes root hits).state ∧
      SlotsOK (forEachHit nodes root hits).state := by
  induction hits generalizing root with
  | nil => exact ⟨h1, h2⟩
  | cons p ps ih =>
    rw [forEachHit]
    have hx := expandAll_invariant dataset ((ancestorPaths p).filterMap (idAt nodes)) root h1 h2
    generalize expandAll root ((ancestorPaths p).filterMap (idAt nodes)) = out at hx
    obtain ⟨r, t⟩ := out
    cases t with
    | none => exact ih r hx.1 hx.2
    | some e => exact hx

theorem jumpToNode_root (s : Session) (id : String) :
    (jumpToNode s id).state.root =
      (forEachHit (hierarchy s.fullData 0) s.root
        ((descendants (hierarchy s.fullData 0)).filter
          (fun p => idAt (hierarchy s.fullData 0) p == some id))).state := by
  unfold jumpToNode
  simp only
  generalize forEachHit (hierarchy s.fullData 0) s.root _ = out
  obtain ⟨r, t⟩ := out
  cases t <;> rfl

theorem jumpToNode_fullData (s : Session) (id : String) :
    (jumpToNode s id).state.fullData = s.fullData := by
  unfold jumpToNode
  simp only
  generalize forEachHit (hierarchy s.fullData 0) s.root _ = out
  obtain ⟨r, t⟩ := out
  cases t <;> rfl

theorem clickNode_node_root (s : Session) (p : Path) :
    (clickNode s (ClickArg.node p)).root = s.root.modify toggle p := rfl

theorem clickNode_id_root (s : Session) (id : String) :
    (clickNode s (ClickArg.id id)).root = s.root ∨
      ∃ p, (clickNode s (ClickArg.id id)).root = s.root.modify toggle p := by
  cases h : getNode s id with
  | none => left; simp [clickNode, h, updateDendrogram]
  | some p => right; exact ⟨p, by simp [clickNode, h, updateDendrogram]⟩

theorem clickNode_id_fullData (s : Session) (id : String) :
    (clickNode s (ClickArg.id id)).fullData = s.fullData := by
  cases h : getNode s id <;> simp [clickNode, h, updateDendrogram]

/-- In every reachable state the hierarchy mirrors the dataset it was built
from, `fullData` is the parsed data, and the slots are consistent. -/
theorem reach_invariant {data : Data} {options : Options} {s : Session}
    (h : Reach data options s) :
    ∃ dataset, Mirrors dataset s.root ∧ SlotsOK s.root ∧ s.fullData = data ∧
      (options.noCenter → dataset = data) := by
  induction h with
  | build hb =>
    obtain ⟨dataset, hroot, hfull, hno⟩ := build_ok hb
    exact ⟨dataset, hroot ▸ mirrors_collapseAll dataset, hroot ▸ slotsOK_collapseAll dataset,
      hfull, hno⟩
  | clickNode p _ ih =>
    obtain ⟨dataset, h1, h2, h3, h4⟩ := ih
    exact ⟨dataset, h1.modify_slots tame_toggle.slotOnly p, h2.modify_tame tame_toggle p, h3, h4⟩
  | @clickId s0 id _ ih =>
    obtain ⟨dataset, h1, h2, h3, h4⟩ := ih
    refine ⟨dataset, ?_, ?_, (clickNode_id_fullData s0 id).trans h3, h4⟩
    · rcases clickNode_id_root s0 id with h | ⟨p, h⟩ <;> rw [h]
      · exact h1
      · exact h1.modify_slots tame_toggle.slotOnly p
    · rcases clickNode_id_root s0 id with h | ⟨p, h⟩ <;> rw [h]
      · exact h2
      · exact h2.modify_tame tame_toggle p
  | @jump s0 id _ ih =>
    obtain ⟨dataset, h1, h2, h3, h4⟩ := ih
    have hx := forEachHit_invariant dataset (hierarchy s0.fullData 0)
      ((descendants (hierarchy s0.fullData 0)).filter
        (fun p => idAt (hierarchy s0.fullData 0) p == some id)) s0.root h1 h2
    rw [← jumpToNode_root] at hx
    exact ⟨dataset, hx.1, hx.2, (jumpToNode_fullData s0 id).trans h3, h4⟩
  | colors flag _ ih => exact ih
  | filter flag display _ ih => exact ih
  | pan x y _ ih => exact ih
  | resize w h _ ih => exact ih
  | settle _ ih => exact ih

/-! ## The state after `buildDendrogram` -/

theorem sampleSession_built : buildDendrogram sampleTree {} = Except.ok sampleSession := rfl

theorem build_kids_collapsed {data : Data} {options : Options} {s : Session}
    (h : buildDendrogram data options = Except.ok s) :
    (s.root.kids ≠ [] → s.root.children = Slot.array) ∧
      ∀ c ∈ s.root.kids, c.children = Slot.empty := by
  obtain ⟨dataset, hroot, _, _⟩ := build_ok h
  constructor
  · intro hk
    have hl := labelAt_collapseAll dataset []
    rw [← hroot, label_of_get? (HNode.get?_nil _), Data.get?_root] at hl
    simp only [Option.map_some', Option.some.injEq] at hl
    have hch := congrArg Label.children hl
    have har := congrArg Label.arity hl
    simp only [HNode.label, collapseLabel, freshLabel, List.length_nil] at hch har
    rw [hch]
    have : dataset.children ≠ [] := by
      intro h0
      rw [h0] at har
      exact hk (List.length_eq_zero.1 har)
    simp [this]
  · intro c hc
    obtain ⟨i, hi⟩ := List.mem_iff_getElem?.1 hc
    have hget : s.root.get? [i] = some c := by
      simp [HNode.get?_cons, HNode.get?_nil, hi]
    have hl := labelAt_collapseAll dataset [i]
    rw [← hroot, label_of_get? hget] at hl
    cases hd : dataset.get? [i] with
    | none => simp [hd] at hl
    | some e =>
      simp only [hd, Option.map_some', Option.some.injEq] at hl
      have hch := congrArg Label.children hl
      simpa [HNode.label, collapseLabel, freshLabel] using hch

/-- C1. Immediately after `buildDendrogram`, `root.descendants()` is the root
followed by all direct children of the root, each once, and no node in it has
depth 2 or more. -/
theorem buildDendrogram_visible_set (data : Data) (options : Options) (s : Session)
    (h : buildDendrogram data options = Except.ok s) :
    descendants s.root = [] :: (List.range s.root.kids.length).map (fun i => [i]) ∧
      ∀ p n, p ∈ descendants s.root → s.root.get? p = some n → n.depth ≤ 1 := by
  obtain ⟨hroot, hkids⟩ := build_kids_collapsed h
  have hd := descendants_of_collapsed s.root hroot hkids
  refine ⟨hd, ?_⟩
  intro p n hp hget
  obtain ⟨dataset, hr, _, _⟩ := build_ok h
  have hm := mirrors_collapseAll dataset p
  rw [← hr, label_of_get? hget] at hm
  have hlen : p.length ≤ 1 := by
    rw [hd] at hp
    rcases List.mem_cons.1 hp with hp | hp
    · subst hp; simp
    · obtain ⟨i, _, hi⟩ := List.mem_map.1 hp
      subst hi; simp
  cases hdg : dataset.get? p with
  | none => simp [hdg] at hm
  | some e =>
    simp only [hdg, Option.map_some', Option.some.injEq, Prod.mk.injEq, HNode.label] at hm
    omega

theorem buildDendrogram_visible_set_witness :
    buildDendrogram sampleTree {} = Except.ok sampleSession ∧
      descendants sampleSession.root
        = [] :: (List.range sampleSession.root.kids.length).map (fun i => [i]) ∧
      ∀ p n, p ∈ descendants sampleSession.root → sampleSession.root.get? p = some n →
        n.depth ≤ 1 :=
  ⟨rfl, buildDendrogram_visible_set sampleTree {} sampleSession rfl⟩

/-! ## `clickNode` on a hierarchy node -/

theorem label_toggle_toggle (n : HNode) (h : n.children = Slot.array → n.hidden = Slot.array) :
    (toggle (toggle n)).label = n.label := by
  cases n with
  | mk d dep c hid ks =>
    cases c <;> cases hid <;>
      simp_all [toggle, HNode.children, HNode.hidden, HNode.setChildren, HNode.label,
        HNode.data, HNode.depth, HNode.kids]

theorem hidden_of_children {root : HNode} (h : SlotsOK root) {p : Path} {n : HNode}
    (hn : root.get? p = some n) (hc : n.children = Slot.array) : n.hidden = Slot.array := by
  obtain ⟨h1, h2⟩ := h p n.label (label_of_get? hn)
  have h3 := h2 hc
  rw [if_neg h3] at h1
  exact h1

theorem keepsKids_toggle : KeepsKids toggle := slotOnly_toggle.keepsKids

/-- C2. In every reachable state, calling `clickNode` twice in succession on a
hierarchy node leaves its `children` (and `_children`) as they were, its full
child list has the same ids in the same order, and no node's data and nothing
of the parsed dataset has changed. -/
theorem clickNode_twice_restores (data : Data) (options : Options) (s : Session)
    (hr : Reach data options s) (p : Path) :
    childrenAt (clickNode (clickNode s (ClickArg.node p)) (ClickArg.node p)).root p
        = childrenAt s.root p ∧
      hiddenAt (clickNode (clickNode s (ClickArg.node p)) (ClickArg.node p)).root p
        = hiddenAt s.root p ∧
      childIdsAt (clickNode (clickNode s (ClickArg.node p)) (ClickArg.node p)).root p
        = childIdsAt s.root p ∧
      (∀ q, dataAt (clickNode (clickNode s (ClickArg.node p)) (ClickArg.node p)).root q
        = dataAt s.root q) ∧
      (clickNode (clickNode s (ClickArg.node p)) (ClickArg.node p)).fullData = s.fullData := by
  obtain ⟨dataset, _, hslots, _, _⟩ := reach_invariant hr
  have hroot : (clickNode (clickNode s (ClickArg.node p)) (ClickArg.node p)).root
      = (s.root.modify toggle p).modify toggle p := rfl
  rw [hroot]
  have hlabel : labelAt ((s.root.modify toggle p).modify toggle p) p = labelAt s.root p := by
    rw [labelAt_modify toggle keepsKids_toggle, if_pos rfl, HNode.get?_modify_self]
    cases hn : s.root.get? p with
    | none => simp [labelAt, hn]
    | some n =>
      simp only [Option.map_some', labelAt, hn]
      rw [label_toggle_toggle n (hidden_of_children hslots hn)]
  refine ⟨?_, ?_, ?_, ?_, rfl⟩
  · rw [childrenAt_eq_label, childrenAt_eq_label, hlabel]
  · rw [hiddenAt_eq_label, hiddenAt_eq_label, hlabel]
  · rw [childIdsAt_modify toggle slotOnly_toggle, childIdsAt_modify toggle slotOnly_toggle]
  · intro q
    rw [dataAt_modify toggle slotOnly_toggle, dataAt_modify toggle slotOnly_toggle]

theorem clickNode_twice_restores_witness :
    Reach sampleTree {} sampleSession ∧
      childrenAt (clickNode (clickNode sampleSession (ClickArg.node [0])) (ClickArg.node [0])).root
          [0] = childrenAt sampleSession.root [0] ∧
      hiddenAt (clickNode (clickNode sampleSession (ClickArg.node [0])) (ClickArg.node [0])).root
          [0] = hiddenAt sampleSession.root [0] ∧
      childIdsAt (clickNode (clickNode sampleSession (ClickArg.node [0])) (ClickArg.node [0])).root
          [0] = childIdsAt sampleSession.root [0] ∧
      (∀ q, dataAt (clickNode (clickNode sampleSession (ClickArg.node [0]))
          (ClickArg.node [0])).root q = dataAt sampleSession.root q) ∧
      (clickNode (clickNode sampleSession (ClickArg.node [0])) (ClickArg.node [0])).fullData
        = sampleSession.fullData :=
  ⟨Reach.build rfl, clickNode_twice_restores sampleTree {} sampleSession (Reach.build rfl) [0]⟩

/-- C3. `clickNode` on a hierarchy node in a reachable state: visible children
become hidden (`children` is emptied, `_children` holds the list); otherwise
`children` takes what `_children` holds; a node with nothing in either slot is
left as it is, and so is every other node, whose slots never change. -/
theorem clickNode_effect (data : Data) (options : Options) (s : Session)
    (hr : Reach data options s) (p : Path) (n : HNode) (hn : s.root.get? p = some n) :
    (n.children = Slot.array →
        childrenAt (clickNode s (ClickArg.node p)).root p = some Slot.empty ∧
          hiddenAt (clickNode s (ClickArg.node p)).root p = some Slot.array) ∧
      (n.children = Slot.empty →
        childrenAt (clickNode s (ClickArg.node p)).root p = some n.hidden ∧
          hiddenAt (clickNode s (ClickArg.node p)).root p = some n.hidden) ∧
      (n.children = Slot.empty → n.hidden = Slot.empty →
        ∀ q, labelAt (clickNode s (ClickArg.node p)).root q = labelAt s.root q) ∧
      (∀ q, q ≠ p →
        childrenAt (clickNode s (ClickArg.node p)).root q = childrenAt s.root q ∧
          hiddenAt (clickNode s (ClickArg.node p)).root q = hiddenAt s.root q) := by
  obtain ⟨dataset, _, hslots, _, _⟩ := reach_invariant hr
  rw [clickNode_node_root]
  have hself : labelAt (s.root.modify toggle p) p = some (toggle n).label := by
    rw [labelAt_modify toggle keepsKids_toggle, if_pos rfl, hn]
    rfl
  have hne : ∀ q, q ≠ p → labelAt (s.root.modify toggle p) q = labelAt s.root q :=
    fun q hq => labelAt_modify_ne toggle keepsKids_toggle s.root hq
  refine ⟨?_, ?_, ?_, ?_⟩
  · intro hc
    have hh := hidden_of_children hslots hn hc
    rw [childrenAt_eq_label, hiddenAt_eq_label, hself]
    cases n with
    | mk d dep c hid ks =>
      simp only [HNode.children, HNode.hidden] at hc hh
      subst hc; subst hh
      exact ⟨rfl, rfl⟩
  · intro hc
    rw [childrenAt_eq_label, hiddenAt_eq_label, hself]
    cases n with
    | mk d dep c hid ks =>
      simp only [HNode.children] at hc
      subst hc
      exact ⟨rfl, rfl⟩
  · intro hc hh q
    by_cases hq : q = p
    · subst hq
      rw [hself, label_of_get? hn]
      cases n with
      | mk d dep c hid ks =>
        simp only [HNode.children, HNode.hidden] at hc hh
        subst hc; subst hh
        rfl
    · exact hne q hq
  · intro q hq
    rw [childrenAt_eq_label, childrenAt_eq_label, hiddenAt_eq_label, hiddenAt_eq_label, hne q hq]
    exact ⟨rfl, rfl⟩

theorem clickNode_effect_witness :
    Reach sampleTree {} sampleSession ∧
      sampleSession.root.get? []
        = some (HNode.mk { id := "A", name := "a", trueDepth := 0, flags := [] } 0 Slot.array
            Slot.array sampleSession.root.kids) ∧
      childrenAt (clickNode sampleSession (ClickArg.node [])).root [] = some Slot.empty ∧
      hiddenAt (clickNode sampleSession (ClickArg.node [])).root [] = some Slot.array :=
  ⟨Reach.build rfl, rfl,
    (clickNode_effect sampleTree {} sampleSession (Reach.build rfl) [] _ rfl).1 rfl⟩

/-! ## The node list handed to the renderer -/

/-- C4. After `buildDendrogram` and any sequence of `clickNode` calls on
hierarchy nodes, `root.descendants()` contains the root and exactly the nodes
reachable from it through `children` links that are not collapsed, each once,
and no node below a collapsed node. -/
theorem descendants_after_clicks (data : Data) (options : Options) (s0 : Session)
    (h : buildDendrogram data options = Except.ok s0) (clicks : List Path) :
    [] ∈ descendants (clicks.foldl (fun s p => clickNode s (ClickArg.node p)) s0).root ∧
      (∀ p, p ∈ descendants (clicks.foldl (fun s p => clickNode s (ClickArg.node p)) s0).root ↔
        Reachable (clicks.foldl (fun s p => clickNode s (ClickArg.node p)) s0).root p) ∧
      (descendants (clicks.foldl (fun s p => clickNode s (ClickArg.node p)) s0).root).Nodup ∧
      (∀ q p, q <+: p → q ≠ p →
        childrenAt (clicks.foldl (fun s p => clickNode s (ClickArg.node p)) s0).root q
          = some Slot.empty →
        p ∉ descendants (clicks.foldl (fun s p => clickNode s (ClickArg.node p)) s0).root) := by
  have _ := h
  generalize (clicks.foldl (fun s p => clickNode s (ClickArg.node p)) s0).root = root
  refine ⟨(mem_descendants root []).2 Reachable.root, mem_descendants root,
    nodup_descendants root, ?_⟩
  intro q p hq hne hc hp
  have := ((reachable_iff root p).1 ((mem_descendants root p).1 hp)).2 q hq hne
  rw [hc] at this
  cases this

theorem descendants_after_clicks_witness :
    buildDendrogram sampleTree {} = Except.ok sampleSession ∧
      [] ∈ descendants
        ([[0], [], []].foldl (fun s p => clickNode s (ClickArg.node p)) sampleSession).root ∧
      (∀ p, p ∈ descendants
          ([[0], [], []].foldl (fun s p => clickNode s (ClickArg.node p)) sampleSession).root ↔
        Reachable
          ([[0], [], []].foldl (fun s p => clickNode s (ClickArg.node p)) sampleSession).root p) ∧
      (descendants
        ([[0], [], []].foldl (fun s p => clickNode s (ClickArg.node p)) sampleSession).root).Nodup ∧
      (∀ q p, q <+: p → q ≠ p →
        childrenAt
          ([[0], [], []].foldl (fun s p => clickNode s (ClickArg.node p)) sampleSession).root q
          = some Slot.empty →
        p ∉ descendants
          ([[0], [], []].foldl (fun s p => clickNode s (ClickArg.node p)) sampleSession).root) :=
  ⟨rfl, descendants_after_clicks sampleTree {} sampleSession rfl [[0], [], []]⟩

/-! ## Which nodes start collapsed, and what the two slots hold -/

theorem build_root_depth {data : Data} {options : Options} {s : Session}
    (h : buildDendrogram data options = Except.ok s) : s.root.depth = 0 := by
  obtain ⟨dataset, hroot, _, _⟩ := build_ok h
  have hm := mirrors_collapseAll dataset []
  rw [← hroot, label_of_get? (HNode.get?_nil _), Data.get?_root] at hm
  simp only [Option.map_some', Option.some.injEq, Prod.mk.injEq, HNode.label] at hm
  simpa using hm.2.1

/-- C5, as stated, fails on the example dataset: node B, an immediate child of
the root that has a child of its own, is at depth 1, which is not greater than
the root's depth + 1, and yet `buildDendrogram` has emptied its `children` and
left its child list in `_children` only. -/
theorem build_collapses_first_level :
    buildDendrogram sampleTree {} = Except.ok sampleSession ∧
      ¬ (∀ p l, labelAt sampleSession.root p = some l → l.arity ≠ 0 →
          ((l.children = Slot.empty ∧ l.hidden = Slot.array) ↔
            sampleSession.root.depth + 1 < l.depth)) := by
  refine ⟨rfl, ?_⟩
  intro hall
  have h0 : labelAt sampleSession.root [0]
      = some { data := { id := "B", name := "b", trueDepth := 1, flags := [] }, depth := 1,
               children := Slot.empty, hidden := Slot.array, arity := 1 } := by decide
  have h1 := (hall [0] _ h0 (by decide)).1 ⟨rfl, rfl⟩
  exact absurd h1 (by decide)

/-- C5, amended. After `buildDendrogram`, every node keeps its child list in
`_children`, and a node that has children has its `children` emptied exactly
when its depth is at least the root's depth + 1, that is, for every node but
the root; the root still holds its children in `children`. -/
theorem build_collapse_depth (data : Data) (options : Options) (s : Session)
    (h : buildDendrogram data options = Except.ok s) (p : Path) (l : Label)
    (hl : labelAt s.root p = some l) :
    l.hidden = (if l.arity = 0 then Slot.empty else Slot.array) ∧
      (l.arity ≠ 0 → (l.children = Slot.empty ↔ s.root.depth + 1 ≤ l.depth)) ∧
      (l.arity ≠ 0 → l.depth = s.root.depth → l.children = Slot.array) := by
  have hd := build_root_depth h
  obtain ⟨dataset, hroot, _, _⟩ := build_ok h
  rw [hroot, labelAt_collapseAll] at hl
  rw [hd]
  cases hg : dataset.get? p with
  | none => simp [hg] at hl
  | some e =>
    simp only [hg, Option.map_some', Option.some.injEq] at hl
    subst hl
    simp only [collapseLabel, freshLabel]
    refine ⟨?_, ?_, ?_⟩
    · by_cases h0 : e.children = [] <;> simp [h0]
    · intro ha
      have h0 : e.children ≠ [] := fun h0 => ha (by rw [h0]; rfl)
      by_cases hp : p.length = 0
      · simp [hp, h0]
      · have : 1 ≤ p.length := by omega
        simp [hp, this]
    · intro ha hp
      have h0 : e.children ≠ [] := fun h0 => ha (by rw [h0]; rfl)
      simp [hp, h0]

theorem build_collapse_depth_witness :
    buildDendrogram sampleTree {} = Except.ok sampleSession ∧
      labelAt sampleSession.root [0]
        = some { data := { id := "B", name := "b", trueDepth := 1, flags := [] }, depth := 1,
                 children := Slot.empty, hidden := Slot.array, arity := 1 } ∧
      (Slot.array = (if 1 = 0 then Slot.empty else Slot.array) ∧
        (1 ≠ 0 → (Slot.empty = Slot.empty ↔ sampleSession.root.depth + 1 ≤ 1)) ∧
        (1 ≠ 0 → 1 = sampleSession.root.depth → Slot.empty = Slot.array)) :=
  ⟨rfl, by decide,
    build_collapse_depth sampleTree {} sampleSession rfl [0]
      { data := { id := "B", name := "b", trueDepth := 1, flags := [] }, depth := 1,
        children := Slot.empty, hidden := Slot.array, arity := 1 } (by decide)⟩

/-- C6, as stated, fails on the example dataset: right after
`buildDendrogram` the root holds its child array both in `children` and in
`_children`. -/
theorem root_holds_both_slots :
    buildDendrogram sampleTree {} = Except.ok sampleSession ∧
      ¬ (∀ p l, labelAt sampleSession.root p = some l →
          ¬ (l.children = Slot.array ∧ l.hidden = Slot.array)) := by
  refine ⟨rfl, ?_⟩
  intro hall
  have h0 : labelAt sampleSession.root []
      = some { data := { id := "A", name := "a", trueDepth := 0, flags := [] }, depth := 0,
               children := Slot.array, hidden := Slot.array, arity := 2 } := by decide
  exact hall [] _ h0 ⟨rfl, rfl⟩

/-- C6, amended. In every state reachable from `buildDendrogram` by
`clickNode` and `jumpToNode` calls, `_children` of every node holds its full
child list (nothing exactly for a node without children), and `children` holds
either nothing (collapsed) or that same list (expanded). -/
theorem slots_consistent (data : Data) (options : Options) (s : Session)
    (hr : Reach data options s) (p : Path) (l : Label) (hl : labelAt s.root p = some l) :
    (l.hidden = Slot.array ↔ l.arity ≠ 0) ∧
      (l.children = Slot.empty ∨ l.children = l.hidden) := by
  obtain ⟨dataset, _, hslots, _, _⟩ := reach_invariant hr
  obtain ⟨h1, h2⟩ := hslots p l hl
  constructor
  · rw [h1]
    by_cases h0 : l.arity = 0 <;> simp [h0]
  · cases hc : l.children with
    | empty => exact Or.inl rfl
    | array =>
      right
      rw [h1, if_neg (h2 hc)]

theorem slots_consistent_witness :
    Reach sampleTree {} (clickNode sampleSession (ClickArg.node [0])) ∧
      labelAt (clickNode sampleSession (ClickArg.node [0])).root [0]
        = some { data := { id := "B", name := "b", trueDepth := 1, flags := [] }, depth := 1,
                 children := Slot.array, hidden := Slot.array, arity := 1 } ∧
      ((Slot.array = Slot.array ↔ 1 ≠ 0) ∧
        (Slot.array = Slot.empty ∨ Slot.array = Slot.array)) :=
  ⟨Reach.clickNode [0] (Reach.build rfl), by decide,
    slots_consistent sampleTree {} _ (Reach.clickNode [0] (Reach.build rfl)) [0]
      { data := { id := "B", name := "b", trueDepth := 1, flags := [] }, depth := 1,
        children := Slot.array, hidden := Slot.array, arity := 1 } (by decide)⟩

/-! ## `jumpToNode` -/

theorem ancestorPaths_nil : ancestorPaths [] = [] := rfl

theorem ancestorPaths_cons (i : Nat) (t : Path) :
    ancestorPaths (i :: t) = [] :: (ancestorPaths t).map (fun q => i :: q) := by
  unfold ancestorPaths
  rw [List.inits_cons, List.map_dropLast]
  apply List.dropLast_cons_of_ne_nil
  cases t <;> simp [List.inits]

theorem idAt_eq_label (root : HNode) (p : Path) :
    idAt root p = (labelAt root p).map (fun l => l.data.id) := by
  simp [idAt, labelAt, HNode.label, Function.comp_def]

theorem idAt_hierarchy (d : Data) (p : Path) :
    idAt (hierarchy d 0) p = (d.get? p).map (fun e => e.fields.id) := by
  rw [idAt_eq_label, labelAt_hierarchy]
  cases d.get? p <;> simp [freshLabel]

theorem Mirrors.idAt_eq {dataset : Data} {root : HNode} (h : Mirrors dataset root) (p : Path) :
    idAt root p = (dataset.get? p).map (fun e => e.fields.id) := by
  have hp := h p
  rw [idAt_eq_label]
  cases hl : labelAt root p <;> cases hd : dataset.get? p <;> simp [hl, hd] at hp ⊢
  rw [hp.1]

theorem Mirrors.isSome_eq {dataset : Data} {root : HNode} (h : Mirrors dataset root) (p : Path) :
    (root.get? p).isSome = (dataset.get? p).isSome := by
  have hp := h p
  simp only [labelAt] at hp
  cases hl : root.get? p <;> cases hd : dataset.get? p <;> simp [hl, hd] at hp ⊢

theorem Mirrors.arity_eq {dataset : Data} {root : HNode} (h : Mirrors dataset root) {p : Path}
    {n : HNode} {e : Data} (hn : root.get? p = some n) (he : dataset.get? p = some e) :
    n.kids.length = e.children.length := by
  have hp := h p
  simp only [labelAt, hn, he, Option.map_some', Option.some.injEq, Prod.mk.injEq,
    HNode.label] at hp
  exact hp.2.2

/-- With unique ids, two dataset objects with the same id are the same
object. -/
theorem UniqueIds.path_eq {data : Data} (h : UniqueIds data) {p q : Path}
    (hp : (data.get? p).isSome) (hq : (data.get? q).isSome)
    (hid : (data.get? p).map (fun e => e.fields.id) = (data.get? q).map (fun e => e.fields.id)) :
    p = q := by
  have hmem : ∀ r, (data.get? r).isSome → r ∈ descendants (hierarchy data 0) := by
    intro r hr
    rw [mem_descendants]
    apply reachable_hierarchy
    rw [get?_hierarchy]
    cases hd : data.get? r with
    | none => simp [hd] at hr
    | some e => rfl
  apply List.inj_on_of_nodup_map h (hmem p hp) (hmem q hq)
  rw [idAt_hierarchy, idAt_hierarchy, hid]

theorem filter_eq_singleton {α : Type} (P : α → Bool) (l : List α) (a : α) (hl : l.Nodup)
    (ha : a ∈ l) (hPa : P a = true) (huniq : ∀ x ∈ l, P x = true → x = a) :
    l.filter P = [a] := by
  induction l with
  | nil => cases ha
  | cons x l ih =>
    obtain ⟨hx, hl⟩ := List.nodup_cons.1 hl
    by_cases hxa : x = a
    · subst hxa
      rw [List.filter_cons_of_pos hPa]
      congr 1
      rw [List.filter_eq_nil_iff]
      intro y hy hPy
      have := huniq y (List.mem_cons_of_mem _ hy) hPy
      subst this
      exact hx hy
    · have hPx : ¬ P x = true := fun hPx => hxa (huniq x (List.mem_cons_self _ _) hPx)
      rw [List.filter_cons_of_neg hPx]
      rcases List.mem_cons.1 ha with h | h
      · exact absurd h.symm hxa
      · exact ih hl h (fun y hy => huniq y (List.mem_cons_of_mem _ hy))

/-- With unique ids, `root.find` on the id of a visible node returns that
node. -/
theorem findId_of_reachable {data : Data} {root : HNode} (hm : Mirrors data root)
    (hu : UniqueIds data) {base : Path} {a : String} (hr : Reachable root base)
    (ha : idAt root base = some a) : findId root a = some base := by
  unfold findId
  cases hf : (descendants root).find? (fun p => idAt root p == some a) with
  | none =>
    rw [List.find?_eq_none] at hf
    have := hf base ((mem_descendants root base).2 hr)
    simp [ha] at this
  | some q =>
    have hq1 := List.find?_some hf
    have hq2 := List.mem_of_find?_eq_some hf
    simp only [beq_iff_eq] at hq1
    have hqv := ((mem_descendants root q).1 hq2).isSome
    rw [hm.isSome_eq] at hqv
    have hbv := hr.isSome
    rw [hm.isSome_eq] at hbv
    rw [hm.idAt_eq] at hq1 ha
    rw [hu.path_eq hqv hbv (hq1.trans ha.symm)]

/-- Expanding a visible node that has the child `i` makes that child
visible. -/
theorem reachable_expand {root : HNode} (hs : SlotsOK root) {base : Path} {i : Nat}
    (hr : Reachable root base) (hv : (root.get? (base ++ [i])).isSome) :
    Reachable (root.modify (fun n => n.setChildren n.hidden) base) (base ++ [i]) := by
  have hk := tame_expand.slotOnly.keepsKids
  rw [reachable_iff]
  refine ⟨by rw [isSome_get?_modify _ hk]; exact hv, ?_⟩
  intro q hq hne
  rw [childrenAt_eq_label, labelAt_modify _ hk]
  rcases List.prefix_concat_iff.1 hq with h1 | h1
  · exact absurd h1 hne
  · by_cases hqb : q = base
    · subst hqb
      rw [if_pos rfl]
      rw [HNode.get?_append] at hv
      cases hn : root.get? q with
      | none => simp [hn] at hv
      | some n =>
        simp only [hn, Option.some_bind, HNode.get?_cons, HNode.get?_nil] at hv
        obtain ⟨h2, _⟩ := hs q n.label (label_of_get? hn)
        have hne0 : n.label.arity ≠ 0 := by
          intro h0
          have : n.kids = [] := List.length_eq_zero.1 h0
          rw [this] at hv
          simp at hv
        rw [if_neg hne0] at h2
        cases n with
        | mk d dep c hid ks =>
          simp only [HNode.label, HNode.hidden] at h2
          subst h2
          rfl
    · rw [if_neg hqb, ← childrenAt_eq_label]
      exact ((reachable_iff root base).1 hr).2 q h1 hqb

/-- The loop of `jumpToNode` along a path: starting from a visible node, it
finds every ancestor, expands it, and ends with the target visible. -/
theorem expandAll_path {data : Data} (hu : UniqueIds data) (rest base : Path) (root : HNode)
    (hm : Mirrors data root) (hs : SlotsOK root) (hr : Reachable root base)
    (hv : (root.get? (base ++ rest)).isSome) :
    (expandAll root (((ancestorPaths rest).map (fun q => base ++ q)).filterMap
        (idAt (hierarchy data 0)))).thrown = none ∧
      Reachable (expandAll root (((ancestorPaths rest).map (fun q => base ++ q)).filterMap
        (idAt (hierarchy data 0)))).state (base ++ rest) := by
  induction rest generalizing base root with
  | nil =>
    refine ⟨by simp [ancestorPaths_nil, expandAll], ?_⟩
    simpa [ancestorPaths_nil, expandAll] using hr
  | cons i t ih =>
    have hbv := hr.isSome
    have hid : idAt (hierarchy data 0) base = idAt root base := by
      rw [idAt_hierarchy, hm.idAt_eq]
    cases ha : idAt root base with
    | none =>
      simp only [idAt] at ha
      cases hn : root.get? base with
      | none => simp [hn] at hbv
      | some n => simp [hn] at ha
    | some a =>
      have hfind := findId_of_reachable hm hu hr ha
      have hlist : ((ancestorPaths (i :: t)).map (fun q => base ++ q)).filterMap
          (idAt (hierarchy data 0)) =
          a :: ((ancestorPaths t).map (fun q => (base ++ [i]) ++ q)).filterMap
            (idAt (hierarchy data 0)) := by
        rw [ancestorPaths_cons, List.map_cons, List.append_nil, List.filterMap_cons, hid, ha,
          List.map_map]
        simp [Function.comp_def]
      rw [hlist, expandAll, hfind]
      have hv1 : (root.get? (base ++ [i])).isSome := by
        have : base ++ i :: t = (base ++ [i]) ++ t := by simp
        rw [this, HNode.get?_append] at hv
        cases h1 : root.get? (base ++ [i]) with
        | none => simp [h1] at hv
        | some n => rfl
      have hk := tame_expand.slotOnly.keepsKids
      have := ih (base ++ [i]) (root.modify (fun n => n.setChildren n.hidden) base)
        (hm.modify_slots tame_expand.slotOnly base) (hs.modify_tame tame_expand base)
        (reachable_expand hs hr hv1)
        (by rw [isSome_get?_modify _ hk]; simpa using hv)
      simpa using this

theorem forEachHit_single (nodes root : HNode) (p : Path) :
    forEachHit nodes root [p] = expandAll root ((ancestorPaths p).filterMap (idAt nodes)) := by
  rw [forEachHit]
  generalize expandAll root ((ancestorPaths p).filterMap (idAt nodes)) = out
  obtain ⟨r, t⟩ := out
  cases t <;> rfl

theorem jumpToNode_thrown (s : Session) (id : String) :
    (jumpToNode s id).thrown =
      (forEachHit (hierarchy s.fullData 0) s.root
        ((descendants (hierarchy s.fullData 0)).filter
          (fun p => idAt (hierarchy s.fullData 0) p == some id))).thrown := by
  unfold jumpToNode
  simp only
  generalize forEachHit (hierarchy s.fullData 0) s.root _ = out
  obtain ⟨r, t⟩ := out
  cases t <;> rfl

/-- C7. For a tree with unique ids built without re-rooting, in every
reachable state, `jumpToNode` on the id of a node of the tree raises no
exception, leaves every proper ancestor of that node with its full child list
in `children`, and leaves the node in `root.descendants()`. -/
theorem jumpToNode_reveals (data : Data) (options : Options) (s : Session)
    (hr : Reach data options s) (hno : options.noCenter) (hu : UniqueIds data)
    (p : Path) (e : Data) (he : data.get? p = some e) :
    (jumpToNode s e.id).thrown = none ∧
      (∀ q, q <+: p → q ≠ p → childrenAt (jumpToNode s e.id).state.root q = some Slot.array) ∧
      p ∈ descendants (jumpToNode s e.id).state.root := by
  obtain ⟨dataset, hm, hs, hfull, hds⟩ := reach_invariant hr
  have hdd := hds hno
  subst hdd
  have hpv : (dataset.get? p).isSome := by rw [he]; rfl
  have hfid : e.fields.id = e.id := by cases e; rfl
  have hhits : (descendants (hierarchy dataset 0)).filter
      (fun q => idAt (hierarchy dataset 0) q == some e.id) = [p] := by
    apply filter_eq_singleton _ _ _ (nodup_descendants _)
    · rw [mem_descendants]
      apply reachable_hierarchy
      rw [get?_hierarchy, he]
      rfl
    · simp [idAt_hierarchy, he, hfid]
    · intro x hx hPx
      have hxv := ((mem_descendants _ x).1 hx).isSome
      rw [get?_hierarchy] at hxv
      have hxv2 : (dataset.get? x).isSome := by
        cases hd : dataset.get? x with
        | none => simp [hd] at hxv
        | some _ => rfl
      simp only [beq_iff_eq] at hPx
      apply hu.path_eq hxv2 hpv
      rw [← idAt_hierarchy, hPx, he]
      simp [hfid]
  have hpath := expandAll_path hu p [] s.root hm hs Reachable.root
    (by rw [List.nil_append, hm.isSome_eq]; exact hpv)
  simp only [List.nil_append, List.map_id'] at hpath
  have hstate := jumpToNode_root s e.id
  have hthrown := jumpToNode_thrown s e.id
  rw [hfull, hhits, forEachHit_single] at hstate hthrown
  rw [hstate, hthrown]
  refine ⟨hpath.1, ?_, (mem_descendants _ p).2 hpath.2⟩
  exact ((reachable_iff _ p).1 hpath.2).2

theorem jumpToNode_reveals_witness :
    Reach sampleTree {} sampleSession ∧ ({} : Options).noCenter ∧ UniqueIds sampleTree ∧
      sampleTree.get? [0, 0] = some (Data.mk "D" "d" 2 [] []) ∧
      (jumpToNode sampleSession (Data.mk "D" "d" 2 [] []).id).thrown = none ∧
      (∀ q, q <+: [0, 0] → q ≠ [0, 0] →
        childrenAt (jumpToNode sampleSession (Data.mk "D" "d" 2 [] []).id).state.root q
          = some Slot.array) ∧
      [0, 0] ∈ descendants (jumpToNode sampleSession (Data.mk "D" "d" 2 [] []).id).state.root :=
  ⟨Reach.build rfl, by decide, by decide, rfl,
    jumpToNode_reveals sampleTree {} sampleSession (Reach.build rfl) (by decide) (by decide)
      [0, 0] (Data.mk "D" "d" 2 [] []) rfl⟩

/-- C8. Failing input: the deeper example dataset built with
`options.center = "B"`, then `jumpToNode("E")`, E being a grandchild of B.  The
ancestor chain is taken from the full dataset and starts at A, which is not in
the re-rooted hierarchy: `root.find` returns `undefined`, the assignment to
its `children` throws, D is not expanded and E is not in
`root.descendants()`. -/
theorem jumpToNode_rerooted_throws :
    buildDendrogram deepTree { center := some "B" } = Except.ok sampleRerooted ∧
      idAt sampleRerooted.root [] = some "B" ∧
      idAt sampleRerooted.root [0, 0] = some "E" ∧
      findId sampleRerooted.root "A" = none ∧
      (jumpToNode sampleRerooted "E").thrown = some (JsError.typeError "node is undefined") ∧
      childrenAt (jumpToNode sampleRerooted "E").state.root [0] = some Slot.empty ∧
      descendants (jumpToNode sampleRerooted "E").state.root = [[], [0]] ∧
      [0, 0] ∉ descendants (jumpToNode sampleRerooted "E").state.root := by
  refine ⟨rfl, by decide, by decide, by decide, by decide, by decide, by decide, by decide⟩

/-- C9. Failing input: the example dataset built with no options, then
`jumpToNode("Z")`, an id of no node.  The synchronous part changes no slot and
raises nothing, but the delayed callback selects `#Z`, finds no element, and
throws on reading the attribute of the empty selection, before it can call
`panSVG`. -/
theorem jumpToNode_unknown_id_throws_later :
    buildDendrogram sampleTree {} = Except.ok sampleSession ∧
      (jumpToNode sampleSession "Z").thrown = none ∧
      (jumpToNode sampleSession "Z").state.root = sampleSession.root ∧
      (jumpToNode sampleSession "Z").state.gNode.map GElem.id = ["A", "B", "C", "B", "C"] ∧
      (transitionsEnd (jumpToNode sampleSession "Z").state).gNode.map GElem.id
        = ["A", "B", "C"] ∧
      jumpToNodeTimer (jumpToNode sampleSession "Z").state "Z"
        = Except.error
            (JsError.typeError "Cannot read properties of null (reading 'getAttribute')") ∧
      jumpToNodeTimer (transitionsEnd (jumpToNode sampleSession "Z").state) "Z"
        = Except.error
            (JsError.typeError "Cannot read properties of null (reading 'getAttribute')") := by
  refine ⟨rfl, by decide, rfl, by decide, by decide, rfl, rfl⟩

/-- C10. Failing inputs: the example dataset built (1) with no
`options.events`, (2) with `options.events` holding only `dblclick`; then a
click on the rendered root node A.  In (1) `nodeEvents` is `undefined` and the
listener throws.  In (2) the listener calls `clickNode` with the dataset
object, not the hierarchy node: the root stays expanded, where `clickNode` on
the node collapses it, and the dataset object loses its `children`. -/
theorem nodeClick_default_does_not_toggle :
    buildDendrogram sampleTree {} = Except.ok sampleSession ∧
      { id := "A", datum := [], exiting := false } ∈ sampleSession.gNode ∧
      (∀ host, (nodeClick host sampleSession { id := "A", datum := [], exiting := false }).thrown
        = some (JsError.typeError "Cannot read properties of undefined (reading 'click')")) ∧
      buildDendrogram sampleTree { events := some { dblclick := true } }
        = Except.ok sampleDblclick ∧
      { id := "A", datum := [], exiting := false } ∈ sampleDblclick.gNode ∧
      childrenAt sampleDblclick.root [] = some Slot.array ∧
      childrenAt (clickNode sampleDblclick (ClickArg.node [])).root [] = some Slot.empty ∧
      (∀ host,
        (nodeClick host sampleDblclick { id := "A", datum := [], exiting := false }).state.root
          = sampleDblclick.root) ∧
      (∀ host,
        (nodeClick host sampleDblclick
          { id := "A", datum := [], exiting := false }).state.fullData.children = []) ∧
      sampleDblclick.fullData.children.map Data.id = ["B", "C"] := by
  refine ⟨rfl, by decide, fun _ => rfl, rfl, by decide, by decide, by decide, fun _ => rfl,
    fun _ => rfl, by decide⟩

/-! ## The keys of the joins -/

/-- C11. Failing input: the example dataset built with no options, then a
second `updateDendrogram(root)`.  The key functions read `d.id` and
`d.target.id` of hierarchy nodes, which have no `id`: A and B have the ids "A"
and "B" and the same key, and so have the links to B and to C.  On the second
render the join therefore keeps only the first element of each group, puts the
elements of B and C (and the link to C) on their exit and creates new ones for
the same nodes. -/
theorem join_keys_ignore_ids :
    buildDendrogram sampleTree {} = Except.ok sampleSession ∧
      idAt sampleSession.root [] = some "A" ∧
      idAt sampleSession.root [0] = some "B" ∧
      nodeKey [] = "undefined" ∧
      nodeKey [] = nodeKey [0] ∧
      linkKey ([], [0]) = "undefined" ∧
      linkKey ([], [0]) = linkKey ([], [1]) ∧
      descendants (updateDendrogram sampleSession).root = descendants sampleSession.root ∧
      sampleSession.gNode.map (fun e => (e.id, e.exiting))
        = [("A", false), ("B", false), ("C", false)] ∧
      (updateDendrogram sampleSession).gNode.map (fun e => (e.id, e.exiting))
        = [("A", false), ("B", true), ("C", true), ("B", false), ("C", false)] ∧
      (updateDendrogram sampleSession).gLink.map (fun l => (l.target, l.exiting))
        = [([0], false), ([1], true), ([1], false)] := by
  refine ⟨rfl, by decide, by decide, rfl, rfl, rfl, rfl, rfl, by decide, by decide,
    by decide⟩

/-! ## `filterNodes` -/

/-- C12. Failing input: `options.duration = 110`, then `filterNodes`.  The
test is `(duration - 100) > 0`, not a comparison with 25: the transition of
`filterNodes` lasts 10 ms, less than the documented floor of 25 ms, where
`max(duration - 100, 25)` is 25. -/
theorem shortenedDuration_below_floor :
    (∃ s, buildDendrogram sampleTree { duration := some 110 } = Except.ok s ∧
        s.duration = 110) ∧
      shortenedDuration 110 = 10 ∧
      shortenedDuration 110 < 25 ∧
      shortenedDuration 110 ≠ max (110 - 100) 25 := by
  refine ⟨⟨_, rfl, rfl⟩, by decide, by decide, by decide⟩

theorem getElem?_map_some {α β : Type} (f : α → β) (l : List α) (i : Nat) (a : α)
    (h : l[i]? = some a) : (l.map f)[i]? = some (f a) := by
  rw [List.getElem?_map, h]
  rfl

/-- C13. `filterNodes(flag, display)` keeps every rendered node and link
element in place and sets the `display` style of exactly those nodes whose
`data[flag]` is falsy and exactly those links whose target's `data[flag]` is
falsy, to `"inline"` when `display` is true and `"none"` when it is false; the
style of the others is left as it was.  Nothing depends on `children`. -/
theorem filterNodes_display (s : Session) (flag : String) (display : Bool) :
    (filterNodes s flag display).gNode.length = s.gNode.length ∧
      (filterNodes s flag display).gLink.length = s.gLink.length ∧
      (∀ (i : Nat) (e : GElem), s.gNode[i]? = some e →
        ∃ e2 : GElem, (filterNodes s flag display).gNode[i]? = some e2 ∧
          e2.id = e.id ∧ e2.datum = e.datum ∧
          (flagAt s.root e.datum flag = false →
            e2.display = some (if display then "inline" else "none")) ∧
          (flagAt s.root e.datum flag = true → e2.display = e.display)) ∧
      (∀ (i : Nat) (l : LElem), s.gLink[i]? = some l →
        ∃ l2 : LElem, (filterNodes s flag display).gLink[i]? = some l2 ∧
          l2.source = l.source ∧ l2.target = l.target ∧
          (flagAt s.root l.target flag = false →
            l2.display = some (if display then "inline" else "none")) ∧
          (flagAt s.root l.target flag = true → l2.display = l.display)) := by
  refine ⟨by simp [filterNodes], by simp [filterNodes], ?_, ?_⟩
  · intro i e he
    refine ⟨_, getElem?_map_some _ _ _ _ he, ?_⟩
    cases hf : flagAt s.root e.datum flag <;> simp
  · intro i l hl
    refine ⟨_, getElem?_map_some _ _ _ _ hl, ?_⟩
    cases hf : flagAt s.root l.target flag <;> simp

/-- C14, as stated, fails on the flagged example dataset: `filterNodes("key",
false)` changes the `display` style of the element of B, whose `data.key`
is false, and leaves the elements of A and C, whose `data.key` is true. -/
theorem filterNodes_changes_falsy :
    buildDendrogram flaggedTree {} = Except.ok flaggedSession ∧
      ¬ (∀ (i : Nat) (e e2 : GElem), flaggedSession.gNode[i]? = some e →
          (filterNodes flaggedSession "key" false).gNode[i]? = some e2 →
          e2.display ≠ e.display → flagAt flaggedSession.root e.datum "key" = true) := by
  refine ⟨rfl, ?_⟩
  intro hall
  have h := hall 1 { id := "B", datum := [0], exiting := false }
    { id := "B", datum := [0], exiting := false, display := some "none" }
    (by decide) (by decide) (by decide)
  exact absurd h (by decide)

/-- C14, amended. `filterNodes(filterFlag, display)` changes the `display`
style of a rendered node only if its `data[filterFlag]` is falsy. -/
theorem filterNodes_only_falsy (s : Session) (flag : String) (display : Bool) (i : Nat)
    (e e2 : GElem) (he : s.gNode[i]? = some e)
    (he2 : (filterNodes s flag display).gNode[i]? = some e2)
    (hd : e2.display ≠ e.display) : flagAt s.root e.datum flag = false := by
  cases hf : flagAt s.root e.datum flag with
  | false => rfl
  | true =>
    exfalso
    apply hd
    have h := getElem?_map_some (fun e : GElem =>
      if !(flagAt s.root e.datum flag) then
        { e with display := some (if display then "inline" else "none"), exiting := false }
      else e) s.gNode i e he
    have h2 : (filterNodes s flag display).gNode[i]? = some
        (if !(flagAt s.root e.datum flag) then
          { e with display := some (if display then "inline" else "none"), exiting := false }
        else e) := h
    rw [hf] at h2
    rw [h2] at he2
    simp only [Bool.not_true, Bool.false_eq_true, if_false] at he2
    rw [← Option.some.inj he2]

theorem filterNodes_only_falsy_witness :
    flaggedSession.gNode[1]? = some { id := "B", datum := [0], exiting := false } ∧
      (filterNodes flaggedSession "key" false).gNode[1]?
        = some { id := "B", datum := [0], exiting := false, display := some "none" } ∧
      (some "none" : Option String) ≠ none ∧
      flagAt flaggedSession.root [0] "key" = false :=
  ⟨by decide, by decide, by decide,
    filterNodes_only_falsy flaggedSession "key" false 1
      { id := "B", datum := [0], exiting := false }
      { id := "B", datum := [0], exiting := false, display := some "none" }
      (by decide) (by decide) (by decide)⟩

/-- C15. Failing input: the flagged example dataset built with no options,
`filterNodes("key", false)`, then `clickNode` on the root A twice (collapse,
expand), the transitions running to their end after each call.  The element of
B hidden by the filter is removed on the collapse; the element created for B
on the expansion has no `display` style, although `data.key` of B is false.
Without waiting for the transitions the new element of B is unstyled just the
same. -/
theorem filter_lost_on_reexpand :
    buildDendrogram flaggedTree {} = Except.ok flaggedSession ∧
      flagAt flaggedSession.root [0] "key" = false ∧
      (transitionsEnd (filterNodes flaggedSession "key" false)).gNode.map
          (fun e => (e.id, e.display))
        = [("A", none), ("B", some "none"), ("C", none)] ∧
      (transitionsEnd (clickNode (transitionsEnd (clickNode
          (transitionsEnd (filterNodes flaggedSession "key" false))
          (ClickArg.node []))) (ClickArg.node []))).gNode.map (fun e => (e.id, e.display))
        = [("A", none), ("B", none), ("C", none)] ∧
      (clickNode (clickNode (filterNodes flaggedSession "key" false)
          (ClickArg.node [])) (ClickArg.node [])).gNode.map
          (fun e => (e.id, e.exiting, e.display))
        = [("A", false, none), ("B", true, some "none"), ("C", true, none),
           ("B", false, none), ("C", false, none)] := by
  refine ⟨rfl, by decide, by decide, by decide, by decide⟩

/-- C16. `updateNodeColors`, `filterNodes`, `panSVG` and `resizeSVG` leave the
hierarchy as it is, in every session state and for every argument: the
`children` and `_children` of every node, and with them `root.descendants()`,
are the same after the call, and so is the parsed dataset. -/
theorem presentation_calls_keep_tree (s : Session) (colorFlag : Option String)
    (flag : String) (display : Bool) (x y w h : ℚ) :
    ((updateNodeColors s colorFlag).root = s.root ∧
        (filterNodes s flag display).root = s.root ∧
        (panSVG s x y).root = s.root ∧
        (resizeSVG s w h).root = s.root) ∧
      (∀ p, childrenAt (updateNodeColors s colorFlag).root p = childrenAt s.root p ∧
        hiddenAt (updateNodeColors s colorFlag).root p = hiddenAt s.root p ∧
        childrenAt (filterNodes s flag display).root p = childrenAt s.root p ∧
        hiddenAt (filterNodes s flag display).root p = hiddenAt s.root p ∧
        childrenAt (panSVG s x y).root p = childrenAt s.root p ∧
        hiddenAt (panSVG s x y).root p = hiddenAt s.root p ∧
        childrenAt (resizeSVG s w h).root p = childrenAt s.root p ∧
        hiddenAt (resizeSVG s w h).root p = hiddenAt s.root p) ∧
      (descendants (updateNodeColors s colorFlag).root = descendants s.root ∧
        descendants (filterNodes s flag display).root = descendants s.root ∧
        descendants (panSVG s x y).root = descendants s.root ∧
        descendants (resizeSVG s w h).root = descendants s.root) ∧
      ((updateNodeColors s colorFlag).fullData = s.fullData ∧
        (filterNodes s flag display).fullData = s.fullData ∧
        (panSVG s x y).fullData = s.fullData ∧
        (resizeSVG s w h).fullData = s.fullData) :=
  ⟨⟨rfl, rfl, rfl, rfl⟩, fun _ => ⟨rfl, rfl, rfl, rfl, rfl, rfl, rfl, rfl⟩,
    ⟨rfl, rfl, rfl, rfl⟩, ⟨rfl, rfl, rfl, rfl⟩⟩

/-! ## Marker colours -/

theorem hidden_iff_kids {root : HNode} (h : SlotsOK root) {p : Path} {n : HNode}
    (hn : root.get? p = some n) : n.hidden = Slot.array ↔ n.kids ≠ [] := by
  obtain ⟨h1, _⟩ := h p n.label (label_of_get? hn)
  have h1b : n.hidden = if n.kids.length = 0 then Slot.empty else Slot.array := h1
  rw [h1b]
  by_cases h0 : n.kids = []
  · simp [h0]
  · have : n.kids.length ≠ 0 := fun hl => h0 (List.length_eq_zero.1 hl)
    simp [h0, this]

/-- C17. In every reachable state the colour of the marker of a node is
"#E1E1E1" when no colour flag is set or the flag is falsy on the node's data,
and otherwise `branchColor` for a node that has children and `leafColor` for
one that has none.  `updateNodeColors(flag)` stores the flag and gives the
circle of every rendered node the colour of this rule, which is also the rule
`updateDendrogram` uses for the circle of an entering node. -/
theorem marker_colour_rule (data : Data) (options : Options) (s : Session)
    (hr : Reach data options s) (p : Path) (n : HNode) (hn : s.root.get? p = some n)
    (colorFlag : Option String) :
    ((colorFlag = none ∨ colorFlag = some "" ∨
          (∃ f, colorFlag = some f ∧ n.data.flag f = false)) →
        updateFill colorFlag s.branchColor s.leafColor n = "#E1E1E1") ∧
      (∀ f, colorFlag = some f → f ≠ "" → n.data.flag f = true → n.kids ≠ [] →
        updateFill colorFlag s.branchColor s.leafColor n = s.branchColor) ∧
      (∀ f, colorFlag = some f → f ≠ "" → n.data.flag f = true → n.kids = [] →
        updateFill colorFlag s.branchColor s.leafColor n = s.leafColor) ∧
      enterFill colorFlag s.branchColor s.leafColor n
        = updateFill colorFlag s.branchColor s.leafColor n ∧
      (updateNodeColors s colorFlag).colorFlag = colorFlag ∧
      (∀ (i : Nat) (e : GElem), s.gNode[i]? = some e → e.datum = p →
        ∃ e2 : GElem, (updateNodeColors s colorFlag).gNode[i]? = some e2 ∧ e2.id = e.id ∧
          e2.datum = p ∧
          e2.fillStyle = some (updateFill colorFlag s.branchColor s.leafColor n)) ∧
      (enterElem s.root (enterFill s.colorFlag s.branchColor s.leafColor) p).fill
        = updateFill s.colorFlag s.branchColor s.leafColor n := by
  obtain ⟨dataset, _, hslots, _, _⟩ := reach_invariant hr
  have hk := hidden_iff_kids hslots hn
  refine ⟨?_, ?_, ?_, rfl, rfl, ?_, ?_⟩
  · rintro (h | h | ⟨f, h, hf⟩)
    · rw [h]; rfl
    · rw [h]; simp [updateFill]
    · rw [h]; simp [updateFill, hf]
  · intro f h hf hflag hkids
    rw [h]
    simp [updateFill, hf, hflag, hk.2 hkids]
  · intro f h hf hflag hkids
    rw [h]
    have : n.hidden ≠ Slot.array := fun hh => (hk.1 hh) hkids
    simp [updateFill, hf, hflag, this]
  · intro i e he hd
    subst hd
    refine ⟨_, getElem?_map_some _ _ _ _ he, ?_⟩
    simp [hn]
  · simp [enterElem, hn]
    rfl

theorem marker_colour_rule_witness :
    Reach flaggedTree {} flaggedSession ∧
      flaggedSession.root.get? [] = some flaggedSession.root ∧
      updateFill (some "key") flaggedSession.branchColor flaggedSession.leafColor
        flaggedSession.root = "#FFD966" ∧
      (updateNodeColors flaggedSession (some "key")).gNode.map (fun e => (e.id, e.fillStyle))
        = [("A", some "#FFD966"), ("B", some "#E1E1E1"), ("C", some "#FD9500")] :=
  ⟨Reach.build rfl, rfl,
    (marker_colour_rule flaggedTree {} flaggedSession (Reach.build rfl) [] flaggedSession.root
      rfl (some "key")).2.1 "key" rfl (by decide) (by decide)
      (by intro h; exact absurd (congrArg List.length h) (by decide)),
    by decide⟩

/-! ## The parsed dataset -/

/-- C19. Failing input: the example dataset built with `options.events`
holding only `dblclick`, then a click on the rendered node B.  The listener
calls `clickNode` with B's dataset object and the truthy branch assigns `null`
to its `children`: `fullData` has lost D.  A later `jumpToNode("D")` finds no
node with that id in `fullData` and expands nothing. -/
theorem click_listener_changes_fullData :
    buildDendrogram sampleTree { events := some { dblclick := true } }
        = Except.ok sampleDblclick ∧
      { id := "B", datum := [0], exiting := false } ∈ sampleDblclick.gNode ∧
      (sampleDblclick.fullData.get? [0, 0]).map Data.id = some "D" ∧
      (∀ host,
        (nodeClick host sampleDblclick { id := "B", datum := [0], exiting := false }).thrown
          = none) ∧
      (∀ host,
        ((nodeClick host sampleDblclick
          { id := "B", datum := [0], exiting := false }).state.fullData.get? [0]).map
            (fun e => (e.id, e.children.length)) = some ("B", 0)) ∧
      (∀ host,
        ((nodeClick host sampleDblclick
          { id := "B", datum := [0], exiting := false }).state.fullData.get? [0, 0]).map Data.id
            = none) ∧
      (∀ host,
        descendants (jumpToNode (nodeClick host sampleDblclick
          { id := "B", datum := [0], exiting := false }).state "D").state.root
            = [[], [0], [1]]) ∧
      descendants (jumpToNode sampleDblclick "D").state.root = [[], [0], [1], [0, 0]] := by
  have hclick : ∀ host, nodeClick host sampleDblclick { id := "B", datum := [0], exiting := false }
      = { state := clickNode sampleDblclick (ClickArg.data [0]), thrown := none } :=
    fun _ => rfl
  refine ⟨rfl, by decide, by decide, fun host => by rw [hclick], fun host => ?_, fun host => ?_,
    fun host => ?_, by decide⟩
  · rw [hclick]; decide
  · rw [hclick]; decide
  · rw [hclick]; decide

/-! ## Re-rooting: `getDataset` -/

theorem Data.preorder_eq (d : Data) : d.preorder = ([], d) :: preorderList d.children 0 := by
  cases d
  rw [Data.preorder]
  rfl

theorem preorderList_nil (k : Nat) : preorderList [] k = [] := by
  rw [preorderList]

theorem preorderList_cons (c : Data) (cs : List Data) (k : Nat) :
    preorderList (c :: cs) k =
      c.preorder.map (fun pe => (k :: pe.1, pe.2)) ++ preorderList cs (k + 1) := by
  rw [preorderList]

theorem preorderList_succ (cs : List Data) (k : Nat) :
    preorderList cs (k + 1) = (preorderList cs k).map (fun pe => (bumpHead pe.1, pe.2)) := by
  induction cs generalizing k with
  | nil => simp [preorderList_nil]
  | cons c cs ih =>
    rw [preorderList_cons, preorderList_cons, ih (k + 1), List.map_append, List.map_map]
    rfl

theorem getDatasetNode_eq (id : String) (d : Data) :
    getDatasetNode id d = if d.id = id then some d else getDataset id d.children := by
  cases d
  rw [getDatasetNode]
  rfl

theorem locateNode_eq (id : String) (d : Data) :
    locateNode id d = if d.id = id then some [] else locate id d.children := by
  cases d
  rw [locateNode]
  rfl

theorem getDataset_cons (id : String) (c : Data) (cs : List Data) :
    getDataset id (c :: cs) =
      match getDatasetNode id c with
      | some r => some r
      | none => getDataset id cs := by
  rw [getDataset]

theorem locate_cons (id : String) (c : Data) (cs : List Data) :
    locate id (c :: cs) =
      match locateNode id c with
      | some p => some (0 :: p)
      | none => (locate id cs).map bumpHead := by
  rw [locate]

theorem find?_preorder_shift (id : String) (k : Nat) (l : List (Path × Data)) :
    (l.map (fun pe => (k :: pe.1, pe.2))).find? (fun pe => pe.2.id == id) =
      (l.find? (fun pe => pe.2.id == id)).map (fun pe => (k :: pe.1, pe.2)) := by
  rw [List.find?_map]
  rfl

theorem find?_preorder_bump (id : String) (l : List (Path × Data)) :
    (l.map (fun pe => (bumpHead pe.1, pe.2))).find? (fun pe => pe.2.id == id) =
      (l.find? (fun pe => pe.2.id == id)).map (fun pe => (bumpHead pe.1, pe.2)) := by
  rw [List.find?_map]
  rfl

mutual
/-- The function `getDataset` on one object returns the first object in
pre-order with the given id; `locateNode` returns its path. -/
theorem getDatasetNode_find (id : String) : ∀ d : Data,
    getDatasetNode id d = (d.preorder.find? (fun pe => pe.2.id == id)).map Prod.snd ∧
      locateNode id d = (d.preorder.find? (fun pe => pe.2.id == id)).map Prod.fst
  | .mk i n t f cs => by
    have ih := getDataset_find id cs
    rw [getDatasetNode_eq, locateNode_eq, Data.preorder_eq]
    simp only [Data.id, Data.children]
    by_cases h : i = id
    · rw [List.find?_cons_of_pos _ (by simp [Data.id, h])]
      simp [h]
    · rw [List.find?_cons_of_neg _ (by simp [Data.id, h])]
      simp only [if_neg h]
      exact ih
/-- The function `getDataset` on a bucket returns the first object in
pre-order below the bucket with the given id; `locate` returns its path. -/
theorem getDataset_find (id : String) : ∀ cs : List Data,
    getDataset id cs = ((preorderList cs 0).find? (fun pe => pe.2.id == id)).map Prod.snd ∧
      locate id cs = ((preorderList cs 0).find? (fun pe => pe.2.id == id)).map Prod.fst
  | [] => by
    rw [preorderList_nil, getDataset, locate]
    exact ⟨rfl, rfl⟩
  | c :: cs => by
    have ih1 := getDatasetNode_find id c
    have ih2 := getDataset_find id cs
    rw [getDataset_cons, locate_cons, preorderList_cons, List.find?_append,
      find?_preorder_shift, preorderList_succ, find?_preorder_bump, ih1.1, ih1.2, ih2.1, ih2.2]
    cases c.preorder.find? (fun pe => pe.2.id == id) with
    | some pe => exact ⟨rfl, rfl⟩
    | none =>
      cases (preorderList cs 0).find? (fun pe => pe.2.id == id) with
      | some pe => exact ⟨rfl, rfl⟩
      | none => exact ⟨rfl, rfl⟩
end

theorem mem_preorderList {cs : List Data} {k : Nat} {pe : Path × Data}
    (h : pe ∈ preorderList cs k) :
    ∃ j c q, cs[j]? = some c ∧ pe.1 = (k + j) :: q ∧ (q, pe.2) ∈ c.preorder := by
  induction cs generalizing k with
  | nil => rw [preorderList_nil] at h; cases h
  | cons c cs ih =>
    rw [preorderList_cons] at h
    rcases List.mem_append.1 h with h | h
    · obtain ⟨qe, hqe, hpe⟩ := List.mem_map.1 h
      subst hpe
      exact ⟨0, c, qe.1, List.getElem?_cons_zero, rfl, hqe⟩
    · obtain ⟨j, c2, q, hj, hp, hq⟩ := ih h
      refine ⟨j + 1, c2, q, by simpa using hj, ?_, hq⟩
      rw [hp]
      congr 1
      omega

theorem preorderList_mem {cs : List Data} {k j : Nat} {c : Data} {q : Path} {e : Data}
    (hj : cs[j]? = some c) (hq : (q, e) ∈ c.preorder) :
    ((k + j) :: q, e) ∈ preorderList cs k := by
  induction cs generalizing k j with
  | nil => simp at hj
  | cons c0 cs ih =>
    rw [preorderList_cons]
    cases j with
    | zero =>
      simp only [List.getElem?_cons_zero, Option.some.injEq] at hj
      subst hj
      exact List.mem_append_left _ (List.mem_map.2 ⟨(q, e), hq, rfl⟩)
    | succ j =>
      simp only [List.getElem?_cons_succ] at hj
      have := ih (k := k + 1) hj
      have hk : k + 1 + j = k + (j + 1) := by omega
      rw [hk] at this
      exact List.mem_append_right _ this

/-- The pre-order list holds exactly the objects of the dataset, each at its
path. -/
theorem mem_preorder (d : Data) (p : Path) (e : Data) :
    (p, e) ∈ d.preorder ↔ d.get? p = some e := by
  induction p generalizing d with
  | nil =>
    rw [Data.preorder_eq, Data.get?_root]
    constructor
    · intro h
      rcases List.mem_cons.1 h with h | h
      · rw [(Prod.mk.inj h).2]
      · obtain ⟨j, c, q, _, hp, _⟩ := mem_preorderList h
        cases hp
    · intro h
      rw [Option.some.inj h]
      exact List.mem_cons_self _ _
  | cons i r ih =>
    rw [Data.preorder_eq, Data.get?_child]
    constructor
    · intro h
      rcases List.mem_cons.1 h with h | h
      · cases (Prod.mk.inj h).1
      · obtain ⟨j, c, q, hj, hp, hq⟩ := mem_preorderList h
        simp only [Nat.zero_add, List.cons.injEq] at hp
        obtain ⟨hij, hrq⟩ := hp
        subst hij; subst hrq
        rw [hj]
        exact (ih c).1 hq
    · intro h
      cases hi : d.children[i]? with
      | none => simp [hi] at h
      | some c =>
        simp only [hi, Option.some_bind] at h
        have := preorderList_mem (k := 0) hi ((ih c).2 h)
        simp only [Nat.zero_add] at this
        exact List.mem_cons_of_mem _ this

theorem getDataset_singleton (id : String) (data : Data) :
    getDataset id [data] = getDatasetNode id data := by
  rw [getDataset_cons]
  cases getDatasetNode id data with
  | some r => rfl
  | none => rw [getDataset]

/-- C18. `buildDendrogram` with a re-root id that is the id of a node of the
full dataset succeeds; its root data is the object `getDataset` returns, the
first in pre-order with that id, and the hierarchy mirrors the subtree below
that object, path by path (same data, same number of children), while
`fullData` is the whole parsed tree.  Without a re-root id the hierarchy
mirrors the whole tree. -/
theorem build_rerooted_subtree (data : Data) (options : Options)
    (hfound : ∀ X, options.center = some X → X ≠ "" →
      ∃ p e, data.get? p = some e ∧ e.id = X) :
    ∃ s, buildDendrogram data options = Except.ok s ∧ s.fullData = data ∧
      (∀ X, options.center = some X → X ≠ "" →
        ∃ p ds, data.preorder.find? (fun pe => pe.2.id == X) = some (p, ds) ∧
          getDataset X [data] = some ds ∧ data.get? p = some ds ∧ ds.id = X ∧
          s.datasetAt = p ∧ Mirrors ds s.root) ∧
      (options.noCenter → s.datasetAt = [] ∧ Mirrors data s.root) := by
  cases hc : options.center with
  | none =>
    refine ⟨_, by simp [buildDendrogram, hc]; rfl, rfl, ?_, ?_⟩
    · intro X hX; cases hX
    · intro _
      exact ⟨rfl, mirrors_collapseAll data⟩
  | some X =>
    by_cases hX : X = ""
    · subst hX
      refine ⟨_, by simp [buildDendrogram, hc]; rfl, rfl, ?_, ?_⟩
      · intro Y hY hne
        cases hY
        exact absurd rfl hne
      · intro _
        exact ⟨rfl, mirrors_collapseAll data⟩
    · obtain ⟨q, e, hq, he⟩ := hfound X hc hX
      have hmem := (mem_preorder data q e).2 hq
      obtain ⟨hg, hl⟩ := getDatasetNode_find X data
      cases hf : data.preorder.find? (fun pe => pe.2.id == X) with
      | none =>
        rw [List.find?_eq_none] at hf
        exact absurd (by simpa using he) (hf (q, e) hmem)
      | some pe =>
        obtain ⟨p, ds⟩ := pe
        rw [hf] at hg hl
        simp only [Option.map_some'] at hg hl
        have hds : getDataset X [data] = some ds := by rw [getDataset_singleton, hg]
        have hid : ds.id = X := by simpa using List.find?_some hf
        have hget := (mem_preorder data p ds).1 (List.mem_of_find?_eq_some hf)
        refine ⟨_, by simp [buildDendrogram, hc, hX, hds, hl]; rfl, rfl, ?_, ?_⟩
        · intro Y hY _
          cases hY
          exact ⟨p, ds, hf, hds, hget, hid, rfl, mirrors_collapseAll ds⟩
        · intro h
          rw [Options.noCenter, hc] at h
          rcases h with h | h
          · cases h
          · exact absurd (Option.some.inj h) hX

theorem build_rerooted_subtree_witness :
    (∀ X, ({ center := some "B" } : Options).center = some X → X ≠ "" →
        ∃ p e, deepTree.get? p = some e ∧ e.id = X) ∧
      ∃ s, buildDendrogram deepTree { center := some "B" } = Except.ok s ∧
        s.fullData = deepTree ∧
        (∀ X, ({ center := some "B" } : Options).center = some X → X ≠ "" →
          ∃ p ds, deepTree.preorder.find? (fun pe => pe.2.id == X) = some (p, ds) ∧
            getDataset X [deepTree] = some ds ∧ deepTree.get? p = some ds ∧ ds.id = X ∧
            s.datasetAt = p ∧ Mirrors ds s.root) ∧
        (({ center := some "B" } : Options).noCenter →
          s.datasetAt = [] ∧ Mirrors deepTree s.root) :=
  ⟨fun X hX _ => ⟨[0], _, rfl, by cases hX; rfl⟩,
    build_rerooted_subtree deepTree { center := some "B" }
      (fun X hX _ => ⟨[0], _, rfl, by cases hX; rfl⟩)⟩

/-! ## Rendering twice -/

theorem joinRoles_used {δ ε : Type} (key : δ → String) (c : String) (hk : ∀ d, key d = c)
    (datum : ε → δ) (group : List ε) (ds : List δ) (used : List String) (h : c ∈ used) :
    joinRoles key datum group ds used = ds.map (fun d => (d, none)) := by
  induction ds with
  | nil => rfl
  | cons d ds ih =>
    rw [joinRoles, ih]
    simp [hk, h]

theorem joinRoles_nil_group {δ ε : Type} (key : δ → String) (datum : ε → δ) (ds : List δ)
    (used : List String) :
    joinRoles key datum ([] : List ε) ds used = ds.map (fun d => (d, none)) := by
  induction ds with
  | nil => rfl
  | cons d ds ih =>
    rw [joinRoles, ih]
    simp

theorem joinRoles_cons_first {δ ε : Type} (key : δ → String) (c : String)
    (hk : ∀ d, key d = c) (datum : ε → δ) (e : ε) (g : List ε) (d : δ) (ds : List δ) :
    joinRoles key datum (e :: g) (d :: ds) [] = (d, some 0) :: ds.map (fun d => (d, none)) := by
  rw [joinRoles]
  have hfind : List.findIdx? (fun x => key (datum x) == key d) (e :: g) = some 0 := by
    simp [List.findIdx?_cons, hk]
  rw [hfind]
  simp only [List.contains_nil, Bool.false_eq_true, if_false]
  rw [joinRoles_used key c hk datum (e :: g) ds [key d] (by simp [hk])]

theorem entersBefore_none {δ : Type} (ds pend : List δ) :
    entersBefore (ds.map (fun d => (d, (none : Option Nat)))) pend = [] := by
  induction ds generalizing pend with
  | nil => rfl
  | cons d ds ih => simp only [List.map_cons, entersBefore, ih]

theorem entersLast_none {δ : Type} (ds pend : List δ) :
    entersLast (ds.map (fun d => (d, (none : Option Nat)))) pend = pend ++ ds := by
  induction ds generalizing pend with
  | nil => simp [entersLast]
  | cons d ds ih => simp only [List.map_cons, entersLast, ih, List.append_assoc, List.cons_append,
      List.nil_append]

theorem flatMap_enumFrom_of_exit {ε : Type} (F : Nat × ε → List ε) (onExit : ε → ε)
    (g : List ε) (k : Nat) (h : ∀ j x, k ≤ j → F (j, x) = [onExit x]) :
    (List.enumFrom k g).flatMap F = g.map onExit := by
  induction g generalizing k with
  | nil => rfl
  | cons x g ih =>
    rw [List.enumFrom_cons, List.flatMap_cons, h k x (le_refl k),
      ih (k + 1) (fun j y hj => h j y (by omega))]
    rfl

theorem joinRoles_no_data {δ ε : Type} (key : δ → String) (datum : ε → δ) (group : List ε)
    (used : List String) : joinRoles key datum group [] used = [] := by
  rw [joinRoles]

/-- The node join on an empty group: every node enters. -/
theorem joinNodes_nil (root : HNode) (fill : HNode → String) (nodes : List Path) :
    joinNodes root fill [] nodes = nodes.map (enterElem root fill) := by
  simp [joinNodes, joinRoles_nil_group, entersLast_none]

/-- The node join without data: every element starts its exit. -/
theorem joinNodes_no_data (root : HNode) (fill : HNode → String) (g : List GElem) :
    joinNodes root fill g [] = g.map (fun x => { x with exiting := true }) := by
  simp only [joinNodes, joinRoles_no_data, entersBefore, entersLast, List.map_nil,
    List.append_nil, List.enum]
  rw [flatMap_enumFrom_of_exit _ (fun x : GElem => { x with exiting := true }) g 0]
  intro j x _
  rfl

/-- The node join on a non-empty group: all keys being equal, the first
element is re-bound to the first node, the other elements start their exit,
and the other nodes enter. -/
theorem joinNodes_cons (root : HNode) (fill : HNode → String) (e : GElem) (g : List GElem)
    (d : Path) (ds : List Path) :
    joinNodes root fill (e :: g) (d :: ds) =
      { e with datum := d, exiting := false } ::
        (g.map (fun x => { x with exiting := true }) ++ ds.map (enterElem root fill)) := by
  have hroles := joinRoles_cons_first nodeKey "undefined" (fun _ => rfl) GElem.datum e g d ds
  have hupd : entersBefore ((d, some 0) :: ds.map (fun d => (d, (none : Option Nat)))) []
      = [(0, (([] : List Path), d))] := by
    rw [entersBefore, entersBefore_none]
  have hlast : entersLast ((d, some 0) :: ds.map (fun d => (d, (none : Option Nat)))) []
      = ds := by
    rw [entersLast, entersLast_none, List.nil_append]
  rw [joinNodes]
  simp only [hroles, hupd, hlast]
  rw [List.enum_cons, List.flatMap_cons,
    flatMap_enumFrom_of_exit _ (fun x : GElem => { x with exiting := true }) g 1]
  · rfl
  · intro j x hj
    have hj0 : (j == 0) = false := by
      cases j with
      | zero => omega
      | succ j => rfl
    simp only [List.lookup, hj0]

/-- The link join on an empty group: every link enters. -/
theorem joinLinks_nil (ls : List (Path × Path)) : joinLinks [] ls = ls.map enterLink := by
  simp [joinLinks, joinRoles_nil_group, entersLast_none]

/-- The link join without data: every element starts its exit. -/
theorem joinLinks_no_data (g : List LElem) :
    joinLinks g [] = g.map (fun x => { x with exiting := true }) := by
  simp only [joinLinks, joinRoles_no_data, entersBefore, entersLast, List.map_nil,
    List.append_nil, List.enum]
  rw [flatMap_enumFrom_of_exit _ (fun x : LElem => { x with exiting := true }) g 0]
  intro j x _
  rfl

/-- The link join on a non-empty group. -/
theorem joinLinks_cons (e : LElem) (g : List LElem) (d : Path × Path)
    (ds : List (Path × Path)) :
    joinLinks (e :: g) (d :: ds) =
      { e with source := d.1, target := d.2, exiting := false } ::
        (g.map (fun x => { x with exiting := true }) ++ ds.map enterLink) := by
  have hroles := joinRoles_cons_first linkKey "undefined" (fun _ => rfl)
    (fun l : LElem => (l.source, l.target)) e g d ds
  have hupd : entersBefore ((d, some 0) :: ds.map (fun d => (d, (none : Option Nat)))) []
      = [(0, (([] : List (Path × Path)), d))] := by
    rw [entersBefore, entersBefore_none]
  have hlast : entersLast ((d, some 0) :: ds.map (fun d => (d, (none : Option Nat)))) []
      = ds := by
    rw [entersLast, entersLast_none, List.nil_append]
  rw [joinLinks]
  simp only [hroles, hupd, hlast]
  rw [List.enum_cons, List.flatMap_cons,
    flatMap_enumFrom_of_exit _ (fun x : LElem => { x with exiting := true }) g 1]
  · rfl
  · intro j x hj
    have hj0 : (j == 0) = false := by
      cases j with
      | zero => omega
      | succ j => rfl
    simp only [List.lookup, hj0]

theorem filter_exiting_nodes (g : List GElem) :
    (g.map (fun x => { x with exiting := true })).filter (fun e => !e.exiting) = [] := by
  rw [List.filter_eq_nil_iff]
  intro a ha
  obtain ⟨x, _, hx⟩ := List.mem_map.1 ha
  subst hx
  simp

theorem filter_entered_nodes (root : HNode) (fill : HNode → String) (ds : List Path) :
    (ds.map (enterElem root fill)).filter (fun e => !e.exiting) = ds.map (enterElem root fill) := by
  rw [List.filter_eq_self]
  intro a ha
  obtain ⟨x, _, hx⟩ := List.mem_map.1 ha
  subst hx
  simp [enterElem]

theorem filter_exiting_links (g : List LElem) :
    (g.map (fun x => { x with exiting := true })).filter (fun e => !e.exiting) = [] := by
  rw [List.filter_eq_nil_iff]
  intro a ha
  obtain ⟨x, _, hx⟩ := List.mem_map.1 ha
  subst hx
  simp

theorem filter_entered_links (ds : List (Path × Path)) :
    (ds.map enterLink).filter (fun e => !e.exiting) = ds.map enterLink := by
  rw [List.filter_eq_self]
  intro a ha
  obtain ⟨x, _, hx⟩ := List.mem_map.1 ha
  subst hx
  simp [enterLink]

/-- What is left under `gNode` once the transitions of a render have ended. -/
theorem settled_joinNodes (root : HNode) (fill : HNode → String) (g : List GElem)
    (nodes : List Path) :
    (joinNodes root fill g nodes).filter (fun e => !e.exiting) =
      match g, nodes with
      | _, [] => []
      | [], d :: ds => enterElem root fill d :: ds.map (enterElem root fill)
      | e :: _, d :: ds =>
        { e with datum := d, exiting := false } :: ds.map (enterElem root fill) := by
  cases nodes with
  | nil =>
    rw [joinNodes_no_data, filter_exiting_nodes]
    cases g <;> rfl
  | cons d ds =>
    cases g with
    | nil =>
      rw [joinNodes_nil, filter_entered_nodes]
      rfl
    | cons e g =>
      rw [joinNodes_cons, List.filter_cons_of_pos (by simp), List.filter_append,
        filter_exiting_nodes, filter_entered_nodes, List.nil_append]

/-- What is left under `gLink` once the transitions of a render have ended. -/
theorem settled_joinLinks (g : List LElem) (ls : List (Path × Path)) :
    (joinLinks g ls).filter (fun e => !e.exiting) =
      match g, ls with
      | _, [] => []
      | [], d :: ds => enterLink d :: ds.map enterLink
      | e :: _, d :: ds =>
        { e with source := d.1, target := d.2, exiting := false } :: ds.map enterLink := by
  cases ls with
  | nil =>
    rw [joinLinks_no_data, filter_exiting_links]
    cases g <;> rfl
  | cons d ds =>
    cases g with
    | nil =>
      rw [joinLinks_nil, filter_entered_links]
      rfl
    | cons e g =>
      rw [joinLinks_cons, List.filter_cons_of_pos (by simp), List.filter_append,
        filter_exiting_links, filter_entered_links, List.nil_append]

/-- Rendering the same node list again, transitions ended, leaves the same
elements. -/
theorem settled_joinNodes_twice (root : HNode) (fill : HNode → String) (g : List GElem)
    (nodes : List Path) :
    (joinNodes root fill ((joinNodes root fill g nodes).filter (fun e => !e.exiting))
        nodes).filter (fun e => !e.exiting) =
      (joinNodes root fill g nodes).filter (fun e => !e.exiting) := by
  rw [settled_joinNodes root fill g nodes, settled_joinNodes]
  cases nodes with
  | nil => cases g <;> rfl
  | cons d ds =>
    cases g with
    | nil => rfl
    | cons e g => rfl

/-- Rendering the same link list again, transitions ended, leaves the same
elements. -/
theorem settled_joinLinks_twice (g : List LElem) (ls : List (Path × Path)) :
    (joinLinks ((joinLinks g ls).filter (fun e => !e.exiting)) ls).filter
        (fun e => !e.exiting) =
      (joinLinks g ls).filter (fun e => !e.exiting) := by
  rw [settled_joinLinks g ls, settled_joinLinks]
  cases ls with
  | nil => cases g <;> rfl
  | cons d ds =>
    cases g with
    | nil => rfl
    | cons e g => rfl

/-- C20. `updateDendrogram(root)` assigns no `children` and no `_children`:
the hierarchy, and with it the node list `root.descendants()` and the link
list `root.links()`, are the same for a second call, and so is the parsed
dataset.  Once the transitions have ended, the elements left under `gNode`
and `gLink` by the second call are those left by the first. -/
theorem updateDendrogram_twice (s : Session) :
    (updateDendrogram s).root = s.root ∧
      (∀ p, childrenAt (updateDendrogram s).root p = childrenAt s.root p ∧
        hiddenAt (updateDendrogram s).root p = hiddenAt s.root p) ∧
      descendants (updateDendrogram s).root = descendants s.root ∧
      links (updateDendrogram s).root = links s.root ∧
      (updateDendrogram s).fullData = s.fullData ∧
      (transitionsEnd (updateDendrogram (transitionsEnd (updateDendrogram s)))).gNode
        = (transitionsEnd (updateDendrogram s)).gNode ∧
      (transitionsEnd (updateDendrogram (transitionsEnd (updateDendrogram s)))).gLink
        = (transitionsEnd (updateDendrogram s)).gLink :=
  ⟨rfl, fun _ => ⟨rfl, rfl⟩, rfl, rfl, rfl,
    settled_joinNodes_twice s.root (enterFill s.colorFlag s.branchColor s.leafColor) s.gNode
      (descendants s.root),
    settled_joinLinks_twice s.gLink (links s.root)⟩

/-! ## Margins -/

/-- C21. A top margin of 0 does not override `options.margin`: with
`margin: 5, marginTop: 0` the view is built with a top margin of 5 (and the
three other margins 5), and with `margin: 0` alone every margin is 10. -/
theorem margin_zero_is_ignored :
    (∃ s, buildDendrogram sampleTree { margin := some 5, marginTop := some 0 } = Except.ok s ∧
      s.marginTop = 5 ∧ s.marginTop ≠ 0 ∧ s.marginBottom = 5 ∧ s.marginLeft = 5 ∧
        s.marginRight = 5) ∧
      (∃ s, buildDendrogram sampleTree { margin := some 0 } = Except.ok s ∧
        s.marginTop = 10 ∧ s.marginBottom = 10 ∧ s.marginLeft = 10 ∧ s.marginRight = 10) ∧
      (∀ m g : ℚ, m ≠ 0 → marginOf (some m) (some g) = m) ∧
      (∀ g : ℚ, g ≠ 0 → marginOf none (some g) = g ∧ marginOf (some 0) (some g) = g) ∧
      marginOf none none = 10 := by
  refine ⟨⟨_, rfl, ?_, ?_, ?_, ?_, ?_⟩, ⟨_, rfl, ?_, ?_, ?_, ?_⟩, ?_, ?_, ?_⟩
  all_goals first
    | (intro m g hm; simp [marginOf, hm])
    | (intro g hg; simp [marginOf, hg])
    | (simp [updateDendrogram, marginOf])

/-! ## The viewport -/

/-- C22, as stated, fails on the example session: after `panSVG(10, 20)` the
call `resizeSVG(600, 400)` translates the content group by (300, 200), the
centre of the canvas, not by (290, 180); the pan is not applied again. -/
theorem resize_forgets_pan :
    (panSVG sampleSession 10 20).transform = (240, 230) ∧
      (resizeSVG (panSVG sampleSession 10 20) 600 400).transform = (300, 200) ∧
      ¬ (∀ (s : Session) (x y w h : ℚ),
          (resizeSVG (panSVG s x y) w h).transform = (w / 2 - x, h / 2 - y)) := by
  refine ⟨?_, ?_, ?_⟩
  · have h : (sampleSession.panX, sampleSession.panY) = ((500 : ℚ) / 2, (500 : ℚ) / 2) := rfl
    simp only [Prod.mk.injEq] at h
    simp only [panSVG, h.1, h.2, Prod.mk.injEq]
    constructor <;> norm_num
  · simp only [resizeSVG, Prod.mk.injEq]
    constructor <;> norm_num
  · intro h
    have h2 := h sampleSession 10 20 600 400
    simp only [resizeSVG, Prod.mk.injEq] at h2
    norm_num at h2

/-- C22, amended. `resizeSVG(w, h)` sets the size of the svg, sets
`panX = w/2` and `panY = h/2`, and translates the content group by
`(w/2, h/2)` whatever pan was applied before; a `panSVG(x, y)` called after it
translates the content group by `(w/2 - x, h/2 - y)`. -/
theorem resizeSVG_recentres (s : Session) (w h : ℚ) :
    (resizeSVG s w h).svgWidth = w ∧ (resizeSVG s w h).svgHeight = h ∧
      (resizeSVG s w h).panX = w / 2 ∧ (resizeSVG s w h).panY = h / 2 ∧
      (resizeSVG s w h).transform = (w / 2, h / 2) ∧
      (∀ x y : ℚ, (resizeSVG (panSVG s x y) w h).transform = (w / 2, h / 2)) ∧
      (∀ x y : ℚ, (panSVG (resizeSVG s w h) x y).transform = (w / 2 - x, h / 2 - y)) ∧
      (resizeSVG s w h).root = s.root ∧ (resizeSVG s w h).gNode = s.gNode := by
  refine ⟨rfl, rfl, rfl, rfl, rfl, fun _ _ => rfl, ?_, rfl, rfl⟩
  intro x y
  simp only [panSVG, resizeSVG, Prod.mk.injEq]
  constructor <;> ring

/-! ## Radial distances -/

theorem reach_branchDistance {data : Data} {options : Options} {s : Session}
    (h : Reach data options s) :
    s.branchDistance =
      (match options.branchDistance with
        | some b => if b ≠ 0 then b else 75
        | none => 75) := by
  induction h with
  | build hb =>
    unfold buildDendrogram at hb
    simp only at hb
    split at hb
    · cases hb
    · injection hb with hb
      subst hb
      rfl
  | clickNode p _ ih => exact ih
  | @clickId s0 id _ ih =>
    rw [← ih]
    simp only [clickNode]
    cases getNode s0 id <;> rfl
  | @jump s0 id _ ih =>
    rw [← ih]
    unfold jumpToNode
    simp only
    generalize forEachHit (hierarchy s0.fullData 0) s0.root _ = out
    obtain ⟨r, t⟩ := out
    cases t <;> rfl
  | colors flag _ ih => exact ih
  | filter flag display _ ih => exact ih
  | pan x y _ ih => exact ih
  | resize w h _ ih => exact ih
  | settle _ ih => exact ih

theorem Mirrors.data_of_get? {dataset : Data} {root : HNode} (h : Mirrors dataset root)
    {p : Path} {n : HNode} (hn : root.get? p = some n) :
    ∃ d, dataset.get? p = some d ∧ n.data = d.fields ∧ n.depth = p.length := by
  have hp := h p
  rw [label_of_get? hn] at hp
  cases hd : dataset.get? p with
  | none => simp [hd] at hp
  | some d =>
    simp only [hd, Option.map_some', Option.some.injEq, Prod.mk.injEq] at hp
    exact ⟨d, rfl, hp.1, hp.2.1⟩

/-- C23. In every reachable state `branchDistance` is the value fixed by
`buildDendrogram`, and the radial distance in the target transform of a node
element is the `trueDepth` of the dataset object of its node times
`branchDistance`, whatever the depth of the node in the rendered hierarchy
(the length of its path); the two endpoints of a link element get the radii of
the elements of its source and target nodes. -/
theorem target_radius {data : Data} {options : Options} {s : Session}
    (h : Reach data options s) :
    s.branchDistance =
        (match options.branchDistance with
          | some b => if b ≠ 0 then b else 75
          | none => 75) ∧
      ∃ dataset, (options.noCenter → dataset = data) ∧
        (∀ (e : GElem) (n : HNode), e ∈ s.gNode → s.root.get? e.datum = some n →
          ∃ d, dataset.get? e.datum = some d ∧ n.data = d.fields ∧
            n.depth = e.datum.length ∧
            e.targetRadius s = some ((d.fields.trueDepth : ℚ) * s.branchDistance)) ∧
        (∀ (l : LElem) (a b : HNode), l ∈ s.gLink → s.root.get? l.source = some a →
          s.root.get? l.target = some b →
          l.targetRadii s
              = (some ((a.data.trueDepth : ℚ) * s.branchDistance),
                some ((b.data.trueDepth : ℚ) * s.branchDistance)) ∧
            ∀ e1 e2 : GElem, e1.datum = l.source → e2.datum = l.target →
              l.targetRadii s = (e1.targetRadius s, e2.targetRadius s)) := by
  obtain ⟨dataset, hm, _, _, hno⟩ := reach_invariant h
  refine ⟨reach_branchDistance h, dataset, hno, ?_, ?_⟩
  · intro e n _ hn
    obtain ⟨d, hd, hdata, hdepth⟩ := hm.data_of_get? hn
    refine ⟨d, hd, hdata, hdepth, ?_⟩
    simp [GElem.targetRadius, hn, nodeRadius, hdata]
  · intro l a b _ ha hb
    refine ⟨by simp [LElem.targetRadii, ha, hb, diagonalRadius], ?_⟩
    intro e1 e2 h1 h2
    simp [LElem.targetRadii, GElem.targetRadius, h1, h2, ha, hb, diagonalRadius, nodeRadius]

theorem target_radius_witness :
    Reach deepTree { center := some "B" } sampleRerooted ∧
      sampleRerooted.branchDistance = 75 ∧
      sampleRerooted.gNode.map (fun e => (e.id, e.datum.length, e.targetRadius sampleRerooted))
        = [("B", 0, some 75), ("D", 1, some 150)] :=
  ⟨Reach.build rfl, (target_radius (Reach.build rfl : Reach deepTree { center := some "B" }
      sampleRerooted)).1, by
    have h1 : sampleRerooted.gNode.map (fun e => (e.id, e.datum.length,
        (sampleRerooted.root.get? e.datum).map (fun n => n.data.trueDepth)))
        = [("B", 0, some 1), ("D", 1, some 2)] := by decide
    have h2 : sampleRerooted.gNode.map
          (fun e => (e.id, e.datum.length, e.targetRadius sampleRerooted))
        = (sampleRerooted.gNode.map (fun e => (e.id, e.datum.length,
            (sampleRerooted.root.get? e.datum).map (fun n => n.data.trueDepth)))).map
          (fun t => (t.1, t.2.1, t.2.2.map (fun z : ℤ => (z : ℚ) * 75))) := rfl
    rw [h2, h1]
    norm_num⟩

/-! ## What `getDataset` returns -/

/-- C29. `getDataset` is a total function of the id and the bucket.  It
returns `undefined` exactly when no object below an element of the bucket has
the id; an object it returns has the id and sits below an element of the
bucket. -/
theorem getDataset_result (id : String) (bucket : List Data) :
    (getDataset id bucket = none ↔
        ∀ (j : Nat) (c : Data) (q : Path) (e : Data),
          bucket[j]? = some c → c.get? q = some e → e.id ≠ id) ∧
      (∀ d : Data, getDataset id bucket = some d →
        d.id = id ∧ ∃ (j : Nat) (c : Data) (q : Path), bucket[j]? = some c ∧ c.get? q = some d) := by
  rw [(getDataset_find id bucket).1]
  constructor
  · rw [Option.map_eq_none', List.find?_eq_none]
    constructor
    · intro h j c q e hj hq he
      have hmem := preorderList_mem (k := 0) hj ((mem_preorder c q e).2 hq)
      exact h _ hmem (by simpa using he)
    · intro h pe hpe
      obtain ⟨j, c, q, hj, _, hq⟩ := mem_preorderList hpe
      have := h j c q pe.2 hj ((mem_preorder c q pe.2).1 hq)
      simpa using this
  · intro d hd
    cases hf : (preorderList bucket 0).find? (fun pe => pe.2.id == id) with
    | none => simp [hf] at hd
    | some pe =>
      simp only [hf, Option.map_some', Option.some.injEq] at hd
      subst hd
      refine ⟨by simpa using List.find?_some hf, ?_⟩
      obtain ⟨j, c, q, hj, _, hq⟩ := mem_preorderList (List.mem_of_find?_eq_some hf)
      exact ⟨j, c, q, hj, (mem_preorder c q pe.2).1 hq⟩

/-! ## `jumpToNode` only expands -/

theorem expand_keeps {root : HNode} (hs : SlotsOK root) (q p : Path)
    (hp : childrenAt root p = some Slot.array) :
    childrenAt (root.modify (fun n => n.setChildren n.hidden) q) p = some Slot.array := by
  have hk := tame_expand.slotOnly.keepsKids
  rw [childrenAt_eq_label, labelAt_modify _ hk]
  by_cases hpq : p = q
  · subst hpq
    rw [if_pos rfl]
    cases hget : root.get? p with
    | none => simp [childrenAt, hget] at hp
    | some n =>
      have hc : n.children = Slot.array := by simpa [childrenAt, hget] using hp
      have hh := hidden_of_children hs hget hc
      cases n with
      | mk d dep c hid ks =>
        simp only [HNode.hidden] at hh
        simp [HNode.label, HNode.setChildren, HNode.children, HNode.hidden, hh]
  · rw [if_neg hpq, ← childrenAt_eq_label]
    exact hp

theorem expandAll_keeps (ids : List String) (root : HNode) (hs : SlotsOK root) :
    SlotsOK (expandAll root ids).state ∧
      (∀ p, ((expandAll root ids).state.get? p).isSome = (root.get? p).isSome) ∧
      ∀ p, childrenAt root p = some Slot.array →
        childrenAt (expandAll root ids).state p = some Slot.array := by
  induction ids generalizing root with
  | nil => exact ⟨hs, fun _ => rfl, fun _ h => h⟩
  | cons a rest ih =>
    rw [expandAll]
    cases findId root a with
    | none => exact ⟨hs, fun _ => rfl, fun _ h => h⟩
    | some q =>
      obtain ⟨h1, h2, h3⟩ := ih _ (hs.modify_tame tame_expand q)
      refine ⟨h1, ?_, ?_⟩
      · intro p
        rw [h2 p, isSome_get?_modify _ tame_expand.slotOnly.keepsKids]
      · intro p hp
        exact h3 p (expand_keeps hs q p hp)

theorem forEachHit_keeps (nodes : HNode) (hits : List Path) (root : HNode) (hs : SlotsOK root) :
    SlotsOK (forEachHit nodes root hits).state ∧
      (∀ p, ((forEachHit nodes root hits).state.get? p).isSome = (root.get? p).isSome) ∧
      ∀ p, childrenAt root p = some Slot.array →
        childrenAt (forEachHit nodes root hits).state p = some Slot.array := by
  induction hits generalizing root with
  | nil => exact ⟨hs, fun _ => rfl, fun _ h => h⟩
  | cons p0 ps ih =>
    rw [forEachHit]
    have hx := expandAll_keeps ((ancestorPaths p0).filterMap (idAt nodes)) root hs
    generalize expandAll root ((ancestorPaths p0).filterMap (idAt nodes)) = out at hx
    obtain ⟨r, t⟩ := out
    cases t with
    | none =>
      obtain ⟨h1, h2, h3⟩ := ih r hx.1
      exact ⟨h1, fun p => (h2 p).trans (hx.2.1 p), fun p hp => h3 p (hx.2.2 p hp)⟩
    | some e => exact hx

/-- C30. In every reachable state and for every id, whether `jumpToNode`
completes or throws: every node of the node list before the call is in the node
list after it, and every node whose `children` held its child array still has
it there. -/
theorem jumpToNode_never_collapses {data : Data} {options : Options} {s : Session}
    (h : Reach data options s) (id : String) :
    (∀ p, p ∈ descendants s.root → p ∈ descendants (jumpToNode s id).state.root) ∧
      (∀ p, childrenAt s.root p = some Slot.array →
        childrenAt (jumpToNode s id).state.root p = some Slot.array) := by
  obtain ⟨_, _, hs, _, _⟩ := reach_invariant h
  rw [jumpToNode_root]
  obtain ⟨_, h2, h3⟩ := forEachHit_keeps (hierarchy s.fullData 0)
    ((descendants (hierarchy s.fullData 0)).filter
      (fun p => idAt (hierarchy s.fullData 0) p == some id)) s.root hs
  refine ⟨?_, h3⟩
  intro p hp
  rw [mem_descendants, reachable_iff] at hp ⊢
  exact ⟨by rw [h2 p]; exact hp.1, fun q hq hne => h3 q (hp.2 q hq hne)⟩

theorem jumpToNode_never_collapses_witness :
    Reach sampleTree {} sampleSession ∧
      descendants sampleSession.root = [[], [0], [1]] ∧
      (∀ p, p ∈ descendants sampleSession.root →
        p ∈ descendants (jumpToNode sampleSession "D").state.root) ∧
      descendants (jumpToNode sampleSession "D").state.root = [[], [0], [1], [0, 0]] :=
  ⟨Reach.build rfl, by decide,
    (jumpToNode_never_collapses (Reach.build rfl : Reach sampleTree {} sampleSession) "D").1,
    by decide⟩

end Dendrogram

namespace Charts

/-! ## Colours picked from a scale -/

theorem colorIndex_lt (n i j : Nat) (hn : 1 ≤ n) (h10 : n ≤ 10) (hij : i < j) :
    colorIndex 10 n i < colorIndex 10 n j := by
  unfold colorIndex
  have hn0 : (0 : ℚ) < n := by exact_mod_cast hn
  have hstep : ((10 : ℕ) : ℚ) / n * i + 1 ≤ ((10 : ℕ) : ℚ) / n * j := by
    have h1 : (1 : ℚ) ≤ ((10 : ℕ) : ℚ) / n := by
      rw [le_div_iff₀ hn0]
      have : (n : ℚ) ≤ 10 := by exact_mod_cast h10
      push_cast
      linarith
    have h2 : (i : ℚ) + 1 ≤ j := by exact_mod_cast hij
    have h0 : (0 : ℚ) ≤ ((10 : ℕ) : ℚ) / n := le_trans zero_le_one h1
    nlinarith
  have := Int.floor_le_floor hstep
  rw [Int.floor_add_one] at this
  omega

theorem mem_of_lookup {β : Type} (l : List (String × β)) (a : String) (b : β)
    (h : l.lookup a = some b) : (a, b) ∈ l := by
  induction l with
  | nil => simp at h
  | cons p l ih =>
    obtain ⟨x, y⟩ := p
    by_cases hx : a = x
    · subst hx
      simp only [List.lookup, beq_self_eq_true, Option.some.injEq] at h
      rw [h]
      exact List.mem_cons_self _ _
    · have hb : (a == x) = false := by simpa using hx
      simp only [List.lookup, hb] at h
      exact List.mem_cons_of_mem _ (ih h)

/-- C28. Every colour scale `buildChart` picks has 10 entries.  For a colour
scale of 10 entries,
for `n ≥ 1` colour keys and `i < n`: the index `floor((10 / n) * i)` lies in
0..9 and the scale has a colour there; when `n ≤ 10`, two positions with the
same index are the same position. -/
theorem color_index_defined (colorScale : List String) (hlen : colorScale.length = 10)
    (n i : Nat) (hn : 1 ≤ n) (hi : i < n) :
    (∀ (params : Params) (scale : List String), chosenScale params = some scale →
        scale.length = 10) ∧
      0 ≤ colorIndex colorScale.length n i ∧ colorIndex colorScale.length n i ≤ 9 ∧
      (colorAt colorScale (colorIndex colorScale.length n i)).isSome = true ∧
      (colorRange colorScale n)[i]? =
        some (colorAt colorScale (colorIndex colorScale.length n i)) ∧
      (n ≤ 10 → ∀ j, j < n →
        colorIndex colorScale.length n j = colorIndex colorScale.length n i → j = i) := by
  have hn0 : (0 : ℚ) < n := by exact_mod_cast hn
  have h0 : 0 ≤ colorIndex colorScale.length n i := by
    unfold colorIndex
    exact Int.floor_nonneg.2 (by positivity)
  have h9 : colorIndex colorScale.length n i ≤ 9 := by
    have : colorIndex colorScale.length n i < 10 := by
      unfold colorIndex
      rw [Int.floor_lt, hlen]
      have hi2 : (i : ℚ) < n := by exact_mod_cast hi
      rw [div_mul_eq_mul_div, div_lt_iff₀ hn0]
      push_cast
      linarith
    omega
  have hall : ∀ p ∈ colorScales, p.2.length = 10 := by decide
  refine ⟨?_, h0, h9, ?_, ?_, ?_⟩
  · intro params scale hs
    unfold chosenScale at hs
    have hmem : ∀ name, colorScales.lookup name = some scale → scale.length = 10 := by
      intro name hl
      exact hall (name, scale) (mem_of_lookup _ _ _ hl)
    cases ht : truthyKey params.colorScale with
    | none =>
      rw [ht] at hs
      exact hmem _ hs
    | some name =>
      rw [ht] at hs
      exact hmem _ hs
  · unfold colorAt
    rw [if_neg (by omega)]
    have : (colorIndex colorScale.length n i).toNat < colorScale.length := by omega
    simp [this]
  · simp [colorRange, hi]
  · intro h10 j hj hjj
    rw [hlen] at hjj
    rcases Nat.lt_trichotomy j i with h | h | h
    · have := colorIndex_lt n j i hn h10 h
      omega
    · exact h
    · have := colorIndex_lt n i j hn h10 h
      omega

theorem color_index_defined_witness :
    (["#2a4969", "#4575b4", "#74add1", "#abd9e9", "#e0f3f8", "#fee090", "#fdae61",
        "#f46d43", "#d73027", "#a50026"] : List String).length = 10 ∧ 1 ≤ 3 ∧ 2 < 3 ∧
      colorIndex 10 3 2 ≤ 9 :=
  ⟨rfl, by decide, by decide,
    (color_index_defined ["#2a4969", "#4575b4", "#74add1", "#abd9e9", "#e0f3f8", "#fee090",
      "#fdae61", "#f46d43", "#d73027", "#a50026"] rfl 3 2 (by decide) (by decide)).2.2.1⟩

/-! ## The bins of the column chart -/

/-- C27. With the primary key 1 (a number) in one row and "1" (a string) in
the other, `keys` holds both values, and each of the two bins receives both
rows: every row is in two bins and the bin sizes sum to 4 for 2 rows. -/
theorem mixed_keys_double_count (numeric : String → Option ℚ) (h1 : numeric "1" = some 1) :
    mixedRows.length = 2 ∧
      columnKeys mixedRows "k" = [JsVal.num 1, JsVal.str "1"] ∧
      (columnBins numeric { primaryKey := "k" } mixedRows).map (fun b => (b.key, b.contents))
        = [(JsVal.num 1, mixedRows), (JsVal.str "1", mixedRows)] ∧
      ((columnBins numeric { primaryKey := "k" } mixedRows).map
        (fun b => b.contents.length)).sum = 4 := by
  have hk : columnKeys mixedRows "k" = [JsVal.num 1, JsVal.str "1"] := by decide
  have hb : (columnBins numeric { primaryKey := "k" } mixedRows).map
      (fun b => (b.key, b.contents))
        = [(JsVal.num 1, mixedRows), (JsVal.str "1", mixedRows)] := by
    show ((columnKeys mixedRows "k").map (fillBin numeric { primaryKey := "k" } mixedRows)).map
        (fun b => (b.key, b.contents)) = _
    rw [hk]
    simp [fillBin, binStep, mixedRows, field, List.lookup, looseEq, h1, truthyKey]
  refine ⟨rfl, hk, hb, ?_⟩
  have hl := congrArg (List.map (fun p : JsVal × List Row => p.2.length)) hb
  simp only [List.map_map] at hl
  have hl2 : (columnBins numeric { primaryKey := "k" } mixedRows).map
      (fun b => b.contents.length) = [2, 2] := hl
  rw [hl2]
  rfl

theorem mixed_keys_double_count_witness :
    digits "1" = some 1 ∧
      ((columnBins digits { primaryKey := "k" } mixedRows).map
        (fun b => b.contents.length)).sum = 4 :=
  ⟨by simp [digits], (mixed_keys_double_count digits (by simp [digits])).2.2.2⟩

/-! ## Sorting the bins -/

theorem pairwise_orderedInsert_on {α : Type} (r : α → α → Prop) [DecidableRel r] (a : α)
    (l : List α) (htot : ∀ b ∈ l, r a b ∨ r b a)
    (htr : ∀ x ∈ a :: l, ∀ y ∈ a :: l, ∀ z ∈ a :: l, r x y → r y z → r x z)
    (hl : l.Pairwise r) : (l.orderedInsert r a).Pairwise r := by
  induction l with
  | nil => simp
  | cons b l ih =>
    have hb := List.pairwise_cons.1 hl
    have lift : ∀ x, x ∈ a :: l → x ∈ a :: b :: l := by
      intro x hx
      rcases List.mem_cons.1 hx with h | h
      · simp [h]
      · simp [h]
    rw [List.orderedInsert]
    split_ifs with hab
    · refine List.pairwise_cons.2 ⟨?_, hl⟩
      intro x hx
      rcases List.mem_cons.1 hx with h | h
      · rw [h]
        exact hab
      · exact htr a (by simp) b (by simp) x (by simp [h]) hab (hb.1 x h)
    · refine List.pairwise_cons.2 ⟨?_, ih ?_ ?_ hb.2⟩
      · intro x hx
        rcases (List.mem_orderedInsert r).1 hx with h | h
        · rw [h]
          exact (htot b (by simp)).resolve_left hab
        · exact hb.1 x h
      · intro c hc
        exact htot c (List.mem_cons_of_mem _ hc)
      · intro x hx y hy z hz
        exact htr x (lift x hx) y (lift y hy) z (lift z hz)

/-- Insertion sort yields a sorted list as soon as the relation is total and
transitive on the elements of the list. -/
theorem pairwise_insertionSort_on {α : Type} (r : α → α → Prop) [DecidableRel r] (l : List α)
    (htot : ∀ a ∈ l, ∀ b ∈ l, r a b ∨ r b a)
    (htr : ∀ x ∈ l, ∀ y ∈ l, ∀ z ∈ l, r x y → r y z → r x z) :
    (l.insertionSort r).Pairwise r := by
  induction l with
  | nil => simp
  | cons a l ih =>
    rw [List.insertionSort]
    have hmem : ∀ x, x ∈ List.insertionSort r l → x ∈ l := fun x hx =>
      (List.perm_insertionSort r l).mem_iff.1 hx
    have hmem2 : ∀ x, x ∈ a :: List.insertionSort r l → x ∈ a :: l := by
      intro x hx
      rcases List.mem_cons.1 hx with h | h
      · simp [h]
      · simp [hmem x h]
    refine pairwise_orderedInsert_on r a _ ?_ ?_ (ih ?_ ?_)
    · intro b hb
      exact htot a (by simp) b (List.mem_cons_of_mem _ (hmem b hb))
    · intro x hx y hy z hz
      exact htr x (hmem2 x hx) y (hmem2 y hy) z (hmem2 z hz)
    · intro x hx y hy
      exact htot x (List.mem_cons_of_mem _ hx) y (List.mem_cons_of_mem _ hy)
    · intro x hx y hy z hz
      exact htr x (List.mem_cons_of_mem _ hx) y (List.mem_cons_of_mem _ hy) z
        (List.mem_cons_of_mem _ hz)

/-- On values that are all numbers or all strings, `<` is the order of the
ranks. -/
theorem jsLt_iff_rank (numeric : String → Option ℚ) {vs : List JsVal} (hu : Uniform vs)
    {a b : JsVal} (ha : a ∈ vs) (hb : b ∈ vs) :
    jsLt numeric a b = true ↔ rank a < rank b := by
  rcases hu with h | h
  · have h1 := List.all_eq_true.1 h a ha
    have h2 := List.all_eq_true.1 h b hb
    cases a <;> cases b <;> simp [JsVal.isNum] at h1 h2
    simp [jsLt, toNumber, rank, Prod.Lex.lt_iff]
  · have h1 := List.all_eq_true.1 h a ha
    have h2 := List.all_eq_true.1 h b hb
    cases a <;> cases b <;> simp [JsVal.isStr] at h1 h2
    simp [jsLt, rank, Prod.Lex.lt_iff]

theorem jsLt_false_iff_rank (numeric : String → Option ℚ) {vs : List JsVal} (hu : Uniform vs)
    {a b : JsVal} (ha : a ∈ vs) (hb : b ∈ vs) :
    jsLt numeric a b = false ↔ rank b ≤ rank a := by
  rw [← not_lt, ← jsLt_iff_rank numeric hu ha hb]
  simp

theorem compareBins_count (numeric : String → Option ℚ) (params : Params)
    (h : truthyKey params.sortKey = none) (a b : Bin) :
    compareBins numeric params a b ≤ 0 ↔
      b.contents.length < a.contents.length ∨
        (a.contents.length = b.contents.length ∧ jsLt numeric b.key a.key = false) := by
  unfold compareBins
  rw [h]
  simp only [jsGt]
  split_ifs with h1 h2 h3 h4
  · simp only [Int.reduceLE, false_iff, not_or, not_and]
    exact ⟨by omega, fun h => by omega⟩
  · simp only [Int.reduceNeg, Left.neg_nonpos_iff, zero_le_one, true_iff]
    exact Or.inl h2
  · simp only [Int.reduceLE, false_iff, not_or, not_and]
    exact ⟨by omega, fun _ => by simp [h3]⟩
  · simp only [Int.reduceNeg, Left.neg_nonpos_iff, zero_le_one, true_iff]
    exact Or.inr ⟨by omega, by simpa using h3⟩
  · simp only [le_refl, true_iff]
    exact Or.inr ⟨by omega, by simpa using h3⟩

theorem compareBins_sort (numeric : String → Option ℚ) (params : Params) {k : String}
    (h : truthyKey params.sortKey = some k) (a b : Bin) :
    compareBins numeric params a b ≤ 0 ↔
      jsLt numeric b.sort a.sort = false ∧
        (jsLt numeric a.sort b.sort = true ∨ jsLt numeric b.key a.key = false) := by
  unfold compareBins
  rw [h]
  simp only [jsGt]
  split_ifs with h1 h2 h3 h4
  · simp [h1]
  · simp [h1, h2]
  · simp [h1, h2, h3]
  · simp [h1, h2, h3]
  · simp [h1, h2, h3]

theorem looseEq_self (numeric : String → Option ℚ) (v : JsVal) : looseEq numeric v v = true := by
  cases v <;> simp [looseEq]

theorem columnKeys_fold_subset (primaryKey : String) (vs : List JsVal) (rows : List Row)
    (acc : List JsVal) (hrows : ∀ d ∈ rows, field d primaryKey ∈ vs) (hacc : ∀ v ∈ acc, v ∈ vs) :
    ∀ v ∈ rows.foldl
        (fun keys d => if field d primaryKey ∈ keys then keys else keys ++ [field d primaryKey])
        acc, v ∈ vs := by
  induction rows generalizing acc with
  | nil => exact hacc
  | cons d rows ih =>
    rw [List.foldl_cons]
    refine ih _ (fun e he => hrows e (List.mem_cons_of_mem _ he)) ?_
    intro v hv
    split_ifs at hv
    · exact hacc v hv
    · rcases List.mem_append.1 hv with h | h
      · exact hacc v h
      · rw [List.mem_singleton.1 h]
        exact hrows d (List.mem_cons_self _ _)

theorem columnKeys_subset (chartData : List Row) (primaryKey : String) :
    ∀ v ∈ columnKeys chartData primaryKey, v ∈ chartData.map (fun d => field d primaryKey) :=
  columnKeys_fold_subset primaryKey _ chartData []
    (fun d hd => List.mem_map.2 ⟨d, hd, rfl⟩) (fun _ h => absurd h (List.not_mem_nil _))

theorem binStep_fold_key (numeric : String → Option ℚ) (params : Params) (key : JsVal)
    (rows : List Row) (obj : Bin) :
    (rows.foldl (binStep numeric params key) obj).key = obj.key := by
  induction rows generalizing obj with
  | nil => rfl
  | cons d rows ih =>
    rw [List.foldl_cons, ih]
    unfold binStep
    split_ifs <;> rfl

theorem binStep_fold_sort (numeric : String → Option ℚ) (params : Params) (key : JsVal)
    {k : String} (hk : truthyKey params.sortKey = some k) (rows : List Row) (obj : Bin) :
    ((rows.foldl (binStep numeric params key) obj).sort = obj.sort ∧
        ∀ d ∈ rows, looseEq numeric (field d params.primaryKey) key = false) ∨
      (rows.foldl (binStep numeric params key) obj).sort ∈ rows.map (fun d => field d k) := by
  induction rows generalizing obj with
  | nil => exact Or.inl ⟨rfl, fun _ h => absurd h (List.not_mem_nil _)⟩
  | cons d rows ih =>
    rw [List.foldl_cons]
    rcases ih (binStep numeric params key obj d) with ⟨h1, h2⟩ | h
    · by_cases hd : looseEq numeric (field d params.primaryKey) key = true
      · right
        rw [h1]
        simp [binStep, hd, hk]
      · left
        refine ⟨by rw [h1]; simp [binStep, hd], ?_⟩
        intro e he
        rcases List.mem_cons.1 he with h | h
        · rw [h]
          simpa using hd
        · exact h2 e h
    · right
      exact List.mem_cons_of_mem _ h

theorem columnBins_key (numeric : String → Option ℚ) (params : Params) (chartData : List Row)
    {b : Bin} (hb : b ∈ columnBins numeric params chartData) :
    b.key ∈ chartData.map (fun d => field d params.primaryKey) := by
  obtain ⟨key, hkey, rfl⟩ := List.mem_map.1 hb
  rw [fillBin, binStep_fold_key]
  exact columnKeys_subset chartData params.primaryKey key hkey

theorem columnBins_sort (numeric : String → Option ℚ) (params : Params) (chartData : List Row)
    {k : String} (hk : truthyKey params.sortKey = some k) {b : Bin}
    (hb : b ∈ columnBins numeric params chartData) :
    b.sort ∈ chartData.map (fun d => field d k) := by
  obtain ⟨key, hkey, rfl⟩ := List.mem_map.1 hb
  obtain ⟨d, hd, hdk⟩ := List.mem_map.1 (columnKeys_subset chartData params.primaryKey key hkey)
  rcases binStep_fold_sort numeric params key hk chartData { key := key } with ⟨_, h2⟩ | h
  · have := h2 d hd
    rw [hdk, looseEq_self] at this
    cases this
  · exact h

theorem char_toNat_valid (c : Char) :
    c.toNat < 55296 ∨ (57343 < c.toNat ∧ c.toNat < 1114112) := by
  have := c.valid
  simpa [UInt32.isValidChar, Nat.isValidChar, Char.toNat] using this

theorem char_eq_of_toNat {c d : Char} (h : c.toNat = d.toNat) : c = d := by
  rw [← Char.ofNat_toNat c, ← Char.ofNat_toNat d, h]

/-- Two strings with the same code units are the same string. -/
theorem flatMap_utf16_injective :
    ∀ l m : List Char, l.flatMap utf16 = m.flatMap utf16 → l = m
  | [], [] => fun _ => rfl
  | [], d :: m => by
    intro h
    simp only [List.flatMap_nil, List.flatMap_cons, utf16] at h
    split_ifs at h <;> simp at h
  | c :: l, [] => by
    intro h
    simp only [List.flatMap_nil, List.flatMap_cons, utf16] at h
    split_ifs at h <;> simp at h
  | c :: l, d :: m => by
    intro h
    have hc := char_toNat_valid c
    have hd := char_toNat_valid d
    simp only [List.flatMap_cons, utf16] at h
    split_ifs at h with h1 h2 h2
    · simp only [List.singleton_append, List.cons.injEq] at h
      rw [char_eq_of_toNat h.1, flatMap_utf16_injective l m h.2]
    · simp only [List.singleton_append, List.cons_append, List.nil_append,
        List.cons.injEq] at h
      omega
    · simp only [List.singleton_append, List.cons_append, List.nil_append,
        List.cons.injEq] at h
      omega
    · simp only [List.cons_append, List.nil_append, List.cons.injEq] at h
      have : c.toNat = d.toNat := by omega
      rw [char_eq_of_toNat this, flatMap_utf16_injective l m h.2.2]

theorem codeUnits_injective {s t : String} (h : codeUnits s = codeUnits t) : s = t :=
  String.ext (flatMap_utf16_injective s.toList t.toList h)

theorem rank_injective {vs : List JsVal} (hu : Uniform vs) {a b : JsVal} (ha : a ∈ vs)
    (hb : b ∈ vs) (h : rank a = rank b) : a = b := by
  rcases hu with hu | hu
  · have h1 := List.all_eq_true.1 hu a ha
    have h2 := List.all_eq_true.1 hu b hb
    cases a <;> cases b <;> simp [JsVal.isNum] at h1 h2
    simp only [rank, EmbeddingLike.apply_eq_iff_eq, Prod.mk.injEq, and_true] at h
    rw [h]
  · have h1 := List.all_eq_true.1 hu a ha
    have h2 := List.all_eq_true.1 hu b hb
    cases a <;> cases b <;> simp [JsVal.isStr] at h1 h2
    simp only [rank, EmbeddingLike.apply_eq_iff_eq, Prod.mk.injEq, true_and] at h
    rw [codeUnits_injective h]

theorem columnKeys_fold_nodup (primaryKey : String) (rows : List Row) (acc : List JsVal)
    (hacc : acc.Nodup) :
    (rows.foldl
      (fun keys d => if field d primaryKey ∈ keys then keys else keys ++ [field d primaryKey])
      acc).Nodup := by
  induction rows generalizing acc with
  | nil => exact hacc
  | cons d rows ih =>
    rw [List.foldl_cons]
    apply ih
    split_ifs with h
    · exact hacc
    · exact List.Nodup.append hacc (List.nodup_singleton _) (by simpa using h)

theorem columnBins_keys (numeric : String → Option ℚ) (params : Params) (chartData : List Row) :
    (columnBins numeric params chartData).map Bin.key = columnKeys chartData params.primaryKey := by
  unfold columnBins
  rw [List.map_map]
  conv_rhs => rw [← List.map_id (columnKeys chartData params.primaryKey)]
  apply List.map_congr_left
  intro key _
  simp [fillBin, binStep_fold_key]

theorem sortedBins_keys_differ (numeric : String → Option ℚ) (params : Params)
    (chartData : List Row) :
    (sortedBins numeric params chartData).Pairwise (fun a b => a.key ≠ b.key) := by
  have hperm : (sortedBins numeric params chartData).Perm (columnBins numeric params chartData) :=
    List.perm_insertionSort _ _
  have hnd : ((sortedBins numeric params chartData).map Bin.key).Nodup := by
    rw [(hperm.map Bin.key).nodup_iff, columnBins_keys]
    exact columnKeys_fold_nodup params.primaryKey chartData [] List.nodup_nil
  exact List.pairwise_map.1 hnd

/-- C26, as stated, fails on rows with a missing value.  With `sortKey` `"n"`
and the rows x (n = 3), y (no n), z (n = 1), the comparison function returns
-1 on x, y and on y, z, since a comparison with `undefined` is false and the
keys decide; the bins are drawn x, y, z, the sort value 3 before the sort value
1.  With no `sortKey` and the keys b, none, a, one row each, the function
returns 0 on b and the bin without key and on that bin and a; the bins are
drawn b, none, a, the key b before the key a. -/
theorem sorted_bins_out_of_order :
    (sortedBins digits { primaryKey := "k", sortKey := some "n" } gapRows).map
        (fun b => (b.key, b.sort))
      = [(JsVal.str "x", JsVal.num 3), (JsVal.str "y", JsVal.undef),
          (JsVal.str "z", JsVal.num 1)] ∧
      jsLt digits (JsVal.num 1) (JsVal.num 3) = true ∧
      (sortedBins digits { primaryKey := "k" } keylessRows).map
          (fun b => (b.key, b.contents.length))
        = [(JsVal.str "b", 1), (JsVal.undef, 1), (JsVal.str "a", 1)] ∧
      jsLt digits (JsVal.str "a") (JsVal.str "b") = true ∧
      ¬ (∀ (params : Params) (chartData : List Row) (k : String),
          truthyKey params.sortKey = some k →
          (sortedBins digits params chartData).Pairwise (fun a b =>
            jsLt digits b.sort a.sort = false ∧
              (jsLt digits a.sort b.sort = false → jsLt digits b.key a.key = false))) ∧
      ¬ (∀ (params : Params) (chartData : List Row),
          truthyKey params.sortKey = none →
          (sortedBins digits params chartData).Pairwise (fun a b =>
            b.contents.length ≤ a.contents.length ∧
              (a.contents.length = b.contents.length → jsLt digits b.key a.key = false))) := by
  refine ⟨by decide, by decide, by decide, by decide, ?_, ?_⟩
  · intro h
    exact absurd (h { primaryKey := "k", sortKey := some "n" } gapRows "n" rfl) (by decide)
  · intro h
    exact absurd (h { primaryKey := "k" } keylessRows rfl) (by decide)

/-- C26, amended. For rows whose primary keys are all numbers or all
strings, and whose sort values are so too when `sortKey` is given, the sorted
`bins` are a rearrangement of the bins and, for every two of them with the first drawn
before the second: with no `sortKey`, the first has at least as many rows, and
with equally many rows its key is the smaller one; with a `sortKey`, its sort
value is not greater, and when the sort values tie its key is the smaller
one. -/
theorem column_bins_sorted (numeric : String → Option ℚ) (params : Params)
    (chartData : List Row)
    (hkey : Uniform (chartData.map (fun d => field d params.primaryKey)))
    (hsort : ∀ k, truthyKey params.sortKey = some k →
      Uniform (chartData.map (fun d => field d k))) :
    (sortedBins numeric params chartData).Perm (columnBins numeric params chartData) ∧
      (truthyKey params.sortKey = none →
        (sortedBins numeric params chartData).Pairwise (fun a b =>
          b.contents.length ≤ a.contents.length ∧
            (a.contents.length = b.contents.length → jsLt numeric a.key b.key = true))) ∧
      (∀ k, truthyKey params.sortKey = some k →
        (sortedBins numeric params chartData).Pairwise (fun a b =>
          jsLt numeric b.sort a.sort = false ∧
            (jsLt numeric a.sort b.sort = false → jsLt numeric a.key b.key = true))) := by
  have hbk := fun (b : Bin) (hb : b ∈ columnBins numeric params chartData) =>
    columnBins_key numeric params chartData hb
  have hmem : ∀ b, b ∈ sortedBins numeric params chartData →
      b ∈ columnBins numeric params chartData := fun b hb =>
    (List.perm_insertionSort _ _).mem_iff.1 hb
  have hstrict : ∀ a b, a ∈ sortedBins numeric params chartData →
      b ∈ sortedBins numeric params chartData → a.key ≠ b.key →
      jsLt numeric b.key a.key = false → jsLt numeric a.key b.key = true := by
    intro a b ha hb hne hle
    rw [jsLt_false_iff_rank numeric hkey (hbk b (hmem b hb)) (hbk a (hmem a ha))] at hle
    rw [jsLt_iff_rank numeric hkey (hbk a (hmem a ha)) (hbk b (hmem b hb))]
    exact lt_of_le_of_ne hle
      (fun h => hne (rank_injective hkey (hbk a (hmem a ha)) (hbk b (hmem b hb)) h))
  have hdiff := sortedBins_keys_differ numeric params chartData
  refine ⟨List.perm_insertionSort _ _, ?_, ?_⟩
  · intro hnone
    have hR : ∀ a ∈ columnBins numeric params chartData,
        ∀ b ∈ columnBins numeric params chartData,
        (compareBins numeric params a b ≤ 0 ↔
          b.contents.length < a.contents.length ∨
            (a.contents.length = b.contents.length ∧ rank a.key ≤ rank b.key)) := by
      intro a ha b hb
      rw [compareBins_count numeric params hnone,
        jsLt_false_iff_rank numeric hkey (hbk b hb) (hbk a ha)]
    have hsorted := pairwise_insertionSort_on (fun a b => compareBins numeric params a b ≤ 0)
      (columnBins numeric params chartData)
      (by
        intro a ha b hb
        simp only [hR a ha b hb, hR b hb a ha]
        rcases Nat.lt_trichotomy a.contents.length b.contents.length with h | h | h
        · exact Or.inr (Or.inl h)
        · rcases le_total (rank a.key) (rank b.key) with h2 | h2
          · exact Or.inl (Or.inr ⟨h, h2⟩)
          · exact Or.inr (Or.inr ⟨h.symm, h2⟩)
        · exact Or.inl (Or.inl h))
      (by
        intro a ha b hb c hc
        simp only [hR a ha b hb, hR b hb c hc, hR a ha c hc]
        rintro (h1 | ⟨h1, h2⟩) (h3 | ⟨h3, h4⟩)
        · exact Or.inl (by omega)
        · exact Or.inl (by omega)
        · exact Or.inl (by omega)
        · exact Or.inr ⟨by omega, le_trans h2 h4⟩)
    refine List.Pairwise.imp_of_mem ?_ (List.Pairwise.and hsorted hdiff)
    intro a b ha hb hab
    rcases (compareBins_count numeric params hnone a b).1 hab.1 with h | ⟨h1, h2⟩
    · exact ⟨by omega, fun he => by omega⟩
    · exact ⟨by omega, fun _ => hstrict a b ha hb hab.2 h2⟩
  · intro k hk
    have hbs := fun (b : Bin) (hb : b ∈ columnBins numeric params chartData) =>
      columnBins_sort numeric params chartData hk hb
    have hsu := hsort k hk
    have hR : ∀ a ∈ columnBins numeric params chartData,
        ∀ b ∈ columnBins numeric params chartData,
        (compareBins numeric params a b ≤ 0 ↔
          rank a.sort ≤ rank b.sort ∧ (rank a.sort < rank b.sort ∨ rank a.key ≤ rank b.key)) := by
      intro a ha b hb
      rw [compareBins_sort numeric params hk,
        jsLt_false_iff_rank numeric hkey (hbk b hb) (hbk a ha),
        jsLt_false_iff_rank numeric hsu (hbs b hb) (hbs a ha),
        jsLt_iff_rank numeric hsu (hbs a ha) (hbs b hb)]
    have hsorted := pairwise_insertionSort_on (fun a b => compareBins numeric params a b ≤ 0)
      (columnBins numeric params chartData)
      (by
        intro a ha b hb
        simp only [hR a ha b hb, hR b hb a ha]
        rcases lt_trichotomy (rank a.sort) (rank b.sort) with h | h | h
        · exact Or.inl ⟨le_of_lt h, Or.inl h⟩
        · rcases le_total (rank a.key) (rank b.key) with h2 | h2
          · exact Or.inl ⟨le_of_eq h, Or.inr h2⟩
          · exact Or.inr ⟨le_of_eq h.symm, Or.inr h2⟩
        · exact Or.inr ⟨le_of_lt h, Or.inl h⟩)
      (by
        intro a ha b hb c hc
        simp only [hR a ha b hb, hR b hb c hc, hR a ha c hc]
        rintro ⟨h1, h2⟩ ⟨h3, h4⟩
        refine ⟨le_trans h1 h3, ?_⟩
        rcases h2 with h2 | h2
        · exact Or.inl (lt_of_lt_of_le h2 h3)
        · rcases h4 with h4 | h4
          · exact Or.inl (lt_of_le_of_lt h1 h4)
          · exact Or.inr (le_trans h2 h4))
    refine List.Pairwise.imp_of_mem ?_ (List.Pairwise.and hsorted hdiff)
    intro a b ha hb hab
    obtain ⟨h1, h2⟩ := (compareBins_sort numeric params hk a b).1 hab.1
    refine ⟨h1, fun h3 => ?_⟩
    rcases h2 with h2 | h2
    · rw [h3] at h2
      cases h2
    · exact hstrict a b ha hb hab.2 h2

theorem column_bins_sorted_witness :
    Uniform (sampleRows.map (fun d => field d "k")) ∧
      (sortedBins digits { primaryKey := "k" } sampleRows).map
          (fun b => (b.key, b.contents.length))
        = [(JsVal.str "b", 2), (JsVal.str "a", 1), (JsVal.str "c", 1)] ∧
      (sortedBins digits { primaryKey := "k" } sampleRows).Pairwise (fun a b =>
        b.contents.length ≤ a.contents.length ∧
          (a.contents.length = b.contents.length → jsLt digits a.key b.key = true)) ∧
      Uniform (rankedRows.map (fun d => field d "k")) ∧
      Uniform (rankedRows.map (fun d => field d "n")) ∧
      (sortedBins digits { primaryKey := "k", sortKey := some "n" } rankedRows).map
          (fun b => (b.sort, b.key))
        = [(JsVal.num 1, JsVal.str "c"), (JsVal.num 2, JsVal.str "a"),
            (JsVal.num 2, JsVal.str "b")] ∧
      (sortedBins digits { primaryKey := "k", sortKey := some "n" } rankedRows).Pairwise
        (fun a b =>
          jsLt digits b.sort a.sort = false ∧
            (jsLt digits a.sort b.sort = false → jsLt digits a.key b.key = true)) :=
  ⟨by decide, by decide,
    (column_bins_sorted digits { primaryKey := "k" } sampleRows (by decide)
      (fun k hk => by cases hk)).2.1 rfl,
    by decide, by decide, by decide,
    (column_bins_sorted digits { primaryKey := "k", sortKey := some "n" } rankedRows (by decide)
      (fun k hk => by cases hk; decide)).2.2 "n" rfl⟩

end Charts

namespace MapView

open Dendrogram (JsError)

/-! ## The scale entry of a map piece -/

/-- C24. For file objects written as the template describes, with scale
entries that have `key`, `value` and `label`, and `options.scaleValue` naming
the key of an entry: the lookup compares `options.scaleValue` with the absent
`name` of every entry and finds none, so `buildMap` throws before it has a
maximum value or a legend title and `attachPaths` throws before it has a fill.
An entry is found when it carries the name under `name`. -/
theorem scale_lookup_reads_name :
    sampleFile.Conforms ∧
      scaleOf { useColorScale := true, scaleValue := some "count" } sampleFile
        = Except.error (JsError.typeError "Cannot read properties of undefined (reading 'value')") ∧
      scaleSetup { useColorScale := true, scaleValue := some "count" } [sampleFile]
        = Except.error (JsError.typeError "Cannot read properties of undefined (reading 'value')") ∧
      pieceFill { useColorScale := true, scaleValue := some "count" } sampleFile
        = Except.error (JsError.typeError "Cannot read properties of undefined (reading 'value')") ∧
      (∀ (options : MapOptions) (file : FileMeta) (k : String), file.Conforms →
        options.scaleValue = some k → ∃ e, scaleOf options file = Except.error e) ∧
      scaleSetup { useColorScale := true, scaleValue := some "count" }
          [{ sampleFile with
              scaleValues := some [{ name := some "count", value := 12, label := "Count" }] }]
        = Except.ok (12, "Count") := by
  refine ⟨?_, rfl, rfl, rfl, ?_, ?_⟩
  · constructor
    · intro entries h el hel
      cases h
      simp only [List.mem_singleton] at hel
      subst hel
      exact ⟨rfl, rfl⟩
    · intro a h
      cases h
      exact ⟨_, rfl⟩
  · intro options file k hc hk
    unfold scaleOf
    cases hs : file.scaleValues with
    | none => exact ⟨_, rfl⟩
    | some entries =>
      have hnone : entries.find? (fun el => el.name == options.scaleValue) = none := by
        rw [List.find?_eq_none]
        intro el hel
        rw [(hc.1 entries hs el hel).2, hk]
        simp
      simp only [hnone]
      exact ⟨_, rfl⟩
  · simp [scaleSetup, maxValueLoop, scaleOf, sampleFile]

/-! ## The handle of a map piece -/

/-- C25. For a piece that has a path, `attachHandles` throws when
`adjustCenter` is omitted, when it is the object of the template, and when it
is an array with no element for the current rotation; only an array element
whose `rotation` is the current rotation gives the handle a position, the
centroid shifted by `cx` and `cy` percent of the canvas. -/
theorem handle_needs_array_entry :
    sampleFile.Conforms ∧
      handlePosition {} [{ mrgid := "8364", centroid := (100, 50) }] { mrgid := "8364" }
        = Except.error (JsError.typeError "Cannot read properties of undefined (reading 'find')") ∧
      handlePosition {} [{ mrgid := "8364", centroid := (100, 50) }] sampleFile
        = Except.error (JsError.typeError "d.adjustCenter.find is not a function") ∧
      handlePosition {} [{ mrgid := "8364", centroid := (100, 50) }]
          { mrgid := "8364", adjustCenter := some (Adjust.array [⟨90, 10, -4⟩]) }
        = Except.error (JsError.typeError "Cannot read properties of undefined (reading 'cx')") ∧
      handlePosition {} [{ mrgid := "8364", centroid := (100, 50) }]
          { mrgid := "8364", adjustCenter := some (Adjust.array [⟨0, 10, -4⟩]) }
        = Except.ok (some (150, 40)) ∧
      (∀ (options : MapOptions) (pathData : List Feature) (d : FileMeta), d.Conforms →
        (∃ p ∈ pathData, p.mrgid = d.mrgid) →
        ∃ e, handlePosition options pathData d = Except.error e) ∧
      (∀ (options : MapOptions) (p : Feature) (d : FileMeta) (adjust : AdjustEntry)
        (entries : List AdjustEntry), p.mrgid = d.mrgid →
        d.adjustCenter = some (Adjust.array entries) →
        entries.find? (fun el => el.rotation == options.rotation) = some adjust →
        handlePosition options [p] d
          = Except.ok (some (p.centroid.1 + adjust.cx * options.canvasWidth / 100,
              p.centroid.2 + adjust.cy * options.canvasHeight / 100))) := by
  refine ⟨?_, rfl, rfl, rfl, ?_, ?_, ?_⟩
  · constructor
    · intro entries h el hel
      cases h
      simp only [List.mem_singleton] at hel
      subst hel
      exact ⟨rfl, rfl⟩
    · intro a h
      cases h
      exact ⟨_, rfl⟩
  · simp [handlePosition, MapOptions.rotation, MapOptions.canvasWidth, MapOptions.canvasHeight]
    norm_num
  · intro options pathData d hc ⟨p, hp, hpd⟩
    unfold handlePosition
    cases hf : pathData.find? (fun p => p.mrgid == d.mrgid) with
    | none =>
      rw [List.find?_eq_none] at hf
      exact absurd (by simpa using hpd) (hf p hp)
    | some q =>
      cases ha : d.adjustCenter with
      | none => exact ⟨_, rfl⟩
      | some a =>
        obtain ⟨entries, he⟩ := hc.2 a ha
        subst he
        exact ⟨_, rfl⟩
  · intro options p d adjust entries hp ha hf
    simp [handlePosition, hp, ha, hf]

end MapView
